import Mathlib

/-! sdoc: the tokenizer and the document parser of `sdt_doc.cpp`.

A shallow embedding of `Lexer` and `Parser` from `src/sdt_doc.cpp`.

* Text is a list of characters (`Str`); a `std::string` is a byte string, and the
  character classes of `<cctype>` are taken in the "C" locale (only ASCII is classified).
* The lexer only ever reads `src` at indices `>= pos`, so the pair `(src, pos)` is
  represented by the unread suffix `src[pos..]`; `pos` grows exactly when the suffix shrinks.
* `peek` returns the NUL character both past the end and on a NUL byte, as in the source.
* Loops of the lexer consume one character per iteration and are structural recursions.
  Loops of the parser may run forever (the lexer can return the same token again and again),
  so they carry a fuel counter; running out of fuel is the outcome `Res.timeout`.
* A C++ exception (`throw runtime_error(msg)`) is the outcome `Res.fatal msg`.
* Memory is unbounded: a loop that keeps appending to a vector or a string without
  consuming input is a run that never ends.
-/

namespace Sdoc

/-- Byte strings of the program (`std::string`). -/
abbrev Str := List Char

/-- The NUL character, which `peek` returns past the end of the input. -/
def NUL : Char := Char.ofNat 0

/-- C `isspace` in the "C" locale: space, `\t`, `\n`, `\v`, `\f`, `\r`. -/
def isspace (c : Char) : Bool := c.toNat == 32 || (9 ≤ c.toNat && c.toNat ≤ 13)

/-- C `isdigit`. -/
def isdigit (c : Char) : Bool := 48 ≤ c.toNat && c.toNat ≤ 57

/-- C `isalpha` in the "C" locale. -/
def isalpha (c : Char) : Bool :=
  (65 ≤ c.toNat && c.toNat ≤ 90) || (97 ≤ c.toNat && c.toNat ≤ 122)

/-- C `isalnum` in the "C" locale. -/
def isalnum (c : Char) : Bool := isalpha c || isdigit c

/-- Token kinds, `enum TokenType`. -/
inductive TokenType where
  | TOK_EOF | TOK_ID | TOK_STR | TOK_NUM | TOK_LB | TOK_RB
  | TOK_SEMI | TOK_EQ | TOK_COLON | TOK_COMMA | TOK_AT
  deriving DecidableEq, Repr

open TokenType

/-- A token, `struct Token`. -/
structure Token where
  type : TokenType
  val : Str
  deriving DecidableEq, Repr

/-! ## Lexer -/

namespace Lexer

/-- `Lexer::peek(off)`: the character `off` places ahead, NUL past the end. -/
def peek (s : Str) (off : Nat) : Char := (s.get? off).getD NUL

/-- `Lexer::get()`: the current character (NUL at the end) and the advanced cursor. -/
def get (s : Str) : Char × Str := (s.headD NUL, s.tail)

/-- The loop `while (peek() && peek() != '\n') get();` of `skip`. -/
def skipLine : Str → Str
  | [] => []
  | c :: cs => if c != NUL && c != '\n' then skipLine cs else c :: cs

/-- The loop `while (peek() && !(peek() == '*' && peek(1) == '/')) get();` of `skip`. -/
def skipBlock : Str → Str
  | [] => []
  | c :: cs => if c != NUL && !(c == '*' && peek cs 0 == '/') then skipBlock cs else c :: cs

/-- The outer `while (peek())` loop of `Lexer::skip`; every iteration that continues
consumes at least one character, so `fuel` bounds the number of iterations. -/
def skipLoop : Nat → Str → Str
  | 0, s => s
  | n + 1, s =>
    if peek s 0 == NUL then s
    else if isspace (peek s 0) then skipLoop n (get s).2
    else if peek s 0 == '#' then skipLoop n (skipLine s)
    else if peek s 0 == '/' && peek s 1 == '/' then skipLoop n (skipLine s)
    else if peek s 0 == '/' && peek s 1 == '*' then
      let s1 := (get (get s).2).2
      let s2 := skipBlock s1
      let s3 := if peek s2 0 != NUL then (get (get s2).2).2 else s2
      skipLoop n s3
    else s

/-- `Lexer::skip`. -/
def skip (s : Str) : Str := skipLoop (s.length + 1) s

/-- The loop of `Lexer::str` after the opening quote `q` was read: the collected text and
the cursor at the closing quote (or at the end). -/
def strLoop (q : Char) : Str → Str × Str
  | [] => ([], [])
  | c :: cs =>
    if c != NUL && c != q then
      if c == '\\' && peek cs 0 != NUL then
        match cs with
        | [] => ([], [])
        | e :: cs2 => let r := strLoop q cs2; (e :: r.1, r.2)
      else
        let r := strLoop q cs; (c :: r.1, r.2)
    else ([], c :: cs)

/-- `Lexer::str`. -/
def str (s : Str) : Str × Str :=
  let q := (get s).1
  let r := strLoop q (get s).2
  if peek r.2 0 == q then (r.1, (get r.2).2) else r

/-- The characters of an identifier token. -/
def isIdChar (c : Char) : Bool :=
  c != NUL && (isalnum c || c == '_' || c == '*' || c == '&' || c == '<' || c == '>')

/-- The numeric-literal branch of `Lexer::next`. -/
def number (s : Str) : Str × Str :=
  let sign := if peek s 0 == '-' then [(get s).1] else []
  let s1 := if peek s 0 == '-' then (get s).2 else s
  let ds := s1.takeWhile isdigit
  let s2 := s1.dropWhile isdigit
  if peek s2 0 == '.' then
    let s3 := (get s2).2
    (sign ++ ds ++ [(get s2).1] ++ s3.takeWhile isdigit, s3.dropWhile isdigit)
  else (sign ++ ds, s2)

/-- `Lexer::next`: the next token and the advanced cursor. -/
def next (src : Str) : Token × Str :=
  let s := skip src
  if peek s 0 == NUL then (⟨TOK_EOF, []⟩, s)
  else if peek s 0 == '"' || peek s 0 == '\'' then
    let r := str s; (⟨TOK_STR, r.1⟩, r.2)
  else if peek s 0 == '{' then (⟨TOK_LB, ['{']⟩, (get s).2)
  else if peek s 0 == '}' then (⟨TOK_RB, ['}']⟩, (get s).2)
  else if peek s 0 == ';' then (⟨TOK_SEMI, [';']⟩, (get s).2)
  else if peek s 0 == '=' then (⟨TOK_EQ, ['=']⟩, (get s).2)
  else if peek s 0 == ':' then (⟨TOK_COLON, [':']⟩, (get s).2)
  else if peek s 0 == ',' then (⟨TOK_COMMA, [',']⟩, (get s).2)
  else if peek s 0 == '@' then (⟨TOK_AT, ['@']⟩, (get s).2)
  else if isdigit (peek s 0) || (peek s 0 == '-' && isdigit (peek s 1)) then
    let r := number s; (⟨TOK_NUM, r.1⟩, r.2)
  else (⟨TOK_ID, s.takeWhile isIdChar⟩, s.dropWhile isIdChar)

end Lexer

/-! ## Data model -/

/-- A member of a definition, `struct Field`. -/
structure Field where
  type : Str := []
  name : Str := []
  desc : Str := []
  defval : Str := []
  tags : List Str := []
  required : Bool := false
  deriving DecidableEq, Repr

/-- Assignment `m[k] = v` on a `std::map<string,string>`, kept as a list of pairs sorted by
key with unique keys. -/
def mapSet (k v : Str) : List (Str × Str) → List (Str × Str)
  | [] => [(k, v)]
  | (k1, v1) :: m =>
    if k = k1 then (k, v) :: m
    else if k < k1 then (k, v) :: (k1, v1) :: m
    else (k1, v1) :: mapSet k v m

/-- A top-level unit, `struct Def`. -/
structure Def where
  kind : Str := []
  name : Str := []
  desc : Str := []
  ret : Str := []
  category : Str := []
  version : Str := []
  author : Str := []
  since : Str := []
  deprecated : Str := []
  fields : List Field := []
  links : List Str := []
  examples : List Str := []
  notes : List Str := []
  tags : List Str := []
  «meta» : List (Str × Str) := []
  deriving DecidableEq, Repr

/-- Outcome of a parser routine: a value, a thrown `runtime_error`, or fuel exhausted. -/
inductive Res (α : Type) where
  | ok (a : α)
  | fatal (msg : Str)
  | timeout
  deriving DecidableEq, Repr

namespace Res

/-- Sequencing of outcomes: an exception or exhaustion ends the computation. -/
def bind {α β : Type} (r : Res α) (f : α → Res β) : Res β :=
  match r with
  | ok a => f a
  | fatal m => fatal m
  | timeout => timeout

instance : Monad Res where
  pure := Res.ok
  bind := Res.bind

end Res

/-! ## Parser -/

/-- State of `class Parser`: the lexer (its unread input) and the current token. -/
structure Parser where
  lex : Str
  tok : Token
  deriving DecidableEq, Repr

namespace Parser

/-- `Parser::eat`. -/
def eat (p : Parser) : Parser := ⟨(Lexer.next p.lex).2, (Lexer.next p.lex).1⟩

/-- `Parser::match(TokenType)`. -/
def matchT (t : TokenType) (p : Parser) : Bool × Parser :=
  if p.tok.type = t then (true, p.eat) else (false, p)

/-- `Parser::match(const string&)`. -/
def matchS (s : Str) (p : Parser) : Bool × Parser :=
  if p.tok.val = s then (true, p.eat) else (false, p)

/-- `Parser::expect`. -/
def expect (t : TokenType) (p : Parser) : Res Parser :=
  match p.matchT t with
  | (true, p) => .ok p
  | (false, p) => .fatal ("Expected token, got: ".toList ++ p.tok.val)

/-- The loop of `Parser::type`, with `t` the text composed so far. -/
def typeLoop : Nat → Parser → Str → Res (Str × Parser)
  | 0, _, _ => .timeout
  | n + 1, p, t =>
    if p.tok.type = TOK_ID then
      let t1 := t ++ p.tok.val
      let p1 := p.eat
      if p1.tok.type = TOK_ID && (p1.tok.val.headD NUL == '*' || p1.tok.val.headD NUL == '&') then
        typeLoop n p1 t1
      else .ok (t1, p1)
    else .ok (t, p)

/-- `Parser::type`. -/
def type (fuel : Nat) (p : Parser) : Res (Str × Parser) := typeLoop fuel p []

/-- The loop `while (accept tok) { items.push_back(tok.val); eat(); match(TOK_COMMA); }`
shared by `Parser::tagList` and the `links`, `examples`, `notes` and `tags` clauses. -/
def itemLoop (accept : TokenType → Bool) : Nat → Parser → List Str → Res (List Str × Parser)
  | 0, _, _ => .timeout
  | n + 1, p, items =>
    if accept p.tok.type then
      itemLoop accept n (p.eat.matchT TOK_COMMA).2 (items ++ [p.tok.val])
    else .ok (items, p)

/-- Loop condition `tok.type == TOK_ID || tok.type == TOK_STR`. -/
def idOrStr (t : TokenType) : Bool := t = TOK_ID || t = TOK_STR

/-- Loop condition `tok.type == TOK_STR`. -/
def strOnly (t : TokenType) : Bool := t = TOK_STR

/-- `Parser::tagList`. -/
def tagList (fuel : Nat) (p : Parser) : Res (List Str × Parser) := itemLoop idOrStr fuel p []

/-- The loop of `Parser::multilineValue`, with `val` the text composed so far. -/
def multilineLoop : Nat → Parser → Str → Res (Str × Parser)
  | 0, _, _ => .timeout
  | n + 1, p, val =>
    if p.tok.type ≠ TOK_SEMI && p.tok.type ≠ TOK_RB && p.tok.type ≠ TOK_EOF
        && p.tok.type ≠ TOK_AT && p.tok.val ≠ "links".toList then
      let val1 := if !val.isEmpty && p.tok.type ≠ TOK_COMMA then val ++ " ".toList else val
      multilineLoop n p.eat (val1 ++ p.tok.val)
    else .ok (val, p)

/-- `Parser::multilineValue`. -/
def multilineValue (fuel : Nat) (p : Parser) : Res (Str × Parser) := multilineLoop fuel p []

/-- The value after a `:` in `desc` and in a field: a string literal verbatim, otherwise
`multilineValue()`. -/
def descValue (fuel : Nat) (p : Parser) : Res (Str × Parser) :=
  if p.tok.type = TOK_STR then .ok (p.tok.val, p.eat) else multilineValue fuel p

/-- `Parser::field`. -/
def field (fuel : Nat) (p : Parser) : Res (Field × Parser) := do
  let f : Field := {}
  let (f, p) ←
    (match p.matchT TOK_AT with
      | (true, p) => do
        let (tags, p) ← tagList fuel p
        pure ({ f with tags := tags, required := tags.any (fun t => t == "required".toList) }, p)
      | (false, p) => pure (f, p) : Res (Field × Parser))
  let (t, p) ← type fuel p
  let f := { f with type := t }
  let (f, p) := if p.tok.type = TOK_ID then ({ f with name := p.tok.val }, p.eat) else (f, p)
  let (f, p) ←
    (match p.matchT TOK_COLON with
      | (true, p) => do
        let (v, p) ← descValue fuel p
        pure ({ f with desc := v }, p)
      | (false, p) => pure (f, p) : Res (Field × Parser))
  let (f, p) :=
    match p.matchT TOK_EQ with
    | (true, p) =>
      if p.tok.type = TOK_STR || p.tok.type = TOK_NUM || p.tok.type = TOK_ID then
        ({ f with defval := p.tok.val }, p.eat)
      else (f, p)
    | (false, p) => (f, p)
  pure (f, (p.matchT TOK_SEMI).2)

/-- The test `match(kw) && match(TOK_COLON)` that opens every keyworded clause; when the
keyword matches and no colon follows, the keyword stays consumed. -/
def matchKw (kw : Str) (p : Parser) : Bool × Parser :=
  match p.matchS kw with
  | (true, p) => p.matchT TOK_COLON
  | (false, p) => (false, p)

/-- The body of a scalar clause: `if (accept tok) { x = tok.val; eat(); } match(TOK_SEMI);`,
with `x` the current value of the assigned member. -/
def scalar (accept : TokenType → Bool) (p : Parser) (x : Str) : Parser × Str :=
  if accept p.tok.type then ((p.eat.matchT TOK_SEMI).2, p.tok.val)
  else ((p.matchT TOK_SEMI).2, x)

/-- Condition `tok.type == TOK_ID || tok.type == TOK_STR || tok.type == TOK_NUM`. -/
def idStrNum (t : TokenType) : Bool := t = TOK_ID || t = TOK_STR || t = TOK_NUM

/-- The generic fallback of the body loop, entered on an identifier token: a metadata entry
when a colon follows the key, a field declaration otherwise. -/
def generic (fuel : Nat) (p : Parser) (d : Def) : Res (Parser × Def) :=
  let key := p.tok.val
  match p.eat.matchT TOK_COLON with
  | (true, p) =>
    if idStrNum p.tok.type then
      pure ((p.eat.matchT TOK_SEMI).2, { d with «meta» := mapSet key p.tok.val d.«meta» })
    else pure ((p.matchT TOK_SEMI).2, d)
  | (false, p) => do
    let (f, p) ← field fuel p
    pure (p, { d with fields := d.fields ++ [f] })

/-- One iteration of the body loop of `Parser::parse`: the `if / else if` chain. -/
def clause (fuel : Nat) (p : Parser) (d : Def) : Res (Parser × Def) :=
  match p.matchKw "desc".toList with
  | (true, p) => do
    let (v, p) ← descValue fuel p
    pure ((p.matchT TOK_SEMI).2, { d with desc := v })
  | (false, p) =>
  match p.matchKw "returns".toList with
  | (true, p) => do
    let (t, p) ← type fuel p
    pure ((p.matchT TOK_SEMI).2, { d with ret := t })
  | (false, p) =>
  match p.matchKw "links".toList with
  | (true, p) => do
    let (xs, p) ← itemLoop idOrStr fuel p d.links
    pure ((p.matchT TOK_SEMI).2, { d with links := xs })
  | (false, p) =>
  match p.matchKw "examples".toList with
  | (true, p) => do
    let (xs, p) ← itemLoop strOnly fuel p d.examples
    pure ((p.matchT TOK_SEMI).2, { d with examples := xs })
  | (false, p) =>
  match p.matchKw "notes".toList with
  | (true, p) => do
    let (xs, p) ← itemLoop strOnly fuel p d.notes
    pure ((p.matchT TOK_SEMI).2, { d with notes := xs })
  | (false, p) =>
  match p.matchKw "category".toList with
  | (true, p) => pure ((scalar idOrStr p d.category).1,
                        { d with category := (scalar idOrStr p d.category).2 })
  | (false, p) =>
  match p.matchKw "version".toList with
  | (true, p) => pure ((scalar idStrNum p d.version).1,
                        { d with version := (scalar idStrNum p d.version).2 })
  | (false, p) =>
  match p.matchKw "author".toList with
  | (true, p) => pure ((scalar idOrStr p d.author).1,
                        { d with author := (scalar idOrStr p d.author).2 })
  | (false, p) =>
  match p.matchKw "since".toList with
  | (true, p) => pure ((scalar idStrNum p d.since).1,
                        { d with since := (scalar idStrNum p d.since).2 })
  | (false, p) =>
  match p.matchKw "deprecated".toList with
  | (true, p) =>
    let note := if p.tok.type = TOK_STR then p.tok.val else "true".toList
    let p1 := if p.tok.type ≠ TOK_SEMI then p.eat else p
    pure ((p1.matchT TOK_SEMI).2, { d with deprecated := note })
  | (false, p) =>
  match p.matchKw "tags".toList with
  | (true, p) => do
    let (xs, p) ← itemLoop idOrStr fuel p d.tags
    pure ((p.matchT TOK_SEMI).2, { d with tags := xs })
  | (false, p) =>
    if p.tok.type = TOK_ID then generic fuel p d else pure (p.eat, d)

/-- The body loop `while (tok.type != TOK_RB && tok.type != TOK_EOF)` of `Parser::parse`. -/
def bodyLoop : Nat → Parser → Def → Res (Parser × Def)
  | 0, _, _ => .timeout
  | n + 1, p, d =>
    if p.tok.type ≠ TOK_RB && p.tok.type ≠ TOK_EOF then do
      let (p, d) ← clause n p d
      bodyLoop n p d
    else .ok (p, d)

/-- The nine kind keywords. -/
def kinds : List Str :=
  ["struct".toList, "union".toList, "fn".toList, "enum".toList, "type".toList,
   "const".toList, "class".toList, "interface".toList, "trait".toList]

/-- The head of a block, up to and including `expect(TOK_LB)`. -/
def header (fuel : Nat) (p : Parser) : Res (Parser × Def) := do
  let d : Def := {}
  let (p, d) ←
    (match p.matchT TOK_AT with
      | (true, p) => do
        let (tags, p) ← tagList fuel p
        pure (p, { d with tags := tags })
      | (false, p) => pure (p, d) : Res (Parser × Def))
  if p.tok.val ∈ kinds then
    let d := { d with kind := p.tok.val }
    let p := p.eat
    let (p, d) := if p.tok.type = TOK_ID then (p.eat, { d with name := p.tok.val }) else (p, d)
    let p ← expect TOK_LB p
    pure (p, d)
  else .fatal "Expected type keyword".toList

/-- One iteration of the top-level loop of `Parser::parse`: a whole block. -/
def block (fuel : Nat) (p : Parser) : Res (Parser × Def) := do
  let (p, d) ← header fuel p
  let (p, d) ← bodyLoop fuel p d
  let p ← expect TOK_RB p
  pure (p, d)

/-- The top-level loop `while (tok.type != TOK_EOF)` of `Parser::parse`. -/
def parseLoop : Nat → Parser → List Def → Res (List Def)
  | 0, _, _ => .timeout
  | n + 1, p, defs =>
    if p.tok.type ≠ TOK_EOF then do
      let (p, d) ← block n p
      parseLoop n p (defs ++ [d])
    else .ok defs

/-- The constructor `Parser(const string& s) : lex(s) { eat(); }`. -/
def init (s : Str) : Parser := ⟨(Lexer.next s).2, (Lexer.next s).1⟩

end Parser

/-- Construct a parser on the input and run `Parser::parse` with the given fuel. -/
def parse (fuel : Nat) (input : Str) : Res (List Def) :=
  Parser.parseLoop fuel (Parser.init input) []

/-! ## HTML output -/

/-- The text appended by one turn of the loop of `escape`: the `switch` on the character. -/
def escapeChar (c : Char) : Str :=
  if c = '<' then "&lt;".toList
  else if c = '>' then "&gt;".toList
  else if c = '&' then "&amp;".toList
  else if c = '"' then "&quot;".toList
  else if c = '\'' then "&#39;".toList
  else [c]

/-- The function `escape`: the loop `for (char c : s)` appending to the result `r`. -/
def escape (s : Str) : Str := s.foldl (fun r c => r ++ escapeChar c) []

/-! ## Inputs and states used in the statements -/

/-- The five entities written by `escape`, each without its leading `&`. -/
def entityTails : List Str :=
  ["lt;".toList, "gt;".toList, "amp;".toList, "quot;".toList, "#39;".toList]

/-- The parser state inside the body of `struct A { ( }` once the lexer has reached `(`:
the lexer returns an identifier token with empty text and does not advance. -/
def stuckParen : Parser := ⟨"( \x7d".toList, ⟨TOK_ID, []⟩⟩

/-- The parser state inside `desc: a.b;` once the lexer has reached `.`. -/
def stuckDot : Parser := ⟨".b; \x7d".toList, ⟨TOK_ID, []⟩⟩

/-- The parser state at the start of the body of `struct A { desc: a.b; }`. -/
def atDesc : Parser := ⟨": a.b; \x7d".toList, ⟨TOK_ID, "desc".toList⟩⟩

namespace Lexer

/-- Only insignificant input is left: after `skip` the cursor is at the end (or on a NUL). -/
def AtEnd (s : Str) : Prop := peek (skip s) 0 = NUL

/-- The cursor after the closing step `if (peek()) { get(); get(); }` of a block comment. -/
def closeBlock (s : Str) : Str := if peek s 0 != NUL then (get (get s).2).2 else s

end Lexer

/-- A piece of insignificant input: a whitespace character, a `#` or `//` comment closed by
its newline, or a closed block comment. -/
inductive Trivia where
  | space (c : Char)
  | hash (c : Str)
  | slashes (c : Str)
  | block (b : Str)

/-- The text of a piece of insignificant input. -/
def Trivia.text : Trivia → Str
  | .space c => [c]
  | .hash c => '#' :: c ++ ['\n']
  | .slashes c => '/' :: '/' :: c ++ ['\n']
  | .block b => '/' :: '*' :: b ++ ['*', '/']

/-- Well-formedness of a piece: the character is whitespace, the text of a line comment has
no newline, the text of a block comment does not contain `*/`. -/
def Trivia.WF : Trivia → Prop
  | .space c => isspace c = true
  | .hash c => '\n' ∉ c
  | .slashes c => '\n' ∉ c
  | .block b => ¬ ['*', '/'] <:+: b

/-- What may end an input of insignificant pieces: nothing, or a comment that is not closed
before the end of the input. -/
inductive TriviaEnd where
  | none
  | hash (c : Str)
  | slashes (c : Str)
  | block (b : Str)

/-- The text of an unclosed final comment. -/
def TriviaEnd.text : TriviaEnd → Str
  | .none => []
  | .hash c => '#' :: c
  | .slashes c => '/' :: '/' :: c
  | .block b => '/' :: '*' :: b

/-- Well-formedness of an unclosed final comment. -/
def TriviaEnd.WF : TriviaEnd → Prop
  | .none => True
  | .hash c => '\n' ∉ c
  | .slashes c => '\n' ∉ c
  | .block b => ¬ ['*', '/'] <:+: b

/-- The input made of the pieces `ps` followed by the end `e`. -/
def triviaText (ps : List Trivia) (e : TriviaEnd) : Str :=
  (ps.map Trivia.text).flatten ++ e.text

/-- An identifier in source text: a non-empty run of identifier characters that does not
start with a digit. -/
def isIdent (x : Str) : Bool :=
  match x with
  | [] => false
  | c :: cs => Lexer.isIdChar c && !isdigit c && cs.all Lexer.isIdChar

/-- A block with an empty body, written `<kind> <name> { }`, and the whitespace after it. -/
structure EmptyBlock where
  kind : Str
  name : Str
  sep : Str

/-- The text `<kind> <name> { }` followed by the separating whitespace. -/
def EmptyBlock.text (b : EmptyBlock) : Str :=
  b.kind ++ " ".toList ++ b.name ++ " \x7b \x7d".toList ++ b.sep

/-- Well-formedness: a kind keyword, an identifier as name, whitespace as separator. -/
def EmptyBlock.WF (b : EmptyBlock) : Prop :=
  b.kind ∈ Parser.kinds ∧ isIdent b.name = true ∧ ∀ c ∈ b.sep, isspace c = true

/-- The Definition of a block with an empty body. -/
def EmptyBlock.toDef (b : EmptyBlock) : Def := { kind := b.kind, name := b.name }

/-- The input made of the given blocks, in order. -/
def blocksText (bs : List EmptyBlock) : Str := (bs.map EmptyBlock.text).flatten

/-- The eleven clause keywords, in the order in which the body loop tries them. -/
def clauseKeywords : List Str :=
  ["desc".toList, "returns".toList, "links".toList, "examples".toList, "notes".toList,
   "category".toList, "version".toList, "author".toList, "since".toList,
   "deprecated".toList, "tags".toList]

/-- The input `<kind> <name> { <body> }` of one block. -/
def blockOf (kind name body : Str) : Str :=
  kind ++ " ".toList ++ name ++ " \x7b ".toList ++ body ++ " \x7d".toList

/-- The body `tags: x1<sep>x2<sep>...<sep>xn;` of a tags clause. -/
def tagsClause (sep : Str) (xs : List Str) : Str :=
  "tags: ".toList ++ sep.intercalate xs ++ ";".toList

/-- The text `<sep>x1<sep>x2...<sep>xn`: every item preceded by the separator. -/
def sepTail (sep : Str) : List Str → Str
  | [] => []
  | x :: r => sep ++ x ++ sepTail sep r

/-- The body `desc: w1 w2 ... wn;` of an unquoted description clause. -/
def descClause (ws : List Str) : Str :=
  "desc: ".toList ++ " ".toList.intercalate ws ++ ";".toList

/-- The text `s` with a backslash written before every quote `q` and every backslash. -/
def escapeQ (q : Char) : Str → Str
  | [] => []
  | c :: cs => if c == q || c == '\\' then '\\' :: c :: escapeQ q cs else c :: escapeQ q cs

/-- A scalar value as written in the source: an identifier, a quoted string (quote character
and content), or a number (sign, integer digits, optional fraction digits). -/
inductive Scalar where
  | ident (x : Str)
  | str (q : Char) (s : Str)
  | num (neg : Bool) (ds : Str) (frac : Option Str)

/-- The text of an optional sign. -/
def signText (neg : Bool) : Str := if neg then ['-'] else []

/-- The text of an optional fraction: nothing, or a dot and the fraction digits. -/
def fracText : Option Str → Str
  | none => []
  | some fs => '.' :: fs

/-- The source text of a scalar value. -/
def Scalar.src : Scalar → Str
  | .ident x => x
  | .str q s => q :: (escapeQ q s ++ [q])
  | .num neg ds frac => signText neg ++ (ds ++ fracText frac)

/-- The text of the token of a scalar value: the identifier, the content of the string, the
number as written. -/
def Scalar.text : Scalar → Str
  | .ident x => x
  | .str _ s => s
  | .num neg ds frac => Scalar.src (.num neg ds frac)

/-- The token kind of a scalar value. -/
def Scalar.kind : Scalar → TokenType
  | .ident _ => TOK_ID
  | .str _ _ => TOK_STR
  | .num _ _ _ => TOK_NUM

/-- Well-formedness of a scalar value: an identifier; a string in double or single quotes
without NUL characters; a number with at least one integer digit. -/
def Scalar.wf : Scalar → Bool
  | .ident x => isIdent x
  | .str q s => (q == '"' || q == '\'') && s.all (fun c => c != NUL)
  | .num _ ds frac => !ds.isEmpty && ds.all isdigit && (frac.getD []).all isdigit

/-- The body `key: v;` of a clause with the given key and scalar value. -/
def keyClause (key : Str) (v : Scalar) : Str :=
  key ++ ": ".toList ++ v.src ++ ";".toList

/-- The body `<kw>: i1, i2, ..., in;` of a list clause with the given item texts. -/
def listClause (kw : Str) (items : List Str) : Str :=
  kw ++ ": ".toList ++ ", ".toList.intercalate items ++ ";".toList

/-- The state `q` is `p` after some number of calls of `eat`: the current token of `q` is
one of the tokens that follow from `p`. -/
def Parser.Reach (p q : Parser) : Prop := ∃ n : Nat, q = Parser.eat^[n] p

/-- No token that follows from `p` has the text `deprecated` and a colon right after it:
the input from `p` on holds no deprecated clause. -/
def Parser.NoDeprecated (p : Parser) : Prop :=
  ∀ q, Parser.Reach p q → ¬ (q.tok.val = "deprecated".toList ∧ q.eat.tok.type = TOK_COLON)

/-- First stage of `Parser::field`: the optional `@` tag list and the `required` flag. -/
def Parser.fieldTags (fuel : Nat) (p : Parser) : Res (Field × Parser) :=
  match p.matchT TOK_AT with
  | (true, p) => do
    let (tags, p) ← Parser.tagList fuel p
    pure ({ tags := tags, required := tags.any (fun t => t == "required".toList) }, p)
  | (false, p) => pure ({}, p)

/-- Stage of `Parser::field` after the type: the optional name. -/
def Parser.fieldName (f : Field) (p : Parser) : Field × Parser :=
  if p.tok.type = TOK_ID then ({ f with name := p.tok.val }, p.eat) else (f, p)

/-- Stage of `Parser::field` after the name: the optional `:` description. -/
def Parser.fieldDesc (fuel : Nat) (f : Field) (p : Parser) : Res (Field × Parser) :=
  match p.matchT TOK_COLON with
  | (true, p) => do
    let (v, p) ← Parser.descValue fuel p
    pure ({ f with desc := v }, p)
  | (false, p) => pure (f, p)

/-- Stage of `Parser::field` after the description: the optional `=` default value. -/
def Parser.fieldDefault (f : Field) (p : Parser) : Field × Parser :=
  match p.matchT TOK_EQ with
  | (true, p) =>
    if p.tok.type = TOK_STR || p.tok.type = TOK_NUM || p.tok.type = TOK_ID then
      ({ f with defval := p.tok.val }, p.eat)
    else (f, p)
  | (false, p) => (f, p)

/-- What one turn of the body loop may do, from state `p` and Definition `d` to `q` and `d1`:
the kind is kept, `q` follows from `p`, the fields are kept or get one result of
`Parser::field` appended, and the deprecated note is kept unless a token `deprecated` with a
colon after it follows from `p` and comes before `q`. -/
def Parser.StepFacts (p : Parser) (d : Def) (q : Parser) (d1 : Def) : Prop :=
  d1.kind = d.kind ∧ Parser.Reach p q ∧
  (d1.fields = d.fields ∨
    ∃ n p1 f q1, Parser.field n p1 = .ok (f, q1) ∧ d1.fields = d.fields ++ [f]) ∧
  (d1.deprecated = d.deprecated ∨
    ∃ p1, Parser.Reach p p1 ∧ p1.tok.val = "deprecated".toList ∧ p1.eat.tok.type = TOK_COLON
      ∧ Parser.Reach p1.eat.eat q)

/-- The token sequence of an input, cut after `n` tokens: the results of `n` successive calls
of `Lexer::next`. -/
def Lexer.tokens : Nat → Str → List Token
  | 0, _ => []
  | n + 1, s => (Lexer.next s).1 :: Lexer.tokens n (Lexer.next s).2

/-- The state `p` is the state after a call of `eat` (the constructor of `Parser` makes the
first call): its current token is the one the lexer returned last. -/
def Parser.Lexed (p : Parser) : Prop := ∃ s : Str, p = Parser.init s

/-- The seven punctuation tokens. -/
def Lexer.puncts : List Token :=
  [⟨TOK_LB, ['{']⟩, ⟨TOK_RB, ['}']⟩, ⟨TOK_SEMI, [';']⟩, ⟨TOK_EQ, ['=']⟩,
   ⟨TOK_COLON, [':']⟩, ⟨TOK_COMMA, [',']⟩, ⟨TOK_AT, ['@']⟩]

/-- A continuation of a type: an identifier that starts with `*` or `&`. -/
def isCont (c : Str) : Bool := isIdent c && (c.headD NUL == '*' || c.headD NUL == '&')

/-- The body `returns: T c1 ... cn;` of a returns clause. -/
def returnsClause (T : Str) (cs : List Str) : Str :=
  "returns: ".toList ++ T ++ sepTail " ".toList cs ++ ";".toList

/-- The body `returns: T c1 ... cn U;` of a returns clause with one more word `U`. -/
def returnsThen (T : Str) (cs : List Str) (U : Str) : Str :=
  "returns: ".toList ++ T ++ sepTail " ".toList cs ++ " ".toList ++ U ++ ";".toList

/-- The tokens that end a multiline value: `;`, `}`, end-of-input, `@`, or any token whose
text is `links`. -/
def isStop (t : Token) : Bool :=
  t.type = TOK_SEMI || t.type = TOK_RB || t.type = TOK_EOF || t.type = TOK_AT
    || t.val = "links".toList

/-- The current token of `p` and the tokens after it, `k` tokens in all. -/
def tokensFrom : Nat → Parser → List Token
  | 0, _ => []
  | k + 1, p => p.tok :: tokensFrom k p.eat

/-- What is written before a token that is not the first of a value: nothing before a comma,
a single space before any other token. -/
def gap (t : Token) : Str := if t.type = TOK_COMMA then [] else " ".toList

/-- Reference definition of a reassembled value: the texts of the tokens concatenated, with a
single space before every token except the first and except comma tokens. -/
def joinRef : List Token → Str
  | [] => []
  | t :: ts => t.val ++ (ts.map fun u => gap u ++ u.val).flatten

/-- The value built by the loop of `multilineValue` from the value `val` so far over the
given tokens, as the loop body computes it. -/
def joinAcc (val : Str) : List Token → Str
  | [] => val
  | t :: ts =>
    joinAcc ((if !val.isEmpty && t.type ≠ TOK_COMMA then val ++ " ".toList else val) ++ t.val) ts

/-- The state `q` is `p` after at least one call of `eat`: the tokenizer was called. -/
def Parser.Advance (p q : Parser) : Prop := ∃ m : Nat, 1 ≤ m ∧ q = Parser.eat^[m] p

/-- After `n` calls of `eat` from `p` the current token is end-of-input, and stays so. -/
def Parser.Ends (n : Nat) (p : Parser) : Prop :=
  (Parser.eat^[n] p).tok.type = TOK_EOF ∧ (Parser.eat^[n] p).eat = Parser.eat^[n] p

/-- The fuel does not exceed the number of calls of `eat` that lead from `p` to
end-of-input. -/
def Parser.Short (fuel : Nat) (p : Parser) : Prop := ∀ n, Parser.Ends n p → fuel ≤ n

/-- What a parser routine started after the state `p0` may give: a value whose parser state
follows from `p0`, a fatal error, or exhaustion of a fuel that is not more than the number
of tokens left. -/
def Parser.Outcome {α : Type} (proj : α → Parser) (fuel : Nat) (p0 : Parser) (r : Res α) : Prop :=
  (∃ a, r = .ok a ∧ Parser.Reach p0 (proj a)) ∨ (∃ m, r = .fatal m)
    ∨ (r = .timeout ∧ Parser.Short fuel p0)

/-! # Theorems -/

namespace Lexer

@[simp] theorem peek_nil (k : Nat) : peek [] k = NUL := rfl

@[simp] theorem peek_cons_zero (c : Char) (s : Str) : peek (c :: s) 0 = c := rfl

@[simp] theorem peek_cons_succ (c : Char) (s : Str) (k : Nat) :
    peek (c :: s) (k + 1) = peek s k := rfl

@[simp] theorem get_cons (c : Char) (s : Str) : get (c :: s) = (c, s) := rfl

@[simp] theorem get_nil : get [] = (NUL, []) := rfl

theorem skipLine_length_le (s : Str) : (skipLine s).length ≤ s.length := by
  induction s with
  | nil => simp [skipLine]
  | cons c cs ih =>
    unfold skipLine
    split
    · simp only [List.length_cons]; omega
    · exact Nat.le_refl _

theorem skipBlock_length_le (s : Str) : (skipBlock s).length ≤ s.length := by
  induction s with
  | nil => simp [skipBlock]
  | cons c cs ih =>
    unfold skipBlock
    split
    · simp only [List.length_cons]; omega
    · exact Nat.le_refl _

theorem skipLoop_nil (n : Nat) : skipLoop n [] = [] := by
  cases n <;> simp [skipLoop]

/-- The closing step `if (peek()) { get(); get(); }` of a block comment. -/
theorem closeBlock_length_le (s : Str) :
    (if peek s 0 != NUL then (get (get s).2).2 else s).length ≤ s.length := by
  split
  · cases s with
    | nil => simp
    | cons c cs => cases cs <;> (simp; try omega)
  · exact Nat.le_refl _

theorem skipLoop_enough : ∀ (n m : Nat) (s : Str), s.length ≤ n → s.length ≤ m →
    skipLoop n s = skipLoop m s := by
  intro n
  induction n with
  | zero =>
    intro m s hn _
    have : s = [] := List.length_eq_zero.mp (Nat.le_zero.mp hn)
    subst this
    simp [skipLoop_nil]
  | succ n ih =>
    intro m s hn hm
    cases s with
    | nil => simp [skipLoop_nil]
    | cons c cs =>
      cases m with
      | zero => simp at hm
      | succ m =>
        simp only [List.length_cons, Nat.add_le_add_iff_right] at hn hm
        have hl := skipLine_length_le cs
        unfold skipLoop
        simp only [peek_cons_zero, get_cons]
        split
        · rfl
        · split
          · exact ih m cs hn hm
          · split
            · rename_i h
              have hc : c = '#' := by simpa using h
              subst hc
              have : skipLine ('#' :: cs) = skipLine cs := by
                rw [skipLine, if_pos (by decide)]
              rw [this]
              exact ih m _ (by omega) (by omega)
            · split
              · rename_i h
                have hc : c = '/' := by
                  simp only [Bool.and_eq_true, beq_iff_eq] at h; exact h.1
                subst hc
                have : skipLine ('/' :: cs) = skipLine cs := by
                  rw [skipLine, if_pos (by decide)]
                rw [this]
                exact ih m _ (by omega) (by omega)
              · split
                · have h1 := skipBlock_length_le cs.tail
                  have h2 := closeBlock_length_le (skipBlock cs.tail)
                  have h3 : cs.tail.length ≤ cs.length := by simp
                  simp only [get, List.tail_cons] at h2 ⊢
                  exact ih m _ (by omega) (by omega)
                · rfl

theorem skipLoop_eq_skip (n : Nat) (s : Str) (h : s.length ≤ n) : skipLoop n s = skip s :=
  skipLoop_enough n (s.length + 1) s h (Nat.le_succ _)

theorem skip_nil : skip [] = [] := rfl

theorem skipLine_cons (c : Char) (cs : Str) (h0 : c ≠ NUL) (h1 : c ≠ '\n') :
    skipLine (c :: cs) = skipLine cs := by
  simp [skipLine, h0, h1]

/-- One turn of the `while (peek())` loop of `skip`, on a non-empty input. -/
theorem skip_cons (c : Char) (cs : Str) :
    skip (c :: cs) =
      if c == NUL then c :: cs
      else if isspace c then skip cs
      else if c == '#' then skip (skipLine cs)
      else if c == '/' && peek cs 0 == '/' then skip (skipLine cs)
      else if c == '/' && peek cs 0 == '*' then
        skip (if peek (skipBlock cs.tail) 0 != NUL
              then (get (get (skipBlock cs.tail)).2).2 else skipBlock cs.tail)
      else c :: cs := by
  have hl := skipLine_length_le cs
  unfold skip
  rw [skipLoop]
  simp only [peek_cons_zero, peek_cons_succ, get_cons, List.length_cons]
  split
  · rfl
  · split
    · exact skipLoop_eq_skip _ _ (by omega)
    · split
      · rename_i h
        have hc : c = '#' := by simpa using h
        subst hc
        rw [skipLine_cons _ _ (by decide) (by decide)]
        exact skipLoop_eq_skip _ _ (by omega)
      · split
        · rename_i h
          have hc : c = '/' := by
            simp only [Bool.and_eq_true, beq_iff_eq] at h; exact h.1
          subst hc
          rw [skipLine_cons _ _ (by decide) (by decide)]
          exact skipLoop_eq_skip _ _ (by omega)
        · split
          · have h1 := skipBlock_length_le cs.tail
            have h2 := closeBlock_length_le (skipBlock cs.tail)
            have h3 : cs.tail.length ≤ cs.length := by simp
            simp only [get, List.tail_cons] at h2 ⊢
            exact skipLoop_eq_skip _ _ (by omega)
          · rfl

theorem isspace_ne_nul {c : Char} (h : isspace c = true) : (c == NUL) = false := by
  cases hc : c == NUL
  · rfl
  · have : c = NUL := by simpa using hc
    subst this
    exact absurd h (by decide)

theorem skip_space (c : Char) (cs : Str) (h : isspace c = true) : skip (c :: cs) = skip cs := by
  rw [skip_cons, isspace_ne_nul h]
  simp [h]

theorem skip_spaces (ws s : Str) (h : ∀ c ∈ ws, isspace c = true) : skip (ws ++ s) = skip s := by
  induction ws with
  | nil => rfl
  | cons c cs ih =>
    rw [List.cons_append, skip_space c _ (h c (List.mem_cons_self _ _))]
    exact ih (fun x hx => h x (List.mem_cons_of_mem _ hx))

theorem skip_nul (cs : Str) : skip (NUL :: cs) = NUL :: cs := by
  rw [skip_cons]; rfl

theorem atEnd_nil : AtEnd [] := rfl

theorem atEnd_nul (cs : Str) : AtEnd (NUL :: cs) := by
  unfold AtEnd; rw [skip_nul]; rfl

theorem atEnd_space (c : Char) (cs : Str) (h : isspace c = true) (hs : AtEnd cs) :
    AtEnd (c :: cs) := by
  unfold AtEnd; rw [skip_space c cs h]; exact hs

theorem next_of_atEnd (s : Str) (h : AtEnd s) : next s = (⟨TOK_EOF, []⟩, skip s) := by
  unfold AtEnd at h
  simp [next, h]

end Lexer

namespace Lexer

theorem atEnd_skipLine_closed (c rest : Str) (hc : '\n' ∉ c) (hr : AtEnd rest) :
    AtEnd (skipLine (c ++ '\n' :: rest)) := by
  induction c with
  | nil =>
    have : skipLine ('\n' :: rest) = '\n' :: rest := by simp [skipLine]
    rw [List.nil_append, this]
    exact atEnd_space _ _ (by decide) hr
  | cons x xs ih =>
    have hx : x ≠ '\n' := fun h => hc (h ▸ List.mem_cons_self _ _)
    have hxs : '\n' ∉ xs := fun h => hc (List.mem_cons_of_mem _ h)
    by_cases h0 : x = NUL
    · subst h0
      have : skipLine (NUL :: (xs ++ '\n' :: rest)) = NUL :: (xs ++ '\n' :: rest) := by
        simp [skipLine]
      rw [List.cons_append, this]
      exact atEnd_nul _
    · rw [List.cons_append, skipLine_cons _ _ h0 hx]
      exact ih hxs

theorem atEnd_skipLine_open (c : Str) (hc : '\n' ∉ c) : AtEnd (skipLine c) := by
  induction c with
  | nil => exact atEnd_nil
  | cons x xs ih =>
    have hx : x ≠ '\n' := fun h => hc (h ▸ List.mem_cons_self _ _)
    have hxs : '\n' ∉ xs := fun h => hc (List.mem_cons_of_mem _ h)
    by_cases h0 : x = NUL
    · subst h0
      have : skipLine (NUL :: xs) = NUL :: xs := by simp [skipLine]
      rw [this]
      exact atEnd_nul _
    · rw [skipLine_cons _ _ h0 hx]
      exact ih hxs

theorem noClose_tail {x : Char} {b : Str} (h : ¬ ['*', '/'] <:+: x :: b) :
    ¬ ['*', '/'] <:+: b := by
  intro hb
  exact h (hb.trans (List.suffix_cons x b).isInfix)

theorem noClose_head {x : Char} {b r : Str} (h : ¬ ['*', '/'] <:+: x :: b) (hb : b ≠ []) :
    (x == '*' && peek (b ++ r) 0 == '/') = false := by
  cases hx : (x == '*' && peek (b ++ r) 0 == '/')
  · rfl
  · exfalso
    simp only [Bool.and_eq_true, beq_iff_eq] at hx
    cases b with
    | nil => exact hb rfl
    | cons y ys =>
      simp only [List.cons_append, peek_cons_zero] at hx
      apply h
      rw [hx.1, hx.2]
      exact ⟨[], ys, rfl⟩

theorem skipBlock_step (x : Char) (s : Str) (h0 : x ≠ NUL)
    (h : (x == '*' && peek s 0 == '/') = false) : skipBlock (x :: s) = skipBlock s := by
  simp [skipBlock, h0, h]

theorem skipBlock_nul (s : Str) : skipBlock (NUL :: s) = NUL :: s := by
  simp [skipBlock]

theorem closeBlock_nul (s : Str) : closeBlock (NUL :: s) = NUL :: s := rfl

theorem atEnd_skipBlock_closed (b rest : Str) (hb : ¬ ['*', '/'] <:+: b) (hr : AtEnd rest) :
    AtEnd (closeBlock (skipBlock (b ++ '*' :: '/' :: rest))) := by
  induction b with
  | nil =>
    have : skipBlock ('*' :: '/' :: rest) = '*' :: '/' :: rest := by simp [skipBlock]
    rw [List.nil_append, this]
    exact hr
  | cons x xs ih =>
    by_cases h0 : x = NUL
    · subst h0
      rw [List.cons_append, skipBlock_nul, closeBlock_nul]
      exact atEnd_nul _
    · have hstep : (x == '*' && peek (xs ++ '*' :: '/' :: rest) 0 == '/') = false := by
        cases xs with
        | nil =>
          simp only [List.nil_append, peek_cons_zero]
          have : ('*' == '/') = false := by decide
          simp [this]
        | cons y ys => exact noClose_head hb (List.cons_ne_nil _ _)
      rw [List.cons_append, skipBlock_step _ _ h0 hstep]
      exact ih (noClose_tail hb)

theorem atEnd_skipBlock_open (b : Str) (hb : ¬ ['*', '/'] <:+: b) :
    AtEnd (closeBlock (skipBlock b)) := by
  induction b with
  | nil => exact atEnd_nil
  | cons x xs ih =>
    by_cases h0 : x = NUL
    · subst h0
      rw [skipBlock_nul, closeBlock_nul]
      exact atEnd_nul _
    · have hstep : (x == '*' && peek xs 0 == '/') = false := by
        cases xs with
        | nil =>
          have : (NUL == '/') = false := by decide
          simp [this]
        | cons y ys =>
          have := noClose_head (r := []) hb (List.cons_ne_nil y ys)
          simpa using this
      rw [skipBlock_step _ _ h0 hstep]
      exact ih (noClose_tail hb)

theorem atEnd_hash (s : Str) (h : AtEnd (skipLine s)) : AtEnd ('#' :: s) := by
  unfold AtEnd at *
  rw [skip_cons]
  simpa using h

theorem atEnd_slashes (s : Str) (h : AtEnd (skipLine s)) : AtEnd ('/' :: '/' :: s) := by
  have hl : skipLine ('/' :: s) = skipLine s := skipLine_cons _ _ (by decide) (by decide)
  unfold AtEnd at *
  rw [skip_cons]
  simpa [hl] using h

theorem atEnd_block (s : Str) (h : AtEnd (closeBlock (skipBlock s))) :
    AtEnd ('/' :: '*' :: s) := by
  unfold AtEnd closeBlock at *
  rw [skip_cons]
  simpa using h

theorem atEnd_piece (t : Trivia) (rest : Str) (ht : t.WF) (hr : AtEnd rest) :
    AtEnd (t.text ++ rest) := by
  cases t with
  | space c => exact atEnd_space c rest ht hr
  | hash c =>
    have := atEnd_hash _ (atEnd_skipLine_closed c rest ht hr)
    simpa [Trivia.text] using this
  | slashes c =>
    have := atEnd_slashes _ (atEnd_skipLine_closed c rest ht hr)
    simpa [Trivia.text] using this
  | block b =>
    have := atEnd_block _ (atEnd_skipBlock_closed b rest ht hr)
    simpa [Trivia.text] using this

theorem atEnd_end (e : TriviaEnd) (he : e.WF) : AtEnd e.text := by
  cases e with
  | none => exact atEnd_nil
  | hash c => exact atEnd_hash _ (atEnd_skipLine_open c he)
  | slashes c => exact atEnd_slashes _ (atEnd_skipLine_open c he)
  | block b => exact atEnd_block _ (atEnd_skipBlock_open b he)

theorem atEnd_trivia (ps : List Trivia) (e : TriviaEnd) (hps : ∀ t ∈ ps, t.WF) (he : e.WF) :
    AtEnd (triviaText ps e) := by
  induction ps with
  | nil => simpa [triviaText] using atEnd_end e he
  | cons t ts ih =>
    have h1 := ih (fun x hx => hps x (List.mem_cons_of_mem _ hx))
    have h2 := atEnd_piece t _ (hps t (List.mem_cons_self _ _)) h1
    simpa [triviaText] using h2

end Lexer

theorem parse_of_atEnd (s : Str) (h : Lexer.AtEnd s) (fuel : Nat) :
    parse (fuel + 1) s = .ok [] := by
  simp [parse, Parser.parseLoop, Parser.init, Lexer.next_of_atEnd s h]

/-- C10: the empty input, and every input made only of whitespace, `#` line comments, `//`
line comments and `/* */` block comments, possibly ending in a comment that is not closed,
parses to the empty Definition sequence without error. -/
theorem C10_insignificant_input_gives_no_definitions (ps : List Trivia) (e : TriviaEnd)
    (hps : ∀ t ∈ ps, t.WF) (he : e.WF) (fuel : Nat) :
    parse (fuel + 1) [] = .ok [] ∧ parse (fuel + 1) (triviaText ps e) = .ok [] :=
  ⟨parse_of_atEnd [] Lexer.atEnd_nil fuel,
   parse_of_atEnd _ (Lexer.atEnd_trivia ps e hps he) fuel⟩

/-- C10 at the input made of a space, `# a`, `// b`, `/* c */` and the unclosed `/* d`. -/
theorem C10_witness :
    parse 1 " # a\n// b\n/* c *//* d".toList = .ok [] :=
  (C10_insignificant_input_gives_no_definitions
    [.space ' ', .hash " a".toList, .slashes " b".toList, .block " c ".toList]
    (.block " d".toList)
    (by
      intro t ht
      simp only [List.mem_cons, List.mem_singleton, List.not_mem_nil, or_false] at ht
      rcases ht with rfl | rfl | rfl | rfl <;> simp only [Trivia.WF] <;> decide)
    (by simp only [TriviaEnd.WF]; decide) 0).2

/-! ## Sequencing lemmas -/

@[simp] theorem Res.ok_bind {α β : Type} (a : α) (f : α → Res β) : (Res.ok a >>= f) = f a := rfl

@[simp] theorem Res.fatal_bind {α β : Type} (m : Str) (f : α → Res β) :
    ((Res.fatal m : Res α) >>= f) = Res.fatal m := rfl

@[simp] theorem Res.timeout_bind {α β : Type} (f : α → Res β) :
    ((Res.timeout : Res α) >>= f) = Res.timeout := rfl

@[simp] theorem Res.pure_eq {α : Type} (a : α) : (pure a : Res α) = Res.ok a := rfl

/-! ## Concrete runs -/

theorem bodyLoop_stuckParen (n : Nat) : ∀ d : Def, Parser.bodyLoop n stuckParen d = .timeout := by
  induction n with
  | zero => intro d; rfl
  | succ n ih =>
    intro d
    cases n with
    | zero => rfl
    | succ m =>
      have step : Parser.bodyLoop (m + 2) stuckParen d
          = Parser.bodyLoop (m + 1) stuckParen { d with fields := d.fields ++ [{}] } := rfl
      rw [step]
      exact ih _

theorem multilineLoop_stuckDot (n : Nat) :
    ∀ val : Str, Parser.multilineLoop n stuckDot val = .timeout := by
  induction n with
  | zero => intro val; rfl
  | succ n ih =>
    intro val
    have step : Parser.multilineLoop (n + 1) stuckDot val
        = Parser.multilineLoop n stuckDot
            ((if !val.isEmpty && TOK_ID ≠ TOK_COMMA then val ++ " ".toList else val) ++ []) := rfl
    rw [step]
    exact ih _

theorem clause_atDesc (n : Nat) (d : Def) : Parser.clause n atDesc d = .timeout := by
  cases n with
  | zero => rfl
  | succ k =>
    have step : Parser.clause (k + 1) atDesc d
        = (do
            let (v, p) ← Parser.multilineLoop k stuckDot "a".toList
            pure ((p.matchT TOK_SEMI).2, { d with desc := v })) := rfl
    rw [step, multilineLoop_stuckDot]
    rfl

theorem bodyLoop_atDesc (n : Nat) (d : Def) : Parser.bodyLoop n atDesc d = .timeout := by
  cases n with
  | zero => rfl
  | succ k =>
    have step : Parser.bodyLoop (k + 1) atDesc d
        = (do
            let (p, d) ← Parser.clause k atDesc d
            Parser.bodyLoop k p d) := rfl
    rw [step, clause_atDesc]
    rfl

/-- C1 (code as written): on `struct S { int* count : "how many" = 0; }` the parser returns one
Definition with one Field, but the lead identifier `int*` is consumed as the generic key and
dropped: the Field has type "count" and an empty name (description "how many", default "0"). -/
theorem C1_field_lead_token_dropped (fuel : Nat) :
    parse (fuel + 4) "struct S \x7b int* count : \"how many\" = 0; \x7d".toList
      = .ok [{ kind := "struct".toList, name := "S".toList,
               fields := [{ type := "count".toList, name := [], desc := "how many".toList,
                            defval := "0".toList }] }] := by
  rfl

/-- C2 (code as written): on `@deprecated struct X { }` the leading tag list also consumes the
identifiers `struct` and `X`, so the kind-keyword check sees the open brace and the parse ends
with the fatal error "Expected type keyword". -/
theorem C2_block_tag_list_swallows_kind (fuel : Nat) :
    parse (fuel + 5) "@deprecated struct X \x7b \x7d".toList
      = .fatal "Expected type keyword".toList := by
  rfl

/-- C3 (code as written): on `struct A { ( }` and on `struct A { desc: a.b; }` the parse does
not terminate: whatever the fuel, the run is still looping when the fuel is used up. -/
theorem C3_stray_character_loops_forever (fuel : Nat) :
    parse fuel "struct A \x7b ( \x7d".toList = .timeout
      ∧ parse fuel "struct A \x7b desc: a.b; \x7d".toList = .timeout := by
  cases fuel with
  | zero => exact ⟨rfl, rfl⟩
  | succ n =>
    constructor
    · have h1 : parse (n + 1) "struct A \x7b ( \x7d".toList
          = (do
              let (p, d) ← Parser.block n (Parser.init "struct A \x7b ( \x7d".toList)
              Parser.parseLoop n p ([] ++ [d])) := rfl
      have h2 : Parser.block n (Parser.init "struct A \x7b ( \x7d".toList)
          = (do
              let (p, d) ← Parser.bodyLoop n stuckParen
                              { kind := "struct".toList, name := "A".toList }
              let p ← Parser.expect TOK_RB p
              pure (p, d)) := rfl
      rw [h1, h2, bodyLoop_stuckParen]
      rfl
    · have h1 : parse (n + 1) "struct A \x7b desc: a.b; \x7d".toList
          = (do
              let (p, d) ← Parser.block n (Parser.init "struct A \x7b desc: a.b; \x7d".toList)
              Parser.parseLoop n p ([] ++ [d])) := rfl
      have h2 : Parser.block n (Parser.init "struct A \x7b desc: a.b; \x7d".toList)
          = (do
              let (p, d) ← Parser.bodyLoop n atDesc
                              { kind := "struct".toList, name := "A".toList }
              let p ← Parser.expect TOK_RB p
              pure (p, d)) := rfl
      rw [h1, h2, bodyLoop_atDesc]
      rfl

/-! ## Fatal errors -/

/-- C8: when the first token of the input is an identifier whose text is not one of the nine
kind keywords, the parse ends with the fatal error "Expected type keyword"; the outcome
carries no Definition. -/
theorem C8_unknown_kind_is_fatal (input : Str) (fuel : Nat)
    (hid : (Lexer.next input).1.type = TOK_ID)
    (hk : (Lexer.next input).1.val ∉ Parser.kinds) :
    parse (fuel + 1) input = .fatal "Expected type keyword".toList := by
  simp [parse, Parser.parseLoop, Parser.init, Parser.block, Parser.header, Parser.matchT, hid, hk]

/-- C8 at the input `widget { }`. -/
theorem C8_witness :
    (Lexer.next "widget \x7b \x7d".toList).1.type = TOK_ID
      ∧ (Lexer.next "widget \x7b \x7d".toList).1.val ∉ Parser.kinds
      ∧ parse 1 "widget \x7b \x7d".toList = .fatal "Expected type keyword".toList :=
  ⟨by decide, by decide,
    C8_unknown_kind_is_fatal "widget \x7b \x7d".toList 0 (by decide) (by decide)⟩

namespace Lexer

theorem next_space (c : Char) (s : Str) (h : isspace c = true) : next (c :: s) = next s := by
  unfold next
  rw [skip_space c s h]

theorem next_spaces (ws s : Str) (h : ∀ c ∈ ws, isspace c = true) : next (ws ++ s) = next s := by
  unfold next
  rw [skip_spaces ws s h]

@[simp] theorem next_blank (s : Str) : next (' ' :: s) = next s := next_space _ _ (by decide)

theorem isIdChar_ne {c k : Char} (h : isIdChar c = true) (hk : isIdChar k = false) : c ≠ k := by
  intro e
  rw [e, hk] at h
  exact Bool.noConfusion h

theorem isIdChar_not_space {c : Char} (h : isIdChar c = true) : isspace c = false := by
  cases hs : isspace c
  · rfl
  · exfalso
    simp only [isIdChar, isalnum, isalpha, isdigit, Bool.and_eq_true, Bool.or_eq_true,
      decide_eq_true_eq, beq_iff_eq, bne_iff_ne] at h
    simp only [isspace, Bool.or_eq_true, Bool.and_eq_true, decide_eq_true_eq, beq_iff_eq] at hs
    rcases h with ⟨_, h⟩
    rcases h with ((((h | h) | h) | h) | h) | h
    · omega
    · subst h; revert hs; decide
    · subst h; revert hs; decide
    · subst h; revert hs; decide
    · subst h; revert hs; decide
    · subst h; revert hs; decide

theorem skip_idChar (c : Char) (s : Str) (h : isIdChar c = true) : skip (c :: s) = c :: s := by
  have h0 : (c == NUL) = false := by
    simpa using isIdChar_ne h (k := NUL) (by decide)
  have h1 : (c == '#') = false := by simpa using isIdChar_ne h (k := '#') (by decide)
  have h2 : (c == '/') = false := by simpa using isIdChar_ne h (k := '/') (by decide)
  rw [skip_cons]
  simp [h0, h1, h2, isIdChar_not_space h]

theorem takeWhile_of_stop (s : Str) (h : isIdChar (peek s 0) = false) :
    s.takeWhile isIdChar = [] ∧ s.dropWhile isIdChar = s := by
  cases s with
  | nil => simp
  | cons d ds =>
    simp only [peek_cons_zero] at h
    simp [List.takeWhile, List.dropWhile, h]

/-- An identifier followed by a character that is not an identifier character (or by the
end) is read as one identifier token with that text. -/
theorem next_ident (x s : Str) (hx : isIdent x = true) (hs : isIdChar (peek s 0) = false) :
    next (x ++ s) = (⟨TOK_ID, x⟩, s) := by
  cases x with
  | nil => simp [isIdent] at hx
  | cons c cs =>
    simp only [isIdent, Bool.and_eq_true, Bool.not_eq_true', List.all_eq_true] at hx
    obtain ⟨⟨hc, hd⟩, hcs⟩ := hx
    have hall : ∀ a ∈ c :: cs, isIdChar a = true := by
      intro a ha
      rcases List.mem_cons.mp ha with rfl | h
      · exact hc
      · exact hcs a h
    have ne := fun k (hk : isIdChar k = false) => isIdChar_ne hc hk
    have h0 : (c == NUL) = false := by simpa using ne NUL (by decide)
    have h1 : (c == '"') = false := by simpa using ne '"' (by decide)
    have h2 : (c == '\'') = false := by simpa using ne '\'' (by decide)
    have h3 : (c == '{') = false := by simpa using ne '{' (by decide)
    have h4 : (c == '}') = false := by simpa using ne '}' (by decide)
    have h5 : (c == ';') = false := by simpa using ne ';' (by decide)
    have h6 : (c == '=') = false := by simpa using ne '=' (by decide)
    have h7 : (c == ':') = false := by simpa using ne ':' (by decide)
    have h8 : (c == ',') = false := by simpa using ne ',' (by decide)
    have h9 : (c == '@') = false := by simpa using ne '@' (by decide)
    have h10 : (c == '-') = false := by simpa using ne '-' (by decide)
    have hsk : skip (c :: cs ++ s) = c :: cs ++ s := skip_idChar c _ hc
    have ht := takeWhile_of_stop s hs
    unfold next
    rw [hsk]
    simp only [List.cons_append, peek_cons_zero, h0, h1, h2, h3, h4, h5, h6, h7, h8, h9, h10, hd,
      Bool.false_or, Bool.false_and, Bool.false_eq_true, if_false]
    rw [← List.cons_append, List.takeWhile_append_of_pos hall, List.dropWhile_append_of_pos hall,
      ht.1, ht.2, List.append_nil]

theorem next_lb (s : Str) : next ('{' :: s) = (⟨TOK_LB, ['{']⟩, s) := by
  have : skip ('{' :: s) = '{' :: s := by rw [skip_cons]; rfl
  unfold next; rw [this]; rfl

theorem next_rb (s : Str) : next ('}' :: s) = (⟨TOK_RB, ['}']⟩, s) := by
  have : skip ('}' :: s) = '}' :: s := by rw [skip_cons]; rfl
  unfold next; rw [this]; rfl

theorem next_semi (s : Str) : next (';' :: s) = (⟨TOK_SEMI, [';']⟩, s) := by
  have : skip (';' :: s) = ';' :: s := by rw [skip_cons]; rfl
  unfold next; rw [this]; rfl

theorem next_colon (s : Str) : next (':' :: s) = (⟨TOK_COLON, [':']⟩, s) := by
  have : skip (':' :: s) = ':' :: s := by rw [skip_cons]; rfl
  unfold next; rw [this]; rfl

theorem next_comma (s : Str) : next (',' :: s) = (⟨TOK_COMMA, [',']⟩, s) := by
  have : skip (',' :: s) = ',' :: s := by rw [skip_cons]; rfl
  unfold next; rw [this]; rfl

end Lexer
theorem stop_cons (c : Char) (s : Str) (h : Lexer.isIdChar c = false) :
    Lexer.isIdChar (Lexer.peek (c :: s) 0) = false := h

theorem isIdent_of_kind {k : Str} (h : k ∈ Parser.kinds) : isIdent k = true := by
  simp only [Parser.kinds, List.mem_cons, List.mem_singleton, List.not_mem_nil, or_false] at h
  rcases h with rfl | rfl | rfl | rfl | rfl | rfl | rfl | rfl | rfl <;> decide

theorem init_spaces (ws s : Str) (h : ∀ c ∈ ws, isspace c = true) :
    Parser.init (ws ++ s) = Parser.init s := by
  simp [Parser.init, Lexer.next_spaces ws s h]

section EmptyBlocks

attribute [local irreducible] Lexer.next

/-- A block `<kind> <name> { }` at the head of the input is parsed into its Definition and
leaves the parser at the first token of what follows. -/
theorem block_empty (b : EmptyBlock) (hb : b.WF) (rest : Str) (fuel : Nat) :
    Parser.block (fuel + 1) (Parser.init (b.text ++ rest))
      = .ok (Parser.init rest, b.toDef) := by
  obtain ⟨hk, hn, hs⟩ := hb
  have e1 : Lexer.next (b.kind ++ ' ' :: (b.name ++ ' ' :: '{' :: ' ' :: '}' :: (b.sep ++ rest)))
      = (⟨TOK_ID, b.kind⟩, ' ' :: (b.name ++ ' ' :: '{' :: ' ' :: '}' :: (b.sep ++ rest))) :=
    Lexer.next_ident _ _ (isIdent_of_kind hk) (stop_cons _ _ (by decide))
  have e2 : Lexer.next (b.name ++ ' ' :: '{' :: ' ' :: '}' :: (b.sep ++ rest))
      = (⟨TOK_ID, b.name⟩, ' ' :: '{' :: ' ' :: '}' :: (b.sep ++ rest)) :=
    Lexer.next_ident _ _ hn (stop_cons _ _ (by decide))
  have e3 := Lexer.next_spaces b.sep rest hs
  have ht : b.text ++ rest
      = b.kind ++ ' ' :: (b.name ++ ' ' :: '{' :: ' ' :: '}' :: (b.sep ++ rest)) := by
    simp [EmptyBlock.text]
  rw [ht]
  simp [Parser.block, Parser.header, Parser.bodyLoop, Parser.expect, Parser.matchT, Parser.eat,
    Parser.init, e1, e2, e3, hk, Lexer.next_lb, Lexer.next_rb, EmptyBlock.toDef]

theorem parseLoop_blocks (bs : List EmptyBlock) (hbs : ∀ b ∈ bs, b.WF) :
    ∀ (fuel : Nat) (defs : List Def), bs.length + 2 ≤ fuel →
      Parser.parseLoop fuel (Parser.init (blocksText bs)) defs
        = .ok (defs ++ bs.map EmptyBlock.toDef) := by
  induction bs with
  | nil =>
    intro fuel defs hf
    obtain ⟨f, rfl⟩ : ∃ f, fuel = f + 1 := ⟨fuel - 1, by simp at hf; omega⟩
    have : Parser.init (blocksText []) = ⟨[], ⟨TOK_EOF, []⟩⟩ := by
      simp [Parser.init, blocksText, Lexer.next_of_atEnd [] Lexer.atEnd_nil, Lexer.skip_nil]
    simp [this, Parser.parseLoop]
  | cons b bs ih =>
    intro fuel defs hf
    simp only [List.length_cons] at hf
    obtain ⟨f, rfl⟩ : ∃ f, fuel = f + 2 := ⟨fuel - 2, by omega⟩
    have hb := hbs b (List.mem_cons_self _ _)
    have hk := isIdent_of_kind hb.1
    have ht : blocksText (b :: bs) = b.text ++ blocksText bs := by simp [blocksText]
    have hinit : (Parser.init (b.text ++ blocksText bs)).tok.type = TOK_ID := by
      have e1 : Lexer.next (b.kind ++ (' ' :: (b.name ++ " \x7b \x7d".toList ++ b.sep ++ blocksText bs)))
          = (⟨TOK_ID, b.kind⟩, ' ' :: (b.name ++ " \x7b \x7d".toList ++ b.sep ++ blocksText bs)) :=
        Lexer.next_ident _ _ hk (stop_cons _ _ (by decide))
      have : b.text ++ blocksText bs
          = b.kind ++ (' ' :: (b.name ++ " \x7b \x7d".toList ++ b.sep ++ blocksText bs)) := by
        simp [EmptyBlock.text]
      rw [this, Parser.init, e1]
    rw [ht, Parser.parseLoop]
    simp only [hinit, block_empty b hb, ne_eq, reduceCtorEq, not_false_eq_true, decide_True,
      Bool.true_and, if_true, Res.ok_bind]
    rw [ih (fun x hx => hbs x (List.mem_cons_of_mem _ hx)) (f + 1) _ (by omega)]
    simp

/-- C4: an input of k blocks `<kind> <name> { }` (kind keywords, identifier names, whitespace
between the blocks) parses, with enough fuel, to exactly the k Definitions of the blocks in
source order: the i-th Definition has the kind and the name of the i-th block and nothing
else set. -/
theorem C4_empty_blocks_in_source_order (bs : List EmptyBlock) (hbs : ∀ b ∈ bs, b.WF)
    (fuel : Nat) (hf : bs.length + 2 ≤ fuel) :
    parse fuel (blocksText bs) = .ok (bs.map EmptyBlock.toDef) := by
  have := parseLoop_blocks bs hbs fuel [] hf
  simpa [parse] using this

end EmptyBlocks

/-- C4 at the input `struct A { } fn b { }` followed by a newline and `trait c { }`. -/
theorem C4_witness :
    parse 5 "struct A \x7b \x7d fn b \x7b \x7d\ntrait c \x7b \x7d".toList
      = .ok [{ kind := "struct".toList, name := "A".toList },
             { kind := "fn".toList, name := "b".toList },
             { kind := "trait".toList, name := "c".toList }] :=
  C4_empty_blocks_in_source_order
    [⟨"struct".toList, "A".toList, " ".toList⟩, ⟨"fn".toList, "b".toList, "\n".toList⟩,
     ⟨"trait".toList, "c".toList, []⟩]
    (by
      intro b hb
      simp only [List.mem_cons, List.mem_singleton, List.not_mem_nil, or_false] at hb
      rcases hb with rfl | rfl | rfl <;> exact ⟨by decide, by decide, by decide⟩)
    5 (by decide)
section Clauses

attribute [local irreducible] Lexer.next

namespace Parser

theorem matchKw_ne (kw : Str) (p : Parser) (h : p.tok.val ≠ kw) : matchKw kw p = (false, p) := by
  simp [matchKw, matchS, h]

theorem matchKw_colon (kw : Str) (p : Parser) (h : p.tok.val = kw)
    (hc : p.eat.tok.type = TOK_COLON) : matchKw kw p = (true, p.eat.eat) := by
  simp [matchKw, matchS, matchT, h, hc]

theorem matchKw_nocolon (kw : Str) (p : Parser) (h : p.tok.val = kw)
    (hc : p.eat.tok.type ≠ TOK_COLON) : matchKw kw p = (false, p.eat) := by
  simp [matchKw, matchS, matchT, h, hc]

/-- Dispatch of the body loop on `tags` followed by a colon. -/
theorem clause_tags (fuel : Nat) (p : Parser) (d : Def) (hv : p.tok.val = "tags".toList)
    (hc : p.eat.tok.type = TOK_COLON) :
    clause fuel p d = (do
      let (xs, q) ← itemLoop idOrStr fuel p.eat.eat d.tags
      pure ((q.matchT TOK_SEMI).2, { d with tags := xs })) := by
  have n1 : p.tok.val ≠ "desc".toList := by rw [hv]; decide
  have n2 : p.tok.val ≠ "returns".toList := by rw [hv]; decide
  have n3 : p.tok.val ≠ "links".toList := by rw [hv]; decide
  have n4 : p.tok.val ≠ "examples".toList := by rw [hv]; decide
  have n5 : p.tok.val ≠ "notes".toList := by rw [hv]; decide
  have n6 : p.tok.val ≠ "category".toList := by rw [hv]; decide
  have n7 : p.tok.val ≠ "version".toList := by rw [hv]; decide
  have n8 : p.tok.val ≠ "author".toList := by rw [hv]; decide
  have n9 : p.tok.val ≠ "since".toList := by rw [hv]; decide
  have n10 : p.tok.val ≠ "deprecated".toList := by rw [hv]; decide
  simp only [clause, matchKw_ne _ p n1, matchKw_ne _ p n2, matchKw_ne _ p n3, matchKw_ne _ p n4,
    matchKw_ne _ p n5, matchKw_ne _ p n6, matchKw_ne _ p n7, matchKw_ne _ p n8,
    matchKw_ne _ p n9, matchKw_ne _ p n10, matchKw_colon _ p hv hc]

end Parser

end Clauses
theorem intercalate_cons (sep x : Str) (r : List Str) :
    sep.intercalate (x :: r) = x ++ sepTail sep r := by
  induction r generalizing x with
  | nil => simp [List.intercalate, sepTail]
  | cons y ys ih =>
    have := ih y
    simp only [List.intercalate, List.intersperse, List.flatten, sepTail] at this ⊢
    rw [this]
    simp

theorem stop_sepTail (sep : Str) (xs : List Str) (E : Str)
    (h1 : ∀ s, Lexer.isIdChar (Lexer.peek (sep ++ s) 0) = false) :
    Lexer.isIdChar (Lexer.peek (sepTail sep xs ++ ';' :: E) 0) = false := by
  cases xs with
  | nil => exact stop_cons _ _ (by decide)
  | cons y ys =>
    simp only [sepTail, List.append_assoc]
    exact h1 _

section Items

attribute [local irreducible] Lexer.next

namespace Parser

theorem init_blank (s : Str) : init (' ' :: s) = init s := by
  simp [init]

/-- The head `<kind> <name> {` of a block is accepted and leaves the parser at the first
token of the body. -/
theorem header_named (kind name body : Str) (hk : kind ∈ kinds) (hn : isIdent name = true)
    (fuel : Nat) :
    header fuel (init (kind ++ ' ' :: (name ++ ' ' :: '{' :: body)))
      = .ok (init body, { kind := kind, name := name }) := by
  have e1 : Lexer.next (kind ++ ' ' :: (name ++ ' ' :: '{' :: body))
      = (⟨TOK_ID, kind⟩, ' ' :: (name ++ ' ' :: '{' :: body)) :=
    Lexer.next_ident _ _ (isIdent_of_kind hk) (stop_cons _ _ (by decide))
  have e2 : Lexer.next (name ++ ' ' :: '{' :: body) = (⟨TOK_ID, name⟩, ' ' :: '{' :: body) :=
    Lexer.next_ident _ _ hn (stop_cons _ _ (by decide))
  simp [header, expect, matchT, eat, init, e1, e2, hk, Lexer.next_lb]

/-- A body loop that runs one clause and then stands on the closing brace. -/
theorem bodyLoop_one (fuel : Nat) (p q : Parser) (d d1 : Def) (h1 : p.tok.type ≠ TOK_RB)
    (h2 : p.tok.type ≠ TOK_EOF) (hc : clause (fuel + 1) p d = .ok (q, d1))
    (hq : q.tok.type = TOK_RB) : bodyLoop (fuel + 2) p d = .ok (q, d1) := by
  rw [bodyLoop]
  simp [h1, h2, hc, bodyLoop, hq]

/-- An input of one block whose body loop ends on the closing brace at the end of the input
parses to the Definition built by the body loop. -/
theorem parse_blockOf (kind name body : Str) (hk : kind ∈ kinds) (hn : isIdent name = true)
    (fuel : Nat) (d : Def)
    (hbody : bodyLoop (fuel + 1) (init (body ++ [' ', '}'])) { kind := kind, name := name }
      = .ok (⟨[], ⟨TOK_RB, ['}']⟩⟩, d)) :
    parse (fuel + 2) (blockOf kind name body) = .ok [d] := by
  have ht : blockOf kind name body
      = kind ++ ' ' :: (name ++ ' ' :: '{' :: ' ' :: (body ++ [' ', '}'])) := by
    simp [blockOf]
  have e1 : Lexer.next (kind ++ ' ' :: (name ++ ' ' :: '{' :: ' ' :: (body ++ [' ', '}'])))
      = (⟨TOK_ID, kind⟩, ' ' :: (name ++ ' ' :: '{' :: ' ' :: (body ++ [' ', '}']))) :=
    Lexer.next_ident _ _ (isIdent_of_kind hk) (stop_cons _ _ (by decide))
  have hty : (init (kind ++ ' ' :: (name ++ ' ' :: '{' :: ' ' :: (body ++ [' ', '}'])))).tok.type
      = TOK_ID := by
    rw [init, e1]
  have hh := header_named kind name (' ' :: (body ++ [' ', '}'])) hk hn (fuel + 1)
  rw [init_blank] at hh
  have hend : Lexer.next [] = (⟨TOK_EOF, []⟩, []) :=
    Lexer.next_of_atEnd [] Lexer.atEnd_nil
  rw [parse, ht, parseLoop]
  simp [hty, block, hh, hbody, expect, matchT, eat, hend, parseLoop]

/-- The item loop on identifiers written with a separator that the lexer skips (a comma is
consumed by `match(TOK_COMMA)`), up to the closing semicolon. -/
theorem itemLoop_sep (sep : Str)
    (h1 : ∀ s, Lexer.isIdChar (Lexer.peek (sep ++ s) 0) = false)
    (h2 : ∀ (y s : Str) (t : Token), isIdent y = true → Lexer.isIdChar (Lexer.peek s 0) = false →
      ((⟨sep ++ (y ++ s), t⟩ : Parser).eat.matchT TOK_COMMA).2 = ⟨s, ⟨TOK_ID, y⟩⟩) :
    ∀ (xs : List Str) (x : Str) (acc : List Str) (E : Str) (fuel : Nat),
      (∀ y ∈ xs, isIdent y = true) → xs.length + 2 ≤ fuel →
      itemLoop idOrStr fuel ⟨sepTail sep xs ++ ';' :: E, ⟨TOK_ID, x⟩⟩ acc
        = .ok (acc ++ x :: xs, ⟨E, ⟨TOK_SEMI, [';']⟩⟩) := by
  intro xs
  induction xs with
  | nil =>
    intro x acc E fuel _ hf
    obtain ⟨f, rfl⟩ : ∃ f, fuel = f + 2 := ⟨fuel - 2, by simp at hf; omega⟩
    simp [sepTail, itemLoop, idOrStr, eat, matchT, Lexer.next_semi]
  | cons y ys ih =>
    intro x acc E fuel hys hf
    simp only [List.length_cons] at hf
    obtain ⟨f, rfl⟩ : ∃ f, fuel = f + 1 := ⟨fuel - 1, by omega⟩
    have hy := hys y (List.mem_cons_self _ _)
    have hstep := h2 y (sepTail sep ys ++ ';' :: E) ⟨TOK_ID, x⟩ hy (stop_sepTail sep ys E h1)
    have htxt : sepTail sep (y :: ys) ++ ';' :: E = sep ++ (y ++ (sepTail sep ys ++ ';' :: E)) := by
      simp [sepTail]
    rw [htxt, itemLoop]
    simp only [idOrStr, decide_True, Bool.true_or, if_true, hstep]
    rw [ih y (acc ++ [x]) E f (fun z hz => hys z (List.mem_cons_of_mem _ hz)) (by omega)]
    simp

theorem step_comma (y s : Str) (t : Token) (hy : isIdent y = true)
    (hs : Lexer.isIdChar (Lexer.peek s 0) = false) :
    ((⟨", ".toList ++ (y ++ s), t⟩ : Parser).eat.matchT TOK_COMMA).2 = ⟨s, ⟨TOK_ID, y⟩⟩ := by
  have e : ", ".toList ++ (y ++ s) = ',' :: ' ' :: (y ++ s) := rfl
  simp [e, eat, matchT, Lexer.next_comma, Lexer.next_ident y s hy hs]

theorem step_blank (y s : Str) (t : Token) (hy : isIdent y = true)
    (hs : Lexer.isIdChar (Lexer.peek s 0) = false) :
    ((⟨" ".toList ++ (y ++ s), t⟩ : Parser).eat.matchT TOK_COMMA).2 = ⟨s, ⟨TOK_ID, y⟩⟩ := by
  have e : " ".toList ++ (y ++ s) = ' ' :: (y ++ s) := rfl
  simp [e, eat, matchT, Lexer.next_ident y s hy hs]

/-- The body loop on a tags clause written with a separator. -/
theorem bodyLoop_tags (sep : Str)
    (h1 : ∀ s, Lexer.isIdChar (Lexer.peek (sep ++ s) 0) = false)
    (h2 : ∀ (y s : Str) (t : Token), isIdent y = true → Lexer.isIdChar (Lexer.peek s 0) = false →
      ((⟨sep ++ (y ++ s), t⟩ : Parser).eat.matchT TOK_COMMA).2 = ⟨s, ⟨TOK_ID, y⟩⟩)
    (xs : List Str) (hxs : ∀ y ∈ xs, isIdent y = true) (d : Def) (hd : d.tags = [])
    (fuel : Nat) (hf : xs.length ≤ fuel) :
    bodyLoop (fuel + 2) (init (tagsClause sep xs ++ [' ', '}'])) d
      = .ok (⟨[], ⟨TOK_RB, ['}']⟩⟩, { d with tags := xs }) := by
  have e0 : ∀ s, Lexer.next ("tags: ".toList ++ s) = (⟨TOK_ID, "tags".toList⟩, ':' :: ' ' :: s) :=
    fun s => Lexer.next_ident "tags".toList (':' :: ' ' :: s) (by decide)
      (stop_cons _ _ (by decide))
  have hinit : init (tagsClause sep xs ++ [' ', '}'])
      = ⟨':' :: ' ' :: (sep.intercalate xs ++ [';', ' ', '}']), ⟨TOK_ID, "tags".toList⟩⟩ := by
    have : tagsClause sep xs ++ [' ', '}']
        = "tags: ".toList ++ (sep.intercalate xs ++ [';', ' ', '}']) := by
      simp [tagsClause]
    rw [this, init, e0]
  rw [hinit]
  apply bodyLoop_one
  · simp
  · simp
  · rw [clause_tags _ _ _ rfl (by simp [eat, Lexer.next_colon])]
    cases xs with
    | nil =>
      simp [eat, matchT, Lexer.next_colon, Lexer.next_semi, Lexer.next_rb, itemLoop, idOrStr, hd,
        List.intercalate]
    | cons x r =>
      have hx := hxs x (List.mem_cons_self _ _)
      have hnx : Lexer.next (x ++ (sepTail sep r ++ ';' :: [' ', '}']))
          = (⟨TOK_ID, x⟩, sepTail sep r ++ ';' :: [' ', '}']) :=
        Lexer.next_ident _ _ hx (stop_sepTail sep r _ h1)
      have hl := itemLoop_sep sep h1 h2 r x [] [' ', '}'] (fuel + 1)
        (fun z hz => hxs z (List.mem_cons_of_mem _ hz)) (by simp at hf; omega)
      simp only [List.nil_append] at hl
      simp [intercalate_cons, eat, Lexer.next_colon, hnx, hd, hl, matchT, Lexer.next_rb]
  · rfl

end Parser

end Items

/-- C5: commas in a tags clause are optional. For every list of identifiers, the block whose
body is `tags: x1, x2, ..., xn;` and the block whose body is `tags: x1 x2 ... xn;` both parse
to one Definition whose tags are exactly the identifiers, in order, duplicates kept. -/
theorem C5_tags_commas_optional (kind name : Str) (xs : List Str) (fuel : Nat)
    (hk : kind ∈ Parser.kinds) (hn : isIdent name = true) (hxs : ∀ x ∈ xs, isIdent x = true)
    (hf : xs.length + 3 ≤ fuel) :
    parse fuel (blockOf kind name (tagsClause ", ".toList xs))
        = .ok [{ kind := kind, name := name, tags := xs }]
      ∧ parse fuel (blockOf kind name (tagsClause " ".toList xs))
        = .ok [{ kind := kind, name := name, tags := xs }] := by
  obtain ⟨g, rfl⟩ : ∃ g, fuel = g + 1 + 2 := ⟨fuel - 3, by omega⟩
  constructor
  · exact Parser.parse_blockOf kind name _ hk hn (g + 1) _
      (Parser.bodyLoop_tags ", ".toList (fun s => stop_cons _ _ (by decide)) Parser.step_comma
        xs hxs _ rfl g (by omega))
  · exact Parser.parse_blockOf kind name _ hk hn (g + 1) _
      (Parser.bodyLoop_tags " ".toList (fun s => stop_cons _ _ (by decide)) Parser.step_blank
        xs hxs _ rfl g (by omega))

/-- C5 at the bodies `tags: a, b, c;` and `tags: a b c;`. -/
theorem C5_witness :
    parse 6 "struct A \x7b tags: a, b, c; \x7d".toList
        = .ok [{ kind := "struct".toList, name := "A".toList,
                 tags := ["a".toList, "b".toList, "c".toList] }]
      ∧ parse 6 "struct A \x7b tags: a b c; \x7d".toList
        = .ok [{ kind := "struct".toList, name := "A".toList,
                 tags := ["a".toList, "b".toList, "c".toList] }] :=
  C5_tags_commas_optional "struct".toList "A".toList ["a".toList, "b".toList, "c".toList] 6
    (by decide) (by decide) (by decide) (by decide)
theorem isIdent_ne_nil {x : Str} (h : isIdent x = true) : x ≠ [] := by
  intro e
  rw [e] at h
  exact Bool.noConfusion h

section Words

attribute [local irreducible] Lexer.next

namespace Parser

/-- Dispatch of the body loop on `desc` followed by a colon. -/
theorem clause_desc (fuel : Nat) (p : Parser) (d : Def) (hv : p.tok.val = "desc".toList)
    (hc : p.eat.tok.type = TOK_COLON) :
    clause fuel p d = (do
      let (v, q) ← descValue fuel p.eat.eat
      pure ((q.matchT TOK_SEMI).2, { d with desc := v })) := by
  simp only [clause, matchKw_colon _ p hv hc]

/-- The loop of `multilineValue` on identifier words separated by one space, once the value
is non-empty: every word is appended after a single space, up to the semicolon. -/
theorem multilineLoop_words :
    ∀ (ws : List Str) (w : Str) (val : Str) (E : Str) (fuel : Nat),
      (∀ y ∈ ws, isIdent y = true ∧ y ≠ ['l', 'i', 'n', 'k', 's']) →
      w ≠ ['l', 'i', 'n', 'k', 's'] → val ≠ [] → ws.length + 2 ≤ fuel →
      multilineLoop fuel ⟨sepTail [' '] ws ++ ';' :: E, ⟨TOK_ID, w⟩⟩ val
        = .ok (val ++ ' ' :: (w ++ sepTail [' '] ws), ⟨E, ⟨TOK_SEMI, [';']⟩⟩) := by
  intro ws
  induction ws with
  | nil =>
    intro w val E fuel _ hw hval hf
    obtain ⟨f, rfl⟩ : ∃ f, fuel = f + 2 := ⟨fuel - 2, by simp at hf; omega⟩
    simp [sepTail, multilineLoop, eat, Lexer.next_semi, hw, hval]
  | cons y ys ih =>
    intro w val E fuel hys hw hval hf
    simp only [List.length_cons] at hf
    obtain ⟨f, rfl⟩ : ∃ f, fuel = f + 1 := ⟨fuel - 1, by omega⟩
    have hy := hys y (List.mem_cons_self _ _)
    have hnx : Lexer.next (y ++ (sepTail [' '] ys ++ ';' :: E))
        = (⟨TOK_ID, y⟩, sepTail [' '] ys ++ ';' :: E) :=
      Lexer.next_ident _ _ hy.1 (stop_sepTail _ ys E (fun s => stop_cons _ _ (by decide)))
    have htxt : sepTail [' '] (y :: ys) ++ ';' :: E
        = ' ' :: (y ++ (sepTail [' '] ys ++ ';' :: E)) := by
      simp [sepTail]
    have hstep : (⟨' ' :: (y ++ (sepTail [' '] ys ++ ';' :: E)), ⟨TOK_ID, w⟩⟩ : Parser).eat
        = ⟨sepTail [' '] ys ++ ';' :: E, ⟨TOK_ID, y⟩⟩ := by
      simp [eat, hnx]
    have hL : "links".toList = ['l', 'i', 'n', 'k', 's'] := rfl
    have hS : " ".toList = [' '] := rfl
    rw [htxt, multilineLoop]
    simp only [hL, hS, hw, hval, hstep, ne_eq, reduceCtorEq, not_false_eq_true, decide_True,
      Bool.and_self, if_true, List.isEmpty_eq_true, decide_False, Bool.not_false]
    rw [ih y _ E f (fun z hz => hys z (List.mem_cons_of_mem _ hz)) hy.2 (by simp [hval])
      (by omega)]
    simp [sepTail, hval]

/-- The body loop on an unquoted description of identifier words. -/
theorem bodyLoop_desc (w : Str) (ws : List Str)
    (hws : ∀ y ∈ w :: ws, isIdent y = true ∧ y ≠ ['l', 'i', 'n', 'k', 's']) (d : Def)
    (fuel : Nat) (hf : ws.length + 1 ≤ fuel) :
    bodyLoop (fuel + 2) (init (descClause (w :: ws) ++ [' ', '}'])) d
      = .ok (⟨[], ⟨TOK_RB, ['}']⟩⟩, { d with desc := w ++ sepTail [' '] ws }) := by
  have hw := hws w (List.mem_cons_self _ _)
  have e0 : ∀ s, Lexer.next ("desc: ".toList ++ s) = (⟨TOK_ID, "desc".toList⟩, ':' :: ' ' :: s) :=
    fun s => Lexer.next_ident "desc".toList (':' :: ' ' :: s) (by decide)
      (stop_cons _ _ (by decide))
  have hinit : init (descClause (w :: ws) ++ [' ', '}'])
      = ⟨':' :: ' ' :: (w ++ (sepTail [' '] ws ++ ';' :: [' ', '}'])),
          ⟨TOK_ID, "desc".toList⟩⟩ := by
    have : descClause (w :: ws) ++ [' ', '}']
        = "desc: ".toList ++ (w ++ (sepTail [' '] ws ++ ';' :: [' ', '}'])) := by
      simp [descClause, intercalate_cons]
    rw [this, init, e0]
  have hnx : Lexer.next (w ++ (sepTail [' '] ws ++ ';' :: [' ', '}']))
      = (⟨TOK_ID, w⟩, sepTail [' '] ws ++ ';' :: [' ', '}']) :=
    Lexer.next_ident _ _ hw.1 (stop_sepTail _ ws _ (fun s => stop_cons _ _ (by decide)))
  have hp2 : (⟨':' :: ' ' :: (w ++ (sepTail [' '] ws ++ ';' :: [' ', '}'])),
      ⟨TOK_ID, "desc".toList⟩⟩ : Parser).eat.eat
      = ⟨sepTail [' '] ws ++ ';' :: [' ', '}'], ⟨TOK_ID, w⟩⟩ := by
    simp [eat, Lexer.next_colon, hnx]
  have hloop : multilineLoop (fuel + 1) ⟨sepTail [' '] ws ++ ';' :: [' ', '}'], ⟨TOK_ID, w⟩⟩ []
      = .ok (w ++ sepTail [' '] ws, ⟨[' ', '}'], ⟨TOK_SEMI, [';']⟩⟩) := by
    obtain ⟨f, rfl⟩ : ∃ f, fuel = f + 1 := ⟨fuel - 1, by omega⟩
    cases ws with
    | nil => simp [sepTail, multilineLoop, eat, Lexer.next_semi, hw.2]
    | cons y ys =>
      have hy := hws y (List.mem_cons_of_mem _ (List.mem_cons_self _ _))
      have hny : Lexer.next (y ++ (sepTail [' '] ys ++ ';' :: [' ', '}']))
          = (⟨TOK_ID, y⟩, sepTail [' '] ys ++ ';' :: [' ', '}']) :=
        Lexer.next_ident _ _ hy.1 (stop_sepTail _ ys _ (fun s => stop_cons _ _ (by decide)))
      have hl := multilineLoop_words ys y w [' ', '}'] (f + 1)
        (fun z hz => hws z (List.mem_cons_of_mem _ (List.mem_cons_of_mem _ hz))) hy.2
        (isIdent_ne_nil hw.1) (by simp at hf; omega)
      have htxt : sepTail [' '] (y :: ys) ++ ';' :: [' ', '}']
          = ' ' :: (y ++ (sepTail [' '] ys ++ ';' :: [' ', '}'])) := by
        simp [sepTail]
      have hstep : (⟨' ' :: (y ++ (sepTail [' '] ys ++ ';' :: [' ', '}'])), ⟨TOK_ID, w⟩⟩ : Parser).eat
          = ⟨sepTail [' '] ys ++ ';' :: [' ', '}'], ⟨TOK_ID, y⟩⟩ := by
        simp [eat, hny]
      rw [htxt, multilineLoop]
      simp [hw.2, hstep, hl, sepTail]
  rw [hinit]
  apply bodyLoop_one
  · simp
  · simp
  · rw [clause_desc _ _ _ rfl (by simp [eat, Lexer.next_colon]), hp2]
    simp [descValue, multilineValue, hloop, matchT, eat, Lexer.next_rb]
  · rfl

end Parser

end Words

/-- C7: for every non-empty list of identifier words, none equal to "links", the block whose
body is `desc: w1 w2 ... wn;` parses to one Definition whose description is the words joined
by single spaces, with no surrounding quotes. -/
theorem C7_unquoted_description_joined_by_spaces (kind name : Str) (ws : List Str) (fuel : Nat)
    (hk : kind ∈ Parser.kinds) (hn : isIdent name = true) (hne : ws ≠ [])
    (hws : ∀ w ∈ ws, isIdent w = true ∧ w ≠ "links".toList) (hf : ws.length + 3 ≤ fuel) :
    parse fuel (blockOf kind name (descClause ws))
      = .ok [{ kind := kind, name := name, desc := " ".toList.intercalate ws }] := by
  cases ws with
  | nil => exact absurd rfl hne
  | cons w r =>
    simp only [List.length_cons] at hf
    obtain ⟨g, rfl⟩ : ∃ g, fuel = g + 1 + 2 := ⟨fuel - 3, by omega⟩
    have hb := Parser.bodyLoop_desc w r hws { kind := kind, name := name } g (by omega)
    rw [← intercalate_cons] at hb
    exact Parser.parse_blockOf kind name _ hk hn (g + 1) _ hb

/-- C7 at the body `desc: the quick brown fox;`. -/
theorem C7_witness :
    parse 7 "struct A \x7b desc: the quick brown fox; \x7d".toList
      = .ok [{ kind := "struct".toList, name := "A".toList,
               desc := "the quick brown fox".toList }] :=
  C7_unquoted_description_joined_by_spaces "struct".toList "A".toList
    ["the".toList, "quick".toList, "brown".toList, "fox".toList] 7
    (by decide) (by decide) (by decide) (by decide) (by decide)
namespace Lexer

theorem strLoop_escape (q : Char) (hqb : q ≠ '\\') (s rest : Str)
    (hs : ∀ c ∈ s, c ≠ NUL) : strLoop q (escapeQ q s ++ q :: rest) = (s, q :: rest) := by
  induction s with
  | nil =>
    simp only [escapeQ, List.nil_append]
    unfold strLoop
    simp
  | cons c cs ih =>
    have hc0 : c ≠ NUL := hs c (List.mem_cons_self _ _)
    have ih1 := ih (fun x hx => hs x (List.mem_cons_of_mem _ hx))
    by_cases hesc : c = q ∨ c = '\\'
    · have hb : ('\\' : Char) ≠ NUL := by decide
      have e : escapeQ q (c :: cs) = '\\' :: c :: escapeQ q cs := by
        rcases hesc with h | h <;> simp [escapeQ, h]
      rw [e]
      simp only [List.cons_append]
      unfold strLoop
      simp [hb, Ne.symm hqb, hc0, ih1]
    · have h1 : c ≠ q := fun h => hesc (Or.inl h)
      have h2 : c ≠ '\\' := fun h => hesc (Or.inr h)
      have e : escapeQ q (c :: cs) = c :: escapeQ q cs := by simp [escapeQ, h1, h2]
      rw [e]
      simp only [List.cons_append]
      unfold strLoop
      simp [hc0, h1, h2, ih1]

/-- A quoted string with escaped content is read as one string token holding the content. -/
theorem next_str (q : Char) (hq : q = '"' ∨ q = '\'') (s rest : Str) (hs : ∀ c ∈ s, c ≠ NUL) :
    next (q :: (escapeQ q s ++ q :: rest)) = (⟨TOK_STR, s⟩, rest) := by
  have hqb : q ≠ '\\' := by rcases hq with rfl | rfl <;> decide
  have hsk : skip (q :: (escapeQ q s ++ q :: rest)) = q :: (escapeQ q s ++ q :: rest) := by
    rw [skip_cons]
    rcases hq with rfl | rfl <;> rfl
  have hl := strLoop_escape q hqb s rest hs
  unfold next
  rw [hsk]
  rcases hq with rfl | rfl
  · have h0 : (('"' : Char) == NUL) = false := by decide
    simp [h0, str, hl]
  · have h0 : (('\'' : Char) == NUL) = false := by decide
    simp [h0, str, hl]

theorem isdigit_ne {c k : Char} (h : isdigit c = true) (hk : isdigit k = false) : c ≠ k := by
  intro e
  rw [e, hk] at h
  exact Bool.noConfusion h

theorem isdigit_not_space {c : Char} (h : isdigit c = true) : isspace c = false := by
  cases hs : isspace c
  · rfl
  · exfalso
    simp only [isdigit, Bool.and_eq_true, decide_eq_true_eq] at h
    simp only [isspace, Bool.or_eq_true, Bool.and_eq_true, decide_eq_true_eq, beq_iff_eq] at hs
    omega

theorem skip_digit (c : Char) (s : Str) (h : isdigit c = true) : skip (c :: s) = c :: s := by
  have h0 : (c == NUL) = false := by simpa using isdigit_ne h (k := NUL) (by decide)
  have h1 : (c == '#') = false := by simpa using isdigit_ne h (k := '#') (by decide)
  have h2 : (c == '/') = false := by simpa using isdigit_ne h (k := '/') (by decide)
  rw [skip_cons]
  simp [h0, h1, h2, isdigit_not_space h]

theorem takeWhile_digit_stop (s : Str) (h : isdigit (peek s 0) = false) :
    s.takeWhile isdigit = [] ∧ s.dropWhile isdigit = s := by
  cases s with
  | nil => simp
  | cons d ds =>
    simp only [peek_cons_zero] at h
    simp [List.takeWhile, List.dropWhile, h]

theorem fracText_stop (frac : Option Str) (s : Str) (hs1 : isdigit (peek s 0) = false) :
    isdigit (peek (fracText frac ++ s) 0) = false := by
  cases frac with
  | none => simpa [fracText] using hs1
  | some fs => exact (by decide : isdigit '.' = false)

/-- The numeric branch on an optional sign, digits, an optional fraction, and a following
text that starts with neither a digit nor a dot. -/
theorem number_digits (neg : Bool) (ds : Str) (frac : Option Str) (s : Str) (hne : ds ≠ [])
    (hds : ∀ c ∈ ds, isdigit c = true) (hfs : ∀ c ∈ frac.getD [], isdigit c = true)
    (hs1 : isdigit (peek s 0) = false) (hs2 : peek s 0 ≠ '.') :
    number (signText neg ++ (ds ++ (fracText frac ++ s)))
      = (signText neg ++ (ds ++ fracText frac), s) := by
  have hm : (peek (ds ++ (fracText frac ++ s)) 0 == '-') = false := by
    cases ds with
    | nil => exact absurd rfl hne
    | cons d ds' =>
      have hd := hds d (List.mem_cons_self _ _)
      simpa using isdigit_ne hd (k := '-') (by decide)
  have ht := takeWhile_digit_stop s hs1
  have hp : (peek s 0 == '.') = false := by simpa using hs2
  have hdot : isdigit '.' = false := by decide
  cases neg <;> cases frac with
  | none =>
    simp only [fracText, List.nil_append] at hm
    simp [number, signText, fracText, hm, List.takeWhile_append_of_pos hds,
      List.dropWhile_append_of_pos hds, ht.1, ht.2, hp]
  | some fs =>
    have hf : ∀ c ∈ fs, isdigit c = true := hfs
    simp only [fracText, List.cons_append] at hm
    simp [number, signText, fracText, hm, List.takeWhile_append_of_pos hds,
      List.dropWhile_append_of_pos hds, List.takeWhile_append_of_pos hf,
      List.dropWhile_append_of_pos hf, ht.1, ht.2, hdot]

/-- A number followed by a text that starts with neither a digit nor a dot is read as one
numeric token with the number as written. -/
theorem next_num (neg : Bool) (ds : Str) (frac : Option Str) (s : Str) (hne : ds ≠ [])
    (hds : ∀ c ∈ ds, isdigit c = true) (hfs : ∀ c ∈ frac.getD [], isdigit c = true)
    (hs1 : isdigit (peek s 0) = false) (hs2 : peek s 0 ≠ '.') :
    next (signText neg ++ (ds ++ (fracText frac ++ s)))
      = (⟨TOK_NUM, signText neg ++ (ds ++ fracText frac)⟩, s) := by
  have hnum := number_digits neg ds frac s hne hds hfs hs1 hs2
  cases ds with
  | nil => exact absurd rfl hne
  | cons d ds' =>
    have hd := hds d (List.mem_cons_self _ _)
    have ne := fun k (hk : isdigit k = false) => isdigit_ne hd hk
    have h0 : (d == NUL) = false := by simpa using ne NUL (by decide)
    have h1 : (d == '"') = false := by simpa using ne '"' (by decide)
    have h2 : (d == '\'') = false := by simpa using ne '\'' (by decide)
    have h3 : (d == '{') = false := by simpa using ne '{' (by decide)
    have h4 : (d == '}') = false := by simpa using ne '}' (by decide)
    have h5 : (d == ';') = false := by simpa using ne ';' (by decide)
    have h6 : (d == '=') = false := by simpa using ne '=' (by decide)
    have h7 : (d == ':') = false := by simpa using ne ':' (by decide)
    have h8 : (d == ',') = false := by simpa using ne ',' (by decide)
    have h9 : (d == '@') = false := by simpa using ne '@' (by decide)
    cases neg with
    | false =>
      simp only [signText, Bool.false_eq_true, if_false, List.nil_append, List.cons_append]
        at hnum ⊢
      have hsk := skip_digit d (ds' ++ (fracText frac ++ s)) hd
      unfold next
      rw [hsk]
      simp only [peek_cons_zero, h0, h1, h2, h3, h4, h5, h6, h7, h8, h9, hd, hnum,
        Bool.false_or, Bool.true_or, Bool.false_eq_true, if_false, if_true]
    | true =>
      simp only [signText, if_true, List.cons_append, List.nil_append] at hnum ⊢
      have hsk : skip ('-' :: d :: (ds' ++ (fracText frac ++ s)))
          = '-' :: d :: (ds' ++ (fracText frac ++ s)) := by
        rw [skip_cons]
        have c1 : (('-' : Char) == NUL) = false := by decide
        have c2 : isspace '-' = false := by decide
        have c3 : (('-' : Char) == '#') = false := by decide
        have c4 : (('-' : Char) == '/') = false := by decide
        simp [c1, c2, c3, c4]
      have c1 : (('-' : Char) == NUL) = false := by decide
      have c5 : isdigit '-' = false := by decide
      unfold next
      rw [hsk]
      simp [c1, c5, hd, hnum]

end Lexer
/-- A well-formed scalar value followed by a semicolon is read as one token of its kind
holding its text. -/
theorem next_scalar (v : Scalar) (hv : v.wf = true) (rest : Str) :
    Lexer.next (v.src ++ ';' :: rest) = (⟨v.kind, v.text⟩, ';' :: rest) := by
  cases v with
  | ident x =>
    exact Lexer.next_ident x _ hv (stop_cons _ _ (by decide))
  | str q s =>
    simp only [Scalar.wf, Bool.and_eq_true, Bool.or_eq_true, beq_iff_eq, List.all_eq_true,
      bne_iff_ne, ne_eq] at hv
    have := Lexer.next_str q hv.1 s (';' :: rest) hv.2
    simpa [Scalar.src, Scalar.kind, Scalar.text] using this
  | num neg ds frac =>
    simp only [Scalar.wf, Bool.and_eq_true, Bool.not_eq_true', List.isEmpty_eq_false,
      List.all_eq_true] at hv
    obtain ⟨⟨hne, hds⟩, hfs⟩ := hv
    have h1 : isdigit (Lexer.peek (';' :: rest) 0) = false := (by decide : isdigit ';' = false)
    have h2 : Lexer.peek (';' :: rest) 0 ≠ '.' := (by decide : (';' : Char) ≠ '.')
    have := Lexer.next_num neg ds frac (';' :: rest) hne hds hfs h1 h2
    simpa [Scalar.src, Scalar.kind, Scalar.text] using this

theorem scalar_kind_idStrNum (v : Scalar) : Parser.idStrNum v.kind = true := by
  cases v <;> rfl

section Generic

attribute [local irreducible] Lexer.next

namespace Parser

/-- Dispatch of the body loop on a token whose text is none of the clause keywords. -/
theorem clause_generic (fuel : Nat) (p : Parser) (d : Def) (hv : p.tok.val ∉ clauseKeywords) :
    clause fuel p d = if p.tok.type = TOK_ID then generic fuel p d else pure (p.eat, d) := by
  simp only [clauseKeywords, List.mem_cons, List.mem_singleton, List.not_mem_nil, or_false,
    not_or] at hv
  obtain ⟨n1, n2, n3, n4, n5, n6, n7, n8, n9, n10, n11⟩ := hv
  simp only [clause, matchKw_ne _ p n1, matchKw_ne _ p n2, matchKw_ne _ p n3, matchKw_ne _ p n4,
    matchKw_ne _ p n5, matchKw_ne _ p n6, matchKw_ne _ p n7, matchKw_ne _ p n8,
    matchKw_ne _ p n9, matchKw_ne _ p n10, matchKw_ne _ p n11]

/-- The body loop on a clause `key: v;` whose key is not a clause keyword. -/
theorem bodyLoop_key (key : Str) (v : Scalar) (hkey : isIdent key = true)
    (hnk : key ∉ clauseKeywords) (hv : v.wf = true) (d : Def) (fuel : Nat) :
    bodyLoop (fuel + 2) (init (keyClause key v ++ [' ', '}'])) d
      = .ok (⟨[], ⟨TOK_RB, ['}']⟩⟩, { d with «meta» := mapSet key v.text d.«meta» }) := by
  have e0 : Lexer.next (key ++ ':' :: ' ' :: (v.src ++ ';' :: [' ', '}']))
      = (⟨TOK_ID, key⟩, ':' :: ' ' :: (v.src ++ ';' :: [' ', '}'])) :=
    Lexer.next_ident key _ hkey (stop_cons _ _ (by decide))
  have hinit : init (keyClause key v ++ [' ', '}'])
      = ⟨':' :: ' ' :: (v.src ++ ';' :: [' ', '}']), ⟨TOK_ID, key⟩⟩ := by
    have : keyClause key v ++ [' ', '}'] = key ++ ':' :: ' ' :: (v.src ++ ';' :: [' ', '}']) := by
      simp [keyClause]
    rw [this, init, e0]
  have hsc := next_scalar v hv [' ', '}']
  rw [hinit]
  apply bodyLoop_one
  · simp
  · simp
  · rw [clause_generic _ _ _ hnk]
    simp [generic, eat, matchT, Lexer.next_colon, hsc, scalar_kind_idStrNum, Lexer.next_semi,
      Lexer.next_rb]
  · rfl

end Parser

end Generic

/-- C6: for every identifier key that is not one of the eleven clause keywords and every
scalar value (identifier, string or number), the block whose body is `key: v;` parses to one
Definition whose metadata holds exactly the entry key ↦ text of v, and which has no Field. -/
theorem C6_unknown_key_goes_to_metadata (kind name key : Str) (v : Scalar) (fuel : Nat)
    (hk : kind ∈ Parser.kinds) (hn : isIdent name = true) (hkey : isIdent key = true)
    (hnk : key ∉ clauseKeywords) (hv : v.wf = true) (hf : 3 ≤ fuel) :
    parse fuel (blockOf kind name (keyClause key v))
      = .ok [{ kind := kind, name := name, «meta» := [(key, v.text)], fields := [] }] := by
  obtain ⟨g, rfl⟩ : ∃ g, fuel = g + 1 + 2 := ⟨fuel - 3, by omega⟩
  exact Parser.parse_blockOf kind name _ hk hn (g + 1) _
    (Parser.bodyLoop_key key v hkey hnk hv { kind := kind, name := name } g)

/-- C6 at the body `weight: 42;`. -/
theorem C6_witness :
    parse 3 "struct A \x7b weight: 42; \x7d".toList
      = .ok [{ kind := "struct".toList, name := "A".toList,
               «meta» := [("weight".toList, "42".toList)] }] :=
  C6_unknown_key_goes_to_metadata "struct".toList "A".toList "weight".toList
    (.num false "42".toList none) 3 (by decide) (by decide) (by decide) (by decide) (by decide)
    (by decide)
namespace Lexer

theorem skip_of_peek_nul (r : Str) (h : peek r 0 = NUL) : skip r = r := by
  cases r with
  | nil => rfl
  | cons c cs =>
    simp only [peek_cons_zero] at h
    rw [h, skip_nul]

/-- The end-of-input token is returned only by the first branch of `next`, which leaves the
cursor where `skip` put it: at the end or on a NUL. -/
theorem next_eof_inv (s : Str) (h : (next s).1.type = TOK_EOF) :
    peek (skip s) 0 = NUL ∧ (next s).2 = skip s := by
  unfold next at h ⊢
  simp only at h ⊢
  split at h
  · rename_i h0
    simp only [beq_iff_eq] at h0
    simp [h0]
  · exfalso
    repeat' split at h
    all_goals exact TokenType.noConfusion h

theorem next_fix (r : Str) (h : peek r 0 = NUL) : next r = (⟨TOK_EOF, []⟩, r) := by
  have hs := skip_of_peek_nul r h
  have := next_of_atEnd r (by unfold AtEnd; rw [hs]; exact h)
  rw [this, hs]

theorem iterate_next_fix (r : Str) (h : peek r 0 = NUL) (n : Nat) :
    (fun x => (next x).2)^[n] r = r := by
  induction n with
  | zero => rfl
  | succ n ih =>
    rw [Function.iterate_succ_apply', ih, next_fix r h]

end Lexer

/-- C17: once `Lexer::next` has returned the end-of-input token, every later call (after any
number `n` of further calls) returns the end-of-input token with empty text and leaves the
cursor where it was. -/
theorem C17_eof_is_returned_again (s : Str) (h : (Lexer.next s).1.type = TOK_EOF) (n : Nat) :
    Lexer.next ((fun r => (Lexer.next r).2)^[n] (Lexer.next s).2)
      = (⟨TOK_EOF, []⟩, (Lexer.next s).2) := by
  obtain ⟨h1, h2⟩ := Lexer.next_eof_inv s h
  have hp : Lexer.peek (Lexer.next s).2 0 = NUL := by rw [h2]; exact h1
  rw [Lexer.iterate_next_fix _ hp n]
  exact Lexer.next_fix _ hp

/-- C17 at the input `x` (one identifier), after the identifier and the first end-of-input
token were read, for the third later call. -/
theorem C17_witness :
    Lexer.next ((fun r => (Lexer.next r).2)^[3] (Lexer.next (Lexer.next "x".toList).2).2)
      = (⟨TOK_EOF, []⟩, (Lexer.next (Lexer.next "x".toList).2).2) :=
  C17_eof_is_returned_again (Lexer.next "x".toList).2 (by decide) 3

/-- C18: a non-empty text made only of letters, digits, underscore, `*`, `&`, `<`, `>` that
does not start with a digit is read as exactly one identifier token with that text, and the
next token is the end of input. -/
theorem C18_identifier_is_one_token (s : Str) (hne : s ≠ [])
    (hchars : ∀ c ∈ s, isalpha c = true ∨ isdigit c = true ∨ c = '_' ∨ c = '*' ∨ c = '&'
      ∨ c = '<' ∨ c = '>')
    (hfirst : isdigit (s.headD NUL) = false) :
    Lexer.next s = (⟨TOK_ID, s⟩, []) ∧ Lexer.next [] = (⟨TOK_EOF, []⟩, []) := by
  have hid : ∀ c ∈ s, Lexer.isIdChar c = true := by
    intro c hc
    rcases hchars c hc with h | h | h | h | h | h | h
    · have h0 : c ≠ NUL := by
        intro e; rw [e] at h; exact absurd h (by decide)
      simp [Lexer.isIdChar, isalnum, h, h0]
    · have h0 : c ≠ NUL := by
        intro e; rw [e] at h; exact absurd h (by decide)
      simp [Lexer.isIdChar, isalnum, h, h0]
    all_goals (subst h; decide)
  have hident : isIdent s = true := by
    cases s with
    | nil => exact absurd rfl hne
    | cons c cs =>
      simp only [List.headD_cons] at hfirst
      simp only [isIdent, Bool.and_eq_true, Bool.not_eq_true', List.all_eq_true]
      exact ⟨⟨hid c (List.mem_cons_self _ _), hfirst⟩,
        fun x hx => hid x (List.mem_cons_of_mem _ hx)⟩
  have h := Lexer.next_ident s [] hident rfl
  rw [List.append_nil] at h
  exact ⟨h, Lexer.next_of_atEnd [] Lexer.atEnd_nil⟩

/-- C18 at the type expression `vector<int*>`. -/
theorem C18_witness :
    Lexer.next "vector<int*>".toList = (⟨TOK_ID, "vector<int*>".toList⟩, [])
      ∧ Lexer.next [] = (⟨TOK_EOF, []⟩, []) :=
  C18_identifier_is_one_token "vector<int*>".toList (by decide) (by decide) (by decide)

/-- C19: string-literal round trip. For a quote character `q` (double or single) and a text
`s` without NUL, the source `q ++ e(s) ++ q`, with `e(s)` the text `s` with a backslash before
every `q` and every backslash, is read as exactly one string token with text `s`, and the
next token is the end of input. -/
theorem C19_string_round_trip (q : Char) (s : Str) (hq : q = '"' ∨ q = '\'')
    (hs : ∀ c ∈ s, c ≠ NUL) :
    Lexer.next (q :: (escapeQ q s ++ [q])) = (⟨TOK_STR, s⟩, [])
      ∧ Lexer.next [] = (⟨TOK_EOF, []⟩, []) :=
  ⟨Lexer.next_str q hq s [] hs, Lexer.next_of_atEnd [] Lexer.atEnd_nil⟩

/-- C19 at the text `a"b\c` in double quotes, written `"a\"b\\c"` in the source. -/
theorem C19_witness :
    Lexer.next "\"a\\\"b\\\\c\"".toList = (⟨TOK_STR, "a\"b\\c".toList⟩, [])
      ∧ Lexer.next [] = (⟨TOK_EOF, []⟩, []) :=
  C19_string_round_trip '"' "a\"b\\c".toList (Or.inl rfl) (by decide)
/-- C13 (code as written): on `struct S { @required int x; }` the `@` reaches the default arm
of the body loop and is discarded, `required` becomes the key of the generic fallback and is
dropped, and `field()` reads `int x;`: the Field has type "int", name "x", no tags and
required == false. -/
theorem C13_in_body_tag_list_is_lost (fuel : Nat) :
    parse (fuel + 4) "struct S \x7b @required int x; \x7d".toList
      = .ok [{ kind := "struct".toList, name := "S".toList,
               fields := [{ type := "int".toList, name := "x".toList, tags := [],
                            required := false }] }] := by
  rfl

/-- C14 (code as written): on `struct A { deprecated: }` the deprecated clause consumes the
closing brace (the token after the colon is not `;`), the body loop stops on the end of input
and the parse ends with the fatal error of `expect`; with each of the ten other clause
keywords the input `struct A { k: }` parses to the one Definition with nothing set. -/
theorem C14_empty_deprecated_eats_closing_brace (fuel : Nat) :
    parse (fuel + 3) "struct A \x7b deprecated: \x7d".toList
        = .fatal "Expected token, got: ".toList
      ∧ ∀ k ∈ ["desc", "returns", "links", "examples", "notes", "category", "version",
                "author", "since", "tags"],
          parse (fuel + 3) ("struct A \x7b ".toList ++ k.toList ++ ": \x7d".toList)
            = .ok [{ kind := "struct".toList, name := "A".toList }] := by
  refine ⟨rfl, ?_⟩
  intro k hk
  simp only [List.mem_cons, List.mem_singleton, List.not_mem_nil, or_false] at hk
  rcases hk with rfl | rfl | rfl | rfl | rfl | rfl | rfl | rfl | rfl | rfl <;> rfl

/-- C16 (code as written): a clause keyword that is not followed by a colon stays consumed
and the rest of the chain goes on with the next token. `version x;` gives a Field with empty
type where `foo x;` gives a Field of type "x"; `desc returns: int;` sets the return type
"int" where `foo returns: int;` gives a Field of type "returns" with description "int". -/
theorem C16_keyword_without_colon_is_dropped (fuel : Nat) :
    parse (fuel + 4) "struct S \x7b version x; \x7d".toList
        = .ok [{ kind := "struct".toList, name := "S".toList, fields := [{ type := [] }] }]
      ∧ parse (fuel + 4) "struct S \x7b foo x; \x7d".toList
        = .ok [{ kind := "struct".toList, name := "S".toList,
                 fields := [{ type := "x".toList }] }]
      ∧ parse (fuel + 4) "struct S \x7b desc returns: int; \x7d".toList
        = .ok [{ kind := "struct".toList, name := "S".toList, ret := "int".toList }]
      ∧ parse (fuel + 4) "struct S \x7b foo returns: int; \x7d".toList
        = .ok [{ kind := "struct".toList, name := "S".toList,
                 fields := [{ type := "returns".toList, desc := "int".toList }] }] := by
  exact ⟨rfl, rfl, rfl, rfl⟩

/-- C15 (claim as stated, refuted): on `struct A { notes: a, b; }` the notes stay empty (the
loop of the notes clause accepts string tokens only) and the identifiers are read as field
declarations, which adds two Fields; likewise the examples stay empty on
`struct A { examples: a, b; }`. -/
theorem C15_counterexample :
    (parse 6 "struct A \x7b notes: a, b; \x7d".toList
        = .ok [{ kind := "struct".toList, name := "A".toList, notes := [],
                 fields := [{}, {}] }]
      ∧ parse 6 "struct A \x7b notes: a, b; \x7d".toList
        ≠ .ok [{ kind := "struct".toList, name := "A".toList,
                 notes := ["a".toList, "b".toList] }])
    ∧ (parse 6 "struct A \x7b examples: a, b; \x7d".toList
        = .ok [{ kind := "struct".toList, name := "A".toList, examples := [],
                 fields := [{}, {}] }]
      ∧ parse 6 "struct A \x7b examples: a, b; \x7d".toList
        ≠ .ok [{ kind := "struct".toList, name := "A".toList,
                 examples := ["a".toList, "b".toList] }]) := by
  decide

/-- An identifier or a string literal followed by a character that is not an identifier
character is read as one token of its kind holding its text. -/
theorem next_item (v : Scalar) (hv : v.wf = true) (hk : v.kind ≠ TOK_NUM) (c : Char)
    (hc : Lexer.isIdChar c = false) (rest : Str) :
    Lexer.next (v.src ++ c :: rest) = (⟨v.kind, v.text⟩, c :: rest) := by
  cases v with
  | ident x => exact Lexer.next_ident x _ hv (stop_cons _ _ hc)
  | str q s =>
    simp only [Scalar.wf, Bool.and_eq_true, Bool.or_eq_true, beq_iff_eq, List.all_eq_true,
      bne_iff_ne, ne_eq] at hv
    have := Lexer.next_str q hv.1 s (c :: rest) hv.2
    simpa [Scalar.src, Scalar.kind, Scalar.text] using this
  | num neg ds frac => exact absurd rfl hk

section ListClauses

attribute [local irreducible] Lexer.next

namespace Parser

/-- Dispatch of the body loop on `links` followed by a colon. -/
theorem clause_links (fuel : Nat) (p : Parser) (d : Def) (hv : p.tok.val = "links".toList)
    (hc : p.eat.tok.type = TOK_COLON) :
    clause fuel p d = (do
      let (xs, q) ← itemLoop idOrStr fuel p.eat.eat d.links
      pure ((q.matchT TOK_SEMI).2, { d with links := xs })) := by
  have n1 : p.tok.val ≠ "desc".toList := by rw [hv]; decide
  have n2 : p.tok.val ≠ "returns".toList := by rw [hv]; decide
  simp only [clause, matchKw_ne _ p n1, matchKw_ne _ p n2, matchKw_colon _ p hv hc]

/-- Dispatch of the body loop on `examples` followed by a colon. -/
theorem clause_examples (fuel : Nat) (p : Parser) (d : Def)
    (hv : p.tok.val = "examples".toList) (hc : p.eat.tok.type = TOK_COLON) :
    clause fuel p d = (do
      let (xs, q) ← itemLoop strOnly fuel p.eat.eat d.examples
      pure ((q.matchT TOK_SEMI).2, { d with examples := xs })) := by
  have n1 : p.tok.val ≠ "desc".toList := by rw [hv]; decide
  have n2 : p.tok.val ≠ "returns".toList := by rw [hv]; decide
  have n3 : p.tok.val ≠ "links".toList := by rw [hv]; decide
  simp only [clause, matchKw_ne _ p n1, matchKw_ne _ p n2, matchKw_ne _ p n3,
    matchKw_colon _ p hv hc]

/-- Dispatch of the body loop on `notes` followed by a colon. -/
theorem clause_notes (fuel : Nat) (p : Parser) (d : Def) (hv : p.tok.val = "notes".toList)
    (hc : p.eat.tok.type = TOK_COLON) :
    clause fuel p d = (do
      let (xs, q) ← itemLoop strOnly fuel p.eat.eat d.notes
      pure ((q.matchT TOK_SEMI).2, { d with notes := xs })) := by
  have n1 : p.tok.val ≠ "desc".toList := by rw [hv]; decide
  have n2 : p.tok.val ≠ "returns".toList := by rw [hv]; decide
  have n3 : p.tok.val ≠ "links".toList := by rw [hv]; decide
  have n4 : p.tok.val ≠ "examples".toList := by rw [hv]; decide
  simp only [clause, matchKw_ne _ p n1, matchKw_ne _ p n2, matchKw_ne _ p n3,
    matchKw_ne _ p n4, matchKw_colon _ p hv hc]

/-- The item loop on accepted items (identifiers or string literals) separated by a comma
and a space, up to the closing semicolon. -/
theorem itemLoop_items (accept : TokenType → Bool) :
    ∀ (vs : List Scalar) (cur : Token) (acc : List Str) (E : Str) (fuel : Nat),
      (∀ v ∈ vs, v.wf = true ∧ v.kind ≠ TOK_NUM ∧ accept v.kind = true) →
      accept cur.type = true → accept TOK_SEMI = false → vs.length + 2 ≤ fuel →
      itemLoop accept fuel ⟨sepTail [',', ' '] (vs.map Scalar.src) ++ ';' :: E, cur⟩ acc
        = .ok (acc ++ cur.val :: vs.map Scalar.text, ⟨E, ⟨TOK_SEMI, [';']⟩⟩) := by
  intro vs
  induction vs with
  | nil =>
    intro cur acc E fuel _ hcur hsemi hf
    obtain ⟨f, rfl⟩ : ∃ f, fuel = f + 2 := ⟨fuel - 2, by simp at hf; omega⟩
    simp [sepTail, itemLoop, eat, matchT, Lexer.next_semi, hcur, hsemi]
  | cons v vs ih =>
    intro cur acc E fuel hvs hcur hsemi hf
    simp only [List.length_cons] at hf
    obtain ⟨f, rfl⟩ : ∃ f, fuel = f + 1 := ⟨fuel - 1, by omega⟩
    obtain ⟨hwf, hk, hacc⟩ := hvs v (List.mem_cons_self _ _)
    have hrest : ∃ c r, Lexer.isIdChar c = false
        ∧ sepTail [',', ' '] (vs.map Scalar.src) ++ ';' :: E = c :: r := by
      cases vs with
      | nil => exact ⟨';', E, by decide, rfl⟩
      | cons w ws =>
        exact ⟨',', ' ' :: (w.src ++ (sepTail [',', ' '] (ws.map Scalar.src) ++ ';' :: E)),
          by decide, by simp [sepTail]⟩
    obtain ⟨c, r, hc, hr⟩ := hrest
    have hnx := next_item v hwf hk c hc r
    have htxt : sepTail [',', ' '] ((v :: vs).map Scalar.src) ++ ';' :: E
        = ',' :: ' ' :: (v.src ++ c :: r) := by
      simp [sepTail, ← hr]
    have hstep : ((⟨',' :: ' ' :: (v.src ++ c :: r), cur⟩ : Parser).eat.matchT TOK_COMMA).2
        = ⟨c :: r, ⟨v.kind, v.text⟩⟩ := by
      simp [eat, matchT, Lexer.next_comma, hnx]
    rw [htxt, itemLoop]
    simp only [hcur, if_true, hstep]
    rw [← hr, ih ⟨v.kind, v.text⟩ (acc ++ [cur.val]) E f
      (fun z hz => hvs z (List.mem_cons_of_mem _ hz)) hacc hsemi (by omega)]
    simp

/-- The item loop of a list clause, from the token after the colon: the accepted items
written `i1, i2, ..., in;` are appended in order and the semicolon is the current token. -/
theorem itemLoop_clause (accept : TokenType → Bool) (vs : List Scalar) (acc : List Str)
    (E : Str) (fuel : Nat) (t : Token)
    (hvs : ∀ v ∈ vs, v.wf = true ∧ v.kind ≠ TOK_NUM ∧ accept v.kind = true)
    (hsemi : accept TOK_SEMI = false) (hf : vs.length + 1 ≤ fuel) :
    itemLoop accept fuel
        (⟨' ' :: ([',', ' '].intercalate (vs.map Scalar.src) ++ ';' :: E), t⟩ : Parser).eat acc
      = .ok (acc ++ vs.map Scalar.text, ⟨E, ⟨TOK_SEMI, [';']⟩⟩) := by
  cases vs with
  | nil =>
    obtain ⟨f, rfl⟩ : ∃ f, fuel = f + 1 := ⟨fuel - 1, by simp at hf; omega⟩
    simp [List.intercalate, eat, Lexer.next_semi, itemLoop, hsemi]
  | cons v vs =>
    obtain ⟨hwf, hk, hacc⟩ := hvs v (List.mem_cons_self _ _)
    have hrest : ∃ c r, Lexer.isIdChar c = false
        ∧ sepTail [',', ' '] (vs.map Scalar.src) ++ ';' :: E = c :: r := by
      cases vs with
      | nil => exact ⟨';', E, by decide, rfl⟩
      | cons w ws =>
        exact ⟨',', ' ' :: (w.src ++ (sepTail [',', ' '] (ws.map Scalar.src) ++ ';' :: E)),
          by decide, by simp [sepTail]⟩
    obtain ⟨c, r, hc, hr⟩ := hrest
    have hnx := next_item v hwf hk c hc r
    have htxt : ' ' :: ([',', ' '].intercalate ((v :: vs).map Scalar.src) ++ ';' :: E)
        = ' ' :: (v.src ++ c :: r) := by
      simp [intercalate_cons, ← hr]
    have hstep : (⟨' ' :: (v.src ++ c :: r), t⟩ : Parser).eat = ⟨c :: r, ⟨v.kind, v.text⟩⟩ := by
      simp [eat, hnx]
    rw [htxt, hstep, ← hr]
    simp only [List.length_cons] at hf
    have := itemLoop_items accept vs ⟨v.kind, v.text⟩ acc E fuel
      (fun z hz => hvs z (List.mem_cons_of_mem _ hz)) hacc hsemi (by omega)
    simpa using this

end Parser

end ListClauses
section ListBodies

attribute [local irreducible] Lexer.next

namespace Parser

/-- The body loop on a list clause `kw: i1, ..., in;`, given the dispatch of `kw` to an item
loop with condition `accept` that stores the items with `upd`. -/
theorem bodyLoop_list (kw : Str) (hkw : isIdent kw = true) (accept : TokenType → Bool)
    (upd : List Str → Def) (vs : List Scalar) (d : Def) (fuel : Nat)
    (hdisp : ∀ p : Parser, p.tok.val = kw → p.eat.tok.type = TOK_COLON →
      clause (fuel + 1) p d = (do
        let (xs, q) ← itemLoop accept (fuel + 1) p.eat.eat []
        pure ((q.matchT TOK_SEMI).2, upd xs)))
    (hvs : ∀ v ∈ vs, v.wf = true ∧ v.kind ≠ TOK_NUM ∧ accept v.kind = true)
    (hsemi : accept TOK_SEMI = false) (hf : vs.length ≤ fuel) :
    bodyLoop (fuel + 2) (init (listClause kw (vs.map Scalar.src) ++ [' ', '}'])) d
      = .ok (⟨[], ⟨TOK_RB, ['}']⟩⟩, upd (vs.map Scalar.text)) := by
  have e0 : Lexer.next (kw ++ ':' :: ' ' ::
        ([',', ' '].intercalate (vs.map Scalar.src) ++ ';' :: [' ', '}']))
      = (⟨TOK_ID, kw⟩, ':' :: ' ' ::
        ([',', ' '].intercalate (vs.map Scalar.src) ++ ';' :: [' ', '}'])) :=
    Lexer.next_ident kw _ hkw (stop_cons _ _ (by decide))
  have hinit : init (listClause kw (vs.map Scalar.src) ++ [' ', '}'])
      = ⟨':' :: ' ' :: ([',', ' '].intercalate (vs.map Scalar.src) ++ ';' :: [' ', '}']),
          ⟨TOK_ID, kw⟩⟩ := by
    have : listClause kw (vs.map Scalar.src) ++ [' ', '}']
        = kw ++ ':' :: ' ' ::
            ([',', ' '].intercalate (vs.map Scalar.src) ++ ';' :: [' ', '}']) := by
      simp [listClause]
    rw [this, init, e0]
  have heat : (⟨':' :: ' ' :: ([',', ' '].intercalate (vs.map Scalar.src) ++ ';' :: [' ', '}']),
      ⟨TOK_ID, kw⟩⟩ : Parser).eat
      = ⟨' ' :: ([',', ' '].intercalate (vs.map Scalar.src) ++ ';' :: [' ', '}']),
          ⟨TOK_COLON, [':']⟩⟩ := by
    simp [eat, Lexer.next_colon]
  have hloop := itemLoop_clause accept vs [] [' ', '}'] (fuel + 1) ⟨TOK_COLON, [':']⟩ hvs hsemi
    (by omega)
  rw [hinit]
  apply bodyLoop_one
  · simp
  · simp
  · rw [hdisp _ rfl (by rw [heat]), heat, hloop]
    simp [matchT, eat, Lexer.next_rb]
  · rfl

end Parser

end ListBodies

/-- What the four list clauses accept. For every list `ss` of string literals the bodies
`notes: s1, ..., sn;` and `examples: s1, ..., sn;` yield notes, resp. examples, equal to the
texts of the literals, and for every list `vs` of identifiers and string literals the bodies
`links: v1, ..., vn;` and `tags: v1, ..., vn;` yield links, resp. tags, equal to the texts of
the items; in all four cases no Field is added. -/
theorem listClause_accepted (kind name : Str) (ss vs : List Scalar) (fuel : Nat)
    (hk : kind ∈ Parser.kinds) (hn : isIdent name = true)
    (hss : ∀ s ∈ ss, s.wf = true ∧ s.kind = TOK_STR)
    (hvs : ∀ v ∈ vs, v.wf = true ∧ (v.kind = TOK_ID ∨ v.kind = TOK_STR))
    (hf : ss.length + vs.length + 3 ≤ fuel) :
    parse fuel (blockOf kind name (listClause "notes".toList (ss.map Scalar.src)))
        = .ok [{ kind := kind, name := name, notes := ss.map Scalar.text, fields := [] }]
      ∧ parse fuel (blockOf kind name (listClause "examples".toList (ss.map Scalar.src)))
        = .ok [{ kind := kind, name := name, examples := ss.map Scalar.text, fields := [] }]
      ∧ parse fuel (blockOf kind name (listClause "links".toList (vs.map Scalar.src)))
        = .ok [{ kind := kind, name := name, links := vs.map Scalar.text, fields := [] }]
      ∧ parse fuel (blockOf kind name (listClause "tags".toList (vs.map Scalar.src)))
        = .ok [{ kind := kind, name := name, tags := vs.map Scalar.text, fields := [] }] := by
  obtain ⟨g, rfl⟩ : ∃ g, fuel = g + 1 + 2 := ⟨fuel - 3, by omega⟩
  have hss1 : ∀ s ∈ ss, s.wf = true ∧ s.kind ≠ TOK_NUM ∧ Parser.strOnly s.kind = true := by
    intro s hs
    obtain ⟨h1, h2⟩ := hss s hs
    exact ⟨h1, by rw [h2]; decide, by rw [h2]; rfl⟩
  have hvs1 : ∀ v ∈ vs, v.wf = true ∧ v.kind ≠ TOK_NUM ∧ Parser.idOrStr v.kind = true := by
    intro v hv
    obtain ⟨h1, h2⟩ := hvs v hv
    rcases h2 with h2 | h2
    · exact ⟨h1, by rw [h2]; decide, by rw [h2]; rfl⟩
    · exact ⟨h1, by rw [h2]; decide, by rw [h2]; rfl⟩
  refine ⟨?_, ?_, ?_, ?_⟩
  · exact Parser.parse_blockOf kind name _ hk hn (g + 1) _
      (Parser.bodyLoop_list "notes".toList (by decide) Parser.strOnly
        (fun xs => { kind := kind, name := name, notes := xs }) ss _ g
        (fun p h1 h2 => Parser.clause_notes _ p _ h1 h2) hss1 rfl (by omega))
  · exact Parser.parse_blockOf kind name _ hk hn (g + 1) _
      (Parser.bodyLoop_list "examples".toList (by decide) Parser.strOnly
        (fun xs => { kind := kind, name := name, examples := xs }) ss _ g
        (fun p h1 h2 => Parser.clause_examples _ p _ h1 h2) hss1 rfl (by omega))
  · exact Parser.parse_blockOf kind name _ hk hn (g + 1) _
      (Parser.bodyLoop_list "links".toList (by decide) Parser.idOrStr
        (fun xs => { kind := kind, name := name, links := xs }) vs _ g
        (fun p h1 h2 => Parser.clause_links _ p _ h1 h2) hvs1 rfl (by omega))
  · exact Parser.parse_blockOf kind name _ hk hn (g + 1) _
      (Parser.bodyLoop_list "tags".toList (by decide) Parser.idOrStr
        (fun xs => { kind := kind, name := name, tags := xs }) vs _ g
        (fun p h1 h2 => Parser.clause_tags _ p _ h1 h2) hvs1 rfl (by omega))

theorem Res.bind_eq_ok {α β : Type} {r : Res α} {f : α → Res β} {b : β}
    (h : (r >>= f) = Res.ok b) : ∃ a, r = Res.ok a ∧ f a = Res.ok b := by
  cases r with
  | ok a => exact ⟨a, rfl, h⟩
  | fatal m => exact Res.noConfusion h
  | timeout => exact Res.noConfusion h

section Reaching

attribute [local irreducible] Lexer.next

namespace Parser

theorem Reach.refl (p : Parser) : Reach p p := ⟨0, rfl⟩

theorem Reach.step {p q : Parser} (h : Reach p q) : Reach p q.eat := by
  obtain ⟨n, rfl⟩ := h
  exact ⟨n + 1, (Function.iterate_succ_apply' eat n p).symm⟩

theorem Reach.one (p : Parser) : Reach p p.eat := (Reach.refl p).step

theorem Reach.trans {p q r : Parser} (h1 : Reach p q) (h2 : Reach q r) : Reach p r := by
  obtain ⟨n, rfl⟩ := h1
  obtain ⟨m, rfl⟩ := h2
  exact ⟨m + n, (Function.iterate_add_apply eat m n p).symm⟩

theorem matchT_reach (t : TokenType) (p : Parser) : Reach p (p.matchT t).2 := by
  unfold matchT
  split
  · exact Reach.one p
  · exact Reach.refl p

theorem matchS_reach (s : Str) (p : Parser) : Reach p (p.matchS s).2 := by
  unfold matchS
  split
  · exact Reach.one p
  · exact Reach.refl p

theorem matchKw_reach (kw : Str) (p : Parser) : Reach p (p.matchKw kw).2 := by
  by_cases h : p.tok.val = kw
  · by_cases hc : p.eat.tok.type = TOK_COLON
    · rw [matchKw_colon kw p h hc]
      exact (Reach.one p).step
    · rw [matchKw_nocolon kw p h hc]
      exact Reach.one p
  · rw [matchKw_ne kw p h]
    exact Reach.refl p

theorem typeLoop_reach : ∀ (n : Nat) (p : Parser) (t x : Str) (q : Parser),
    typeLoop n p t = .ok (x, q) → Reach p q := by
  intro n
  induction n with
  | zero => intro p t x q h; exact Res.noConfusion h
  | succ n ih =>
    intro p t x q h
    unfold typeLoop at h
    split at h
    · simp only at h
      split at h
      · exact (Reach.one p).trans (ih _ _ _ _ h)
      · cases h; exact Reach.one p
    · cases h; exact Reach.refl p

theorem itemLoop_reach (accept : TokenType → Bool) : ∀ (n : Nat) (p : Parser)
    (acc xs : List Str) (q : Parser), itemLoop accept n p acc = .ok (xs, q) → Reach p q := by
  intro n
  induction n with
  | zero => intro p acc xs q h; exact Res.noConfusion h
  | succ n ih =>
    intro p acc xs q h
    unfold itemLoop at h
    split at h
    · exact ((Reach.one p).trans (matchT_reach _ _)).trans (ih _ _ _ _ h)
    · cases h; exact Reach.refl p

theorem multilineLoop_reach : ∀ (n : Nat) (p : Parser) (val x : Str) (q : Parser),
    multilineLoop n p val = .ok (x, q) → Reach p q := by
  intro n
  induction n with
  | zero => intro p val x q h; exact Res.noConfusion h
  | succ n ih =>
    intro p val x q h
    unfold multilineLoop at h
    split at h
    · exact (Reach.one p).trans (ih _ _ _ _ h)
    · cases h; exact Reach.refl p

theorem descValue_reach (n : Nat) (p : Parser) (x : Str) (q : Parser)
    (h : descValue n p = .ok (x, q)) : Reach p q := by
  unfold descValue at h
  split at h
  · cases h; exact Reach.one p
  · exact multilineLoop_reach _ _ _ _ _ h

theorem scalar_reach (accept : TokenType → Bool) (p : Parser) (x : Str) :
    Reach p (scalar accept p x).1 := by
  unfold scalar
  split
  · exact (Reach.one p).trans (matchT_reach _ _)
  · exact matchT_reach _ _

end Parser

end Reaching
section FieldFacts

attribute [local irreducible] Lexer.next

namespace Parser

/-- The body of `Parser::field` is the sequence of its stages. -/
theorem field_eq (n : Nat) (p : Parser) :
    field n p = (do
      let (f, p) ← fieldTags n p
      let (t, p) ← type n p
      let (f, p) := fieldName { f with type := t } p
      let (f, p) ← fieldDesc n f p
      let (f, p) := fieldDefault f p
      pure (f, (p.matchT TOK_SEMI).2)) := rfl

theorem fieldTags_facts (n : Nat) (p : Parser) (f : Field) (q : Parser)
    (h : fieldTags n p = .ok (f, q)) :
    Reach p q ∧ (f.required = true ↔ "required".toList ∈ f.tags) := by
  unfold fieldTags at h
  split at h
  · rename_i p1 heq
    obtain ⟨⟨tags, p2⟩, ht, h⟩ := Res.bind_eq_ok h
    cases h
    have h1 : Reach p p1 := by
      have := matchT_reach TOK_AT p
      rwa [heq] at this
    refine ⟨h1.trans (itemLoop_reach _ _ _ _ _ _ ht), ?_⟩
    simp [List.any_eq_true]
  · rename_i p1 heq
    cases h
    have h1 : Reach p q := by
      have := matchT_reach TOK_AT p
      rwa [heq] at this
    exact ⟨h1, by simp⟩

theorem fieldName_facts (f : Field) (p : Parser) :
    Reach p (fieldName f p).2 ∧ (fieldName f p).1.tags = f.tags
      ∧ (fieldName f p).1.required = f.required := by
  unfold fieldName
  split
  · exact ⟨Reach.one p, rfl, rfl⟩
  · exact ⟨Reach.refl p, rfl, rfl⟩

theorem fieldDesc_facts (n : Nat) (f : Field) (p : Parser) (g : Field) (q : Parser)
    (h : fieldDesc n f p = .ok (g, q)) :
    Reach p q ∧ g.tags = f.tags ∧ g.required = f.required := by
  unfold fieldDesc at h
  split at h
  · rename_i p1 heq
    obtain ⟨⟨v, p2⟩, hv, h⟩ := Res.bind_eq_ok h
    cases h
    have h1 : Reach p p1 := by
      have := matchT_reach TOK_COLON p
      rwa [heq] at this
    exact ⟨h1.trans (descValue_reach _ _ _ _ hv), rfl, rfl⟩
  · rename_i p1 heq
    cases h
    have h1 : Reach p q := by
      have := matchT_reach TOK_COLON p
      rwa [heq] at this
    exact ⟨h1, rfl, rfl⟩

theorem fieldDefault_facts (f : Field) (p : Parser) :
    Reach p (fieldDefault f p).2 ∧ (fieldDefault f p).1.tags = f.tags
      ∧ (fieldDefault f p).1.required = f.required := by
  unfold fieldDefault
  split
  · rename_i p1 heq
    have h1 : Reach p p1 := by
      have := matchT_reach TOK_EQ p
      rwa [heq] at this
    split
    · exact ⟨h1.step, rfl, rfl⟩
    · exact ⟨h1, rfl, rfl⟩
  · rename_i p1 heq
    have h1 : Reach p p1 := by
      have := matchT_reach TOK_EQ p
      rwa [heq] at this
    exact ⟨h1, rfl, rfl⟩

/-- What `Parser::field` returns: a state that follows from the entry state, and a Field
whose `required` flag says exactly whether its tag list holds `required`. -/
theorem field_facts (n : Nat) (p : Parser) (f : Field) (q : Parser)
    (h : field n p = .ok (f, q)) :
    Reach p q ∧ (f.required = true ↔ "required".toList ∈ f.tags) := by
  rw [field_eq] at h
  obtain ⟨⟨f1, p1⟩, h1, h⟩ := Res.bind_eq_ok h
  obtain ⟨⟨t, p2⟩, h2, h⟩ := Res.bind_eq_ok h
  simp only at h
  obtain ⟨⟨f3, p3⟩, h3, h⟩ := Res.bind_eq_ok h
  simp only at h
  cases h
  obtain ⟨r1, i1⟩ := fieldTags_facts n p f1 p1 h1
  have r2 := typeLoop_reach n p1 [] t p2 h2
  obtain ⟨r3, t3, q3⟩ := fieldName_facts { f1 with type := t } p2
  obtain ⟨r4, t4, q4⟩ := fieldDesc_facts n _ _ f3 p3 h3
  obtain ⟨r5, t5, q5⟩ := fieldDefault_facts f3 p3
  refine ⟨(((r1.trans r2).trans r3).trans r4).trans (r5.trans (matchT_reach _ _)), ?_⟩
  rw [q5, q4, q3, t5, t4, t3]
  exact i1

end Parser

end FieldFacts
section ClauseFacts

attribute [local irreducible] Lexer.next

namespace Parser

theorem StepFacts.plain {p q : Parser} {d d1 : Def} (hk : d1.kind = d.kind)
    (hf : d1.fields = d.fields) (hd : d1.deprecated = d.deprecated) (hr : Reach p q) :
    StepFacts p d q d1 := ⟨hk, hr, Or.inl hf, Or.inl hd⟩

theorem matchKw_true (kw : Str) (p q : Parser) (h : p.matchKw kw = (true, q)) :
    p.tok.val = kw ∧ p.eat.tok.type = TOK_COLON ∧ q = p.eat.eat := by
  by_cases hv : p.tok.val = kw
  · by_cases hc : p.eat.tok.type = TOK_COLON
    · rw [matchKw_colon kw p hv hc] at h
      cases h
      exact ⟨hv, hc, rfl⟩
    · rw [matchKw_nocolon kw p hv hc] at h
      cases h
  · rw [matchKw_ne kw p hv] at h
    cases h

theorem matchKw_snd (kw : Str) (p q : Parser) (b : Bool) (h : p.matchKw kw = (b, q)) :
    Reach p q := by
  have := matchKw_reach kw p
  rwa [h] at this

theorem StepFacts.of_reach {p p1 q : Parser} {d d1 : Def} (hr : Reach p p1)
    (h : StepFacts p1 d q d1) : StepFacts p d q d1 := by
  obtain ⟨hk, hq, hf, hd⟩ := h
  refine ⟨hk, hr.trans hq, hf, ?_⟩
  rcases hd with hd | ⟨p2, h2, h3, h4, h5⟩
  · exact Or.inl hd
  · exact Or.inr ⟨p2, hr.trans h2, h3, h4, h5⟩

theorem generic_facts (n : Nat) (p : Parser) (d : Def) (q : Parser) (d1 : Def)
    (h : generic n p d = .ok (q, d1)) : StepFacts p d q d1 := by
  unfold generic at h
  simp only at h
  split at h
  · rename_i p1 heq
    have h1 : Reach p p1 := by
      have := (Reach.one p).trans (matchT_reach TOK_COLON p.eat)
      rwa [heq] at this
    split at h
    · cases h
      exact StepFacts.plain rfl rfl rfl (h1.step.trans (matchT_reach _ _))
    · cases h
      exact StepFacts.plain rfl rfl rfl (h1.trans (matchT_reach _ _))
  · rename_i p1 heq
    have h1 : Reach p p1 := by
      have := (Reach.one p).trans (matchT_reach TOK_COLON p.eat)
      rwa [heq] at this
    obtain ⟨⟨f, p2⟩, hf, h⟩ := Res.bind_eq_ok h
    cases h
    exact ⟨rfl, h1.trans (field_facts _ _ _ _ hf).1, Or.inr ⟨n, p1, f, _, hf, rfl⟩, Or.inl rfl⟩

theorem clause_facts (n : Nat) (p : Parser) (d : Def) (q : Parser) (d1 : Def)
    (h : clause n p d = .ok (q, d1)) : StepFacts p d q d1 := by
  unfold clause at h
  have r0 : Reach p p := Reach.refl p
  split at h
  · rename_i pn heq
    have r := r0.trans (matchKw_snd _ _ _ _ heq)
    obtain ⟨⟨v, p2⟩, hv, h⟩ := Res.bind_eq_ok h
    cases h
    exact StepFacts.plain rfl rfl rfl
      ((r.trans (descValue_reach _ _ _ _ hv)).trans (matchT_reach _ _))
  · rename_i pn heq
    replace r0 := r0.trans (matchKw_snd _ _ _ _ heq)
    clear heq
    split at h
    · rename_i pn heq
      have r := r0.trans (matchKw_snd _ _ _ _ heq)
      obtain ⟨⟨v, p2⟩, hv, h⟩ := Res.bind_eq_ok h
      cases h
      exact StepFacts.plain rfl rfl rfl
        ((r.trans (typeLoop_reach _ _ _ _ _ hv)).trans (matchT_reach _ _))
    · rename_i pn heq
      replace r0 := r0.trans (matchKw_snd _ _ _ _ heq)
      clear heq
      split at h
      · rename_i pn heq
        have r := r0.trans (matchKw_snd _ _ _ _ heq)
        obtain ⟨⟨v, p2⟩, hv, h⟩ := Res.bind_eq_ok h
        cases h
        exact StepFacts.plain rfl rfl rfl
          ((r.trans (itemLoop_reach _ _ _ _ _ _ hv)).trans (matchT_reach _ _))
      · rename_i pn heq
        replace r0 := r0.trans (matchKw_snd _ _ _ _ heq)
        clear heq
        split at h
        · rename_i pn heq
          have r := r0.trans (matchKw_snd _ _ _ _ heq)
          obtain ⟨⟨v, p2⟩, hv, h⟩ := Res.bind_eq_ok h
          cases h
          exact StepFacts.plain rfl rfl rfl
            ((r.trans (itemLoop_reach _ _ _ _ _ _ hv)).trans (matchT_reach _ _))
        · rename_i pn heq
          replace r0 := r0.trans (matchKw_snd _ _ _ _ heq)
          clear heq
          split at h
          · rename_i pn heq
            have r := r0.trans (matchKw_snd _ _ _ _ heq)
            obtain ⟨⟨v, p2⟩, hv, h⟩ := Res.bind_eq_ok h
            cases h
            exact StepFacts.plain rfl rfl rfl
              ((r.trans (itemLoop_reach _ _ _ _ _ _ hv)).trans (matchT_reach _ _))
          · rename_i pn heq
            replace r0 := r0.trans (matchKw_snd _ _ _ _ heq)
            clear heq
            split at h
            · rename_i pn heq
              have r := r0.trans (matchKw_snd _ _ _ _ heq)
              cases h
              exact StepFacts.plain rfl rfl rfl (r.trans (scalar_reach _ _ _))
            · rename_i pn heq
              replace r0 := r0.trans (matchKw_snd _ _ _ _ heq)
              clear heq
              split at h
              · rename_i pn heq
                have r := r0.trans (matchKw_snd _ _ _ _ heq)
                cases h
                exact StepFacts.plain rfl rfl rfl (r.trans (scalar_reach _ _ _))
              · rename_i pn heq
                replace r0 := r0.trans (matchKw_snd _ _ _ _ heq)
                clear heq
                split at h
                · rename_i pn heq
                  have r := r0.trans (matchKw_snd _ _ _ _ heq)
                  cases h
                  exact StepFacts.plain rfl rfl rfl (r.trans (scalar_reach _ _ _))
                · rename_i pn heq
                  replace r0 := r0.trans (matchKw_snd _ _ _ _ heq)
                  clear heq
                  split at h
                  · rename_i pn heq
                    have r := r0.trans (matchKw_snd _ _ _ _ heq)
                    cases h
                    exact StepFacts.plain rfl rfl rfl (r.trans (scalar_reach _ _ _))
                  · rename_i pn heq
                    replace r0 := r0.trans (matchKw_snd _ _ _ _ heq)
                    clear heq
                    split at h
                    · rename_i pn heq
                      have r := r0.trans (matchKw_snd _ _ _ _ heq)
                      obtain ⟨hv, hc, rfl⟩ := matchKw_true _ _ _ heq
                      simp only at h
                      cases h
                      refine ⟨rfl, ?_, Or.inl rfl, Or.inr ⟨_, r0, hv, hc, ?_⟩⟩
                      · split
                        · exact (r.step).trans (matchT_reach _ _)
                        · exact r.trans (matchT_reach _ _)
                      · split
                        · exact (Reach.one _).trans (matchT_reach _ _)
                        · exact matchT_reach _ _
                    · rename_i pn heq
                      replace r0 := r0.trans (matchKw_snd _ _ _ _ heq)
                      clear heq
                      split at h
                      · rename_i pn heq
                        have r := r0.trans (matchKw_snd _ _ _ _ heq)
                        obtain ⟨⟨v, p2⟩, hv, h⟩ := Res.bind_eq_ok h
                        cases h
                        exact StepFacts.plain rfl rfl rfl
                          ((r.trans (itemLoop_reach _ _ _ _ _ _ hv)).trans (matchT_reach _ _))
                      · rename_i pn heq
                        replace r0 := r0.trans (matchKw_snd _ _ _ _ heq)
                        clear heq
                        split at h
                        · exact StepFacts.of_reach r0 (generic_facts _ _ _ _ _ h)
                        · cases h
                          exact StepFacts.plain rfl rfl rfl r0.step

end Parser

end ClauseFacts
section LoopFacts

attribute [local irreducible] Lexer.next

namespace Parser

theorem NoDeprecated.after {p q : Parser} (h : NoDeprecated p) (hr : Reach p q) :
    NoDeprecated q := fun r hqr => h r (hr.trans hqr)

theorem expect_reach (t : TokenType) (p q : Parser) (h : expect t p = .ok q) : Reach p q := by
  unfold expect at h
  split at h
  · rename_i p1 heq
    cases h
    have := matchT_reach t p
    rwa [heq] at this
  · cases h

/-- What the body loop does to a Definition: the kind is kept, every Field is an old one or
a result of `Parser::field`, and the deprecated note is kept when no deprecated clause
follows. -/
theorem bodyLoop_facts : ∀ (n : Nat) (p : Parser) (d : Def) (q : Parser) (d1 : Def),
    bodyLoop n p d = .ok (q, d1) →
      d1.kind = d.kind ∧ Reach p q ∧
      (∀ f ∈ d1.fields, f ∈ d.fields ∨ ∃ m p1 q1, field m p1 = .ok (f, q1)) ∧
      (NoDeprecated p → d1.deprecated = d.deprecated) := by
  intro n
  induction n with
  | zero => intro p d q d1 h; exact Res.noConfusion h
  | succ n ih =>
    intro p d q d1 h
    unfold bodyLoop at h
    split at h
    · obtain ⟨⟨p2, d2⟩, hc, h⟩ := Res.bind_eq_ok h
      obtain ⟨hk, hr, hf, hd⟩ := clause_facts _ _ _ _ _ hc
      obtain ⟨ik, ir, ifs, idp⟩ := ih _ _ _ _ h
      refine ⟨ik.trans hk, hr.trans ir, ?_, ?_⟩
      · intro f hfm
        rcases ifs f hfm with h1 | h1
        · rcases hf with hf | ⟨m, p1, g, q1, hg, hf⟩
          · exact Or.inl (hf ▸ h1)
          · rw [hf] at h1
            rcases List.mem_append.mp h1 with h2 | h2
            · exact Or.inl h2
            · have : f = g := by simpa using h2
              subst this
              exact Or.inr ⟨m, p1, q1, hg⟩
        · exact Or.inr h1
      · intro hnd
        rw [idp (hnd.after hr)]
        rcases hd with hd | ⟨p1, h1, h2, h3, _⟩
        · exact hd
        · exact absurd ⟨h2, h3⟩ (hnd p1 h1)
    · cases h
      exact ⟨rfl, Reach.refl _, fun f hf => Or.inl hf, fun _ => rfl⟩

/-- What the head of a block yields: a kind keyword as kind, no Field, an empty deprecated
note. -/
theorem header_facts (n : Nat) (p : Parser) (q : Parser) (d : Def)
    (h : header n p = .ok (q, d)) :
    d.kind ∈ kinds ∧ d.fields = [] ∧ d.deprecated = [] ∧ Reach p q := by
  unfold header at h
  simp only at h
  obtain ⟨⟨p1, d0⟩, h1, h⟩ := Res.bind_eq_ok h
  have s1 : Reach p p1 ∧ d0.fields = [] ∧ d0.deprecated = [] := by
    split at h1
    · rename_i p2 heq
      obtain ⟨⟨tags, p3⟩, ht, h1⟩ := Res.bind_eq_ok h1
      cases h1
      have r : Reach p p2 := by
        have := matchT_reach TOK_AT p
        rwa [heq] at this
      exact ⟨r.trans (itemLoop_reach _ _ _ _ _ _ ht), rfl, rfl⟩
    · rename_i p2 heq
      cases h1
      have r : Reach p p1 := by
        have := matchT_reach TOK_AT p
        rwa [heq] at this
      exact ⟨r, rfl, rfl⟩
  simp only at h
  split at h
  · rename_i hkind
    obtain ⟨p4, he, h⟩ := Res.bind_eq_ok h
    cases h
    have r4 := expect_reach _ _ _ he
    by_cases hid : p1.eat.tok.type = TOK_ID
    · simp only [hid, if_true] at r4 ⊢
      exact ⟨hkind, s1.2.1, s1.2.2, ((s1.1.trans (Reach.one _)).trans (Reach.one _)).trans r4⟩
    · simp only [hid, if_false] at r4 ⊢
      exact ⟨hkind, s1.2.1, s1.2.2, (s1.1.trans (Reach.one _)).trans r4⟩
  · cases h

end Parser

end LoopFacts
section ParseFacts

attribute [local irreducible] Lexer.next

namespace Parser

/-- What a whole block yields. -/
theorem block_facts (n : Nat) (p q : Parser) (d : Def) (h : block n p = .ok (q, d)) :
    d.kind ∈ kinds ∧ Reach p q ∧ (∀ f ∈ d.fields, ∃ m p1 q1, field m p1 = .ok (f, q1)) ∧
      (NoDeprecated p → d.deprecated = []) := by
  unfold block at h
  obtain ⟨⟨p1, d1⟩, hh, h⟩ := Res.bind_eq_ok h
  obtain ⟨⟨p2, d2⟩, hb, h⟩ := Res.bind_eq_ok h
  obtain ⟨p3, he, h⟩ := Res.bind_eq_ok h
  cases h
  obtain ⟨hk, hf, hd, hr⟩ := header_facts _ _ _ _ hh
  obtain ⟨bk, br, bf, bd⟩ := bodyLoop_facts _ _ _ _ _ hb
  refine ⟨bk ▸ hk, (hr.trans br).trans (expect_reach _ _ _ he), ?_, ?_⟩
  · intro f hfm
    rcases bf f hfm with h1 | h1
    · rw [hf] at h1
      exact absurd h1 (List.not_mem_nil f)
    · exact h1
  · intro hnd
    rw [bd (hnd.after hr), hd]

/-- Every Definition that the top-level loop adds has a kind keyword as kind, only Fields
built by `Parser::field`, and an empty deprecated note when no deprecated clause follows. -/
theorem parseLoop_facts : ∀ (n : Nat) (p : Parser) (defs out : List Def),
    parseLoop n p defs = .ok out →
      ∀ d ∈ out, d ∈ defs ∨
        (d.kind ∈ kinds ∧ (∀ f ∈ d.fields, ∃ m p1 q1, field m p1 = .ok (f, q1)) ∧
          (NoDeprecated p → d.deprecated = [])) := by
  intro n
  induction n with
  | zero => intro p defs out h; exact Res.noConfusion h
  | succ n ih =>
    intro p defs out h
    unfold parseLoop at h
    split at h
    · obtain ⟨⟨p1, d1⟩, hb, h⟩ := Res.bind_eq_ok h
      obtain ⟨hk, hr, hf, hd⟩ := block_facts _ _ _ _ hb
      intro d hdm
      rcases ih _ _ _ h d hdm with h1 | ⟨h1, h2, h3⟩
      · rcases List.mem_append.mp h1 with h2 | h2
        · exact Or.inl h2
        · have : d = d1 := by simpa using h2
          subst this
          exact Or.inr ⟨hk, hf, hd⟩
      · exact Or.inr ⟨h1, h2, fun hnd => h3 (hnd.after hr)⟩
    · cases h
      exact fun d hdm => Or.inl hdm

end Parser

end ParseFacts

theorem kind_ne_nil {k : Str} (h : k ∈ Parser.kinds) : k ≠ [] :=
  isIdent_ne_nil (isIdent_of_kind h)

/-- C11: when parse returns a Definition list, the kind of every Definition in it is
non-empty and is one of the nine kind keywords. -/
theorem C11_kind_is_a_keyword (input : Str) (fuel : Nat) (defs : List Def)
    (h : parse fuel input = .ok defs) :
    ∀ d ∈ defs, d.kind ≠ [] ∧ d.kind ∈ Parser.kinds := by
  intro d hd
  rcases Parser.parseLoop_facts _ _ _ _ h d hd with h1 | ⟨h1, _, _⟩
  · exact absurd h1 (List.not_mem_nil d)
  · exact ⟨kind_ne_nil h1, h1⟩

/-- C11 at the input `fn f { } trait T { x: 1; }`, for its second Definition. -/
theorem C11_witness :
    parse 4 "fn f \x7b \x7d trait T \x7b x: 1; \x7d".toList
        = .ok [{ kind := "fn".toList, name := "f".toList },
               { kind := "trait".toList, name := "T".toList,
                 «meta» := [("x".toList, "1".toList)] }]
      ∧ "trait".toList ≠ [] ∧ "trait".toList ∈ Parser.kinds :=
  ⟨by rfl,
   C11_kind_is_a_keyword "fn f \x7b \x7d trait T \x7b x: 1; \x7d".toList 4
    [{ kind := "fn".toList, name := "f".toList },
     { kind := "trait".toList, name := "T".toList, «meta» := [("x".toList, "1".toList)] }]
    (by rfl) { kind := "trait".toList, name := "T".toList, «meta» := [("x".toList, "1".toList)] }
    (by decide)⟩

/-- C12: when parse returns a Definition list, every Field of every Definition in it has
`required` true exactly when its tag list holds the string `required`. -/
theorem C12_required_iff_tagged (input : Str) (fuel : Nat) (defs : List Def)
    (h : parse fuel input = .ok defs) :
    ∀ d ∈ defs, ∀ f ∈ d.fields, (f.required = true ↔ "required".toList ∈ f.tags) := by
  intro d hd f hf
  rcases Parser.parseLoop_facts _ _ _ _ h d hd with h1 | ⟨_, h2, _⟩
  · exact absurd h1 (List.not_mem_nil d)
  · obtain ⟨m, p1, q1, hfield⟩ := h2 f hf
    exact (Parser.field_facts _ _ _ _ hfield).2

/-- C12 at the input `struct S { a @required; b @other; }`, for its two Fields. -/
theorem C12_witness :
    parse 5 "struct S \x7b a @required; b @other; \x7d".toList
        = .ok [{ kind := "struct".toList, name := "S".toList,
                 fields := [{ tags := ["required".toList], required := true },
                            { tags := ["other".toList], required := false }] }]
      ∧ ((true = true) ↔ "required".toList ∈ ["required".toList])
      ∧ ((false = true) ↔ "required".toList ∈ ["other".toList]) :=
  ⟨by rfl,
   C12_required_iff_tagged "struct S \x7b a @required; b @other; \x7d".toList 5
      [{ kind := "struct".toList, name := "S".toList,
         fields := [{ tags := ["required".toList], required := true },
                    { tags := ["other".toList], required := false }] }]
      (by rfl) _ (List.mem_singleton_self _)
      { tags := ["required".toList], required := true } (by decide),
   C12_required_iff_tagged "struct S \x7b a @required; b @other; \x7d".toList 5
      [{ kind := "struct".toList, name := "S".toList,
         fields := [{ tags := ["required".toList], required := true },
                    { tags := ["other".toList], required := false }] }]
      (by rfl) _ (List.mem_singleton_self _)
      { tags := ["other".toList], required := false } (by decide)⟩
section Deprecated

attribute [local irreducible] Lexer.next

namespace Parser

end Parser

end Deprecated

theorem iterate_eat_fix (p : Parser) (k : Nat) (hfix : Parser.eat^[k + 1] p = Parser.eat^[k] p) :
    ∀ m, Parser.eat^[k + m] p = Parser.eat^[k] p := by
  intro m
  induction m with
  | zero => rfl
  | succ m ih =>
    have h1 : (Parser.eat^[k] p).eat = Parser.eat^[k] p := by
      rw [← Function.iterate_succ_apply' Parser.eat k p]
      exact hfix
    rw [← Nat.add_assoc, Function.iterate_succ_apply', ih, h1]

/-- When the token sequence from `p` is constant from the `k`-th token on, it is enough to
look at the first `k` tokens for a deprecated clause. -/
theorem noDeprecated_of_fix (p : Parser) (k : Nat)
    (hfix : Parser.eat^[k + 1] p = Parser.eat^[k] p)
    (hall : ∀ i, i ≤ k → ¬ ((Parser.eat^[i] p).tok.val = "deprecated".toList
      ∧ (Parser.eat^[i] p).eat.tok.type = TOK_COLON)) : Parser.NoDeprecated p := by
  rintro q ⟨n, rfl⟩
  by_cases hn : n ≤ k
  · exact hall n hn
  · obtain ⟨m, rfl⟩ : ∃ m, n = k + m := ⟨n - k, by omega⟩
    rw [iterate_eat_fix p k hfix m]
    exact hall k (Nat.le_refl k)

/-! ## The function `escape` -/

theorem foldl_escape (s acc : Str) :
    s.foldl (fun r c => r ++ escapeChar c) acc = acc ++ (s.map escapeChar).flatten := by
  induction s generalizing acc with
  | nil => simp
  | cons c cs ih => simp [List.foldl_cons, ih, List.append_assoc]

theorem escape_nil : escape [] = [] := rfl

theorem escape_cons (c : Char) (cs : Str) : escape (c :: cs) = escapeChar c ++ escape cs := by
  unfold escape
  rw [List.foldl_cons, foldl_escape, foldl_escape]
  simp

/-- What one character becomes: an entity, or the character itself when it is none of the
five special characters. -/
theorem escapeChar_cases (c : Char) :
    (∃ e ∈ entityTails, escapeChar c = '&' :: e) ∨
    (escapeChar c = [c] ∧ c ≠ '<' ∧ c ≠ '>' ∧ c ≠ '&' ∧ c ≠ '"' ∧ c ≠ '\'') := by
  unfold escapeChar
  by_cases h1 : c = '<'
  · left; exact ⟨"lt;".toList, by simp [entityTails], by simp [h1]⟩
  by_cases h2 : c = '>'
  · left; exact ⟨"gt;".toList, by simp [entityTails], by simp [h2]⟩
  by_cases h3 : c = '&'
  · left; exact ⟨"amp;".toList, by simp [entityTails], by simp [h3]⟩
  by_cases h4 : c = '"'
  · left; exact ⟨"quot;".toList, by simp [entityTails], by simp [h4]⟩
  by_cases h5 : c = '\''
  · left; exact ⟨"#39;".toList, by simp [entityTails], by simp [h5]⟩
  right
  simp [h1, h2, h3, h4, h5]

theorem entityTails_plain : ∀ e ∈ entityTails, ∀ x ∈ e,
    x ≠ '<' ∧ x ≠ '>' ∧ x ≠ '&' ∧ x ≠ '"' ∧ x ≠ '\'' := by decide

/-- A character that occurs after a text without that character occurs in what follows. -/
theorem split_after {x : Char} : ∀ (e t a b : Str), x ∉ e → e ++ t = a ++ x :: b →
    ∃ a1, t = a1 ++ x :: b
  | [], t, a, b, _, h => ⟨a, by simpa using h⟩
  | y :: e, t, [], b, hx, h => by
    simp at h
    exact absurd h.1.symm (by intro hxy; exact hx (by simp [hxy]))
  | y :: e, t, z :: a, b, hx, h => by
    simp at h
    exact split_after e t a b (fun hm => hx (List.mem_cons_of_mem _ hm)) h.2

theorem escape_no_special (s : Str) :
    ∀ x ∈ escape s, x ≠ '<' ∧ x ≠ '>' ∧ x ≠ '"' ∧ x ≠ '\'' := by
  induction s with
  | nil => simp [escape_nil]
  | cons c cs ih =>
    intro x hx
    rw [escape_cons, List.mem_append] at hx
    rcases hx with hx | hx
    · rcases escapeChar_cases c with ⟨e, he, hc⟩ | ⟨hc, h1, h2, h3, h4, h5⟩
      · rw [hc, List.mem_cons] at hx
        rcases hx with hx | hx
        · subst hx; decide
        · have := entityTails_plain e he x hx
          exact ⟨this.1, this.2.1, this.2.2.2.1, this.2.2.2.2⟩
      · rw [hc, List.mem_singleton] at hx
        subst hx
        exact ⟨h1, h2, h4, h5⟩
    · exact ih x hx

theorem escape_amp (s : Str) :
    ∀ a b : Str, escape s = a ++ '&' :: b → ∃ e ∈ entityTails, e <+: b := by
  induction s with
  | nil => intro a b h; simp [escape_nil] at h
  | cons c cs ih =>
    intro a b h
    rw [escape_cons] at h
    rcases escapeChar_cases c with ⟨e, he, hc⟩ | ⟨hc, h1, h2, h3, h4, h5⟩
    · rw [hc] at h
      cases a with
      | nil =>
        simp at h
        exact ⟨e, he, ⟨escape cs, h⟩⟩
      | cons z a =>
        simp at h
        obtain ⟨a1, ha1⟩ := split_after e (escape cs) a b
          (fun hm => (entityTails_plain e he _ hm).2.2.1 rfl) h.2
        exact ih a1 b ha1
    · rw [hc] at h
      cases a with
      | nil =>
        simp at h
        exact absurd h.1 h3
      | cons z a =>
        simp at h
        exact ih a b h.2

/-- C27: for every string `s`, `escape s` contains none of the characters `<`, `>`, `"`, `'`,
and every `&` in `escape s` (at any position, that is for every way of writing the result
as `a ++ '&' :: b`) starts one of the entities `&lt;` `&gt;` `&amp;` `&quot;` `&#39;`: the
text `b` after it begins with `lt;`, `gt;`, `amp;`, `quot;` or `#39;`. -/
theorem C27_escape_output_is_inert (s : Str) :
    (∀ x ∈ escape s, x ≠ '<' ∧ x ≠ '>' ∧ x ≠ '"' ∧ x ≠ '\'') ∧
    (∀ a b : Str, escape s = a ++ '&' :: b → ∃ e ∈ entityTails, e <+: b) :=
  ⟨escape_no_special s, escape_amp s⟩

/-- C27 at the text `<a href='x'>&"`: every special character is replaced by its entity. -/
theorem C27_witness :
    escape "<a href='x'>&\"".toList = "&lt;a href=&#39;x&#39;&gt;&amp;&quot;".toList ∧
    ((∀ x ∈ escape "<a href='x'>&\"".toList, x ≠ '<' ∧ x ≠ '>' ∧ x ≠ '"' ∧ x ≠ '\'') ∧
     (∀ a b : Str, escape "<a href='x'>&\"".toList = a ++ '&' :: b →
        ∃ e ∈ entityTails, e <+: b)) :=
  ⟨by decide, C27_escape_output_is_inert "<a href='x'>&\"".toList⟩

/-! ## Comments -/

namespace Lexer

/-- The token and the cursor after it depend on the input only through `skip`. -/
theorem next_congr {s1 s2 : Str} (h : skip s1 = skip s2) : next s1 = next s2 := by
  unfold next
  rw [h]

theorem tokens_congr {s1 s2 : Str} (h : next s1 = next s2) (n : Nat) :
    tokens n s1 = tokens n s2 := by
  cases n with
  | zero => rfl
  | succ n => simp only [tokens, h]

/-- The loop of a line comment stops at the newline that ends the comment. -/
theorem skipLine_closed (c r : Str) (hn : '\n' ∉ c) (h0 : NUL ∉ c) :
    skipLine (c ++ '\n' :: r) = '\n' :: r := by
  induction c with
  | nil => simp [skipLine]
  | cons x xs ih =>
    have hx : x ≠ '\n' := fun h => hn (h ▸ List.mem_cons_self _ _)
    have hx0 : x ≠ NUL := fun h => h0 (h ▸ List.mem_cons_self _ _)
    rw [List.cons_append, skipLine_cons _ _ hx0 hx]
    exact ih (fun h => hn (List.mem_cons_of_mem _ h)) (fun h => h0 (List.mem_cons_of_mem _ h))

/-- The loop of a block comment stops at the `*/` that ends the comment. -/
theorem skipBlock_closed (b r : Str) (hb : ¬ ['*', '/'] <:+: b) (h0 : NUL ∉ b) :
    skipBlock (b ++ '*' :: '/' :: r) = '*' :: '/' :: r := by
  induction b with
  | nil => simp [skipBlock]
  | cons x xs ih =>
    have hx0 : x ≠ NUL := fun h => h0 (h ▸ List.mem_cons_self _ _)
    have hstep : (x == '*' && peek (xs ++ '*' :: '/' :: r) 0 == '/') = false := by
      cases xs with
      | nil =>
        simp only [List.nil_append, peek_cons_zero]
        have : ('*' == '/') = false := by decide
        simp [this]
      | cons y ys => exact noClose_head hb (List.cons_ne_nil _ _)
    rw [List.cons_append, skipBlock_step _ _ hx0 hstep]
    exact ih (noClose_tail hb) (fun h => h0 (List.mem_cons_of_mem _ h))

theorem skip_hash (c r : Str) (hn : '\n' ∉ c) (h0 : NUL ∉ c) :
    skip ('#' :: (c ++ '\n' :: r)) = skip r := by
  rw [skip_cons]
  simp only [skipLine_closed c r hn h0]
  rw [skip_space '\n' r (by decide)]
  rfl

theorem skip_slashes (c r : Str) (hn : '\n' ∉ c) (h0 : NUL ∉ c) :
    skip ('/' :: '/' :: (c ++ '\n' :: r)) = skip r := by
  rw [skip_cons, skipLine_cons '/' _ (by decide) (by decide)]
  simp only [skipLine_closed c r hn h0, peek_cons_zero]
  rw [skip_space '\n' r (by decide)]
  rfl

theorem skip_block (b r : Str) (hb : ¬ ['*', '/'] <:+: b) (h0 : NUL ∉ b) :
    skip ('/' :: '*' :: (b ++ '*' :: '/' :: r)) = skip r := by
  rw [skip_cons]
  simp only [List.tail_cons, skipBlock_closed b r hb h0, peek_cons_zero, get_cons]
  rfl

end Lexer

/-- C23 (claim as stated, refuted): a NUL character inside a comment ends the input for the
tokenizer. With `c = b = NUL` and `r = x`, the inputs `#` `c` newline `r`, `//` `c` newline `r`
and `/*` `b` `*/` `r` have the token sequence end-of-input, end-of-input, while `r` has the
token sequence identifier `x`, end-of-input. -/
theorem C23_counterexample :
    '\n' ∉ [NUL] ∧ ¬ ['*', '/'] <:+: [NUL]
      ∧ Lexer.tokens 2 "x".toList = [⟨TOK_ID, "x".toList⟩, ⟨TOK_EOF, []⟩]
      ∧ Lexer.tokens 2 ('#' :: ([NUL] ++ '\n' :: "x".toList)) = [⟨TOK_EOF, []⟩, ⟨TOK_EOF, []⟩]
      ∧ Lexer.tokens 2 ('/' :: '/' :: ([NUL] ++ '\n' :: "x".toList))
          = [⟨TOK_EOF, []⟩, ⟨TOK_EOF, []⟩]
      ∧ Lexer.tokens 2 ('/' :: '*' :: ([NUL] ++ '*' :: '/' :: "x".toList))
          = [⟨TOK_EOF, []⟩, ⟨TOK_EOF, []⟩] := by
  decide

/-- C23 (amended): comments without NUL characters are transparent to the tokenizer. For
every text `r`, every text `c` without a newline and without a NUL character, and every text
`b` that contains neither `*/` nor a NUL character, the first call of `next` on `#` `c`
newline `r`, on `//` `c` newline `r` and on `/*` `b` `*/` `r` returns the same token and the
same cursor as on `r`, so the token sequences are equal at every length. -/
theorem C23_comments_are_transparent (r c b : Str) (hc : '\n' ∉ c) (hc0 : NUL ∉ c)
    (hb : ¬ ['*', '/'] <:+: b) (hb0 : NUL ∉ b) :
    (Lexer.next ('#' :: (c ++ '\n' :: r)) = Lexer.next r
      ∧ Lexer.next ('/' :: '/' :: (c ++ '\n' :: r)) = Lexer.next r
      ∧ Lexer.next ('/' :: '*' :: (b ++ '*' :: '/' :: r)) = Lexer.next r)
    ∧ ∀ n : Nat,
      Lexer.tokens n ('#' :: (c ++ '\n' :: r)) = Lexer.tokens n r
      ∧ Lexer.tokens n ('/' :: '/' :: (c ++ '\n' :: r)) = Lexer.tokens n r
      ∧ Lexer.tokens n ('/' :: '*' :: (b ++ '*' :: '/' :: r)) = Lexer.tokens n r := by
  have h1 := Lexer.next_congr (Lexer.skip_hash c r hc hc0)
  have h2 := Lexer.next_congr (Lexer.skip_slashes c r hc hc0)
  have h3 := Lexer.next_congr (Lexer.skip_block b r hb hb0)
  exact ⟨⟨h1, h2, h3⟩, fun n =>
    ⟨Lexer.tokens_congr h1 n, Lexer.tokens_congr h2 n, Lexer.tokens_congr h3 n⟩⟩

/-- C23 at the comments `# one`, `// two`, `/* a * b / c **/` before `x;`. -/
theorem C23_witness :
    Lexer.tokens 3 "# one\nx;".toList = [⟨TOK_ID, "x".toList⟩, ⟨TOK_SEMI, ";".toList⟩, ⟨TOK_EOF, []⟩]
    ∧ '\n' ∉ " one".toList ∧ NUL ∉ " one".toList
    ∧ ¬ ['*', '/'] <:+: " a * b / c *".toList ∧ NUL ∉ " a * b / c *".toList
    ∧ ((Lexer.next ('#' :: (" one".toList ++ '\n' :: "x;".toList)) = Lexer.next "x;".toList
      ∧ Lexer.next ('/' :: '/' :: (" one".toList ++ '\n' :: "x;".toList)) = Lexer.next "x;".toList
      ∧ Lexer.next ('/' :: '*' :: (" a * b / c *".toList ++ '*' :: '/' :: "x;".toList))
          = Lexer.next "x;".toList)
    ∧ ∀ n : Nat,
      Lexer.tokens n ('#' :: (" one".toList ++ '\n' :: "x;".toList)) = Lexer.tokens n "x;".toList
      ∧ Lexer.tokens n ('/' :: '/' :: (" one".toList ++ '\n' :: "x;".toList))
          = Lexer.tokens n "x;".toList
      ∧ Lexer.tokens n ('/' :: '*' :: (" a * b / c *".toList ++ '*' :: '/' :: "x;".toList))
          = Lexer.tokens n "x;".toList) :=
  ⟨by decide, by decide, by decide, by decide, by decide,
   C23_comments_are_transparent "x;".toList " one".toList " a * b / c *".toList
     (by decide) (by decide) (by decide) (by decide)⟩

/-! ## The lead identifier of a field declaration -/

section LeadIdentifier

attribute [local irreducible] Lexer.next

namespace Parser

/-- A run on an input that starts with the head `<kind> <name> {` of a block continues with
the body loop at the first token of the body. -/
theorem parse_head (kind name body : Str) (hk : kind ∈ kinds) (hn : isIdent name = true)
    (fuel : Nat) :
    parse (fuel + 1) (kind ++ ' ' :: (name ++ ' ' :: '{' :: body))
      = (bodyLoop fuel (init body) { kind := kind, name := name } >>= fun r =>
          expect TOK_RB r.1 >>= fun p => parseLoop fuel p [r.2]) := by
  have e1 : Lexer.next (kind ++ ' ' :: (name ++ ' ' :: '{' :: body))
      = (⟨TOK_ID, kind⟩, ' ' :: (name ++ ' ' :: '{' :: body)) :=
    Lexer.next_ident _ _ (isIdent_of_kind hk) (stop_cons _ _ (by decide))
  have hty : (init (kind ++ ' ' :: (name ++ ' ' :: '{' :: body))).tok.type = TOK_ID := by
    rw [init, e1]
  have hh := header_named kind name body hk hn fuel
  rw [parse, parseLoop]
  simp only [hty, block, hh, ne_eq, reduceCtorEq, not_false_eq_true, if_true, Res.ok_bind,
    List.nil_append]
  cases bodyLoop fuel (init body) { kind := kind, name := name } with
  | ok r =>
    obtain ⟨p, d⟩ := r
    simp only [Res.ok_bind]
    cases expect TOK_RB p <;> rfl
  | fatal m => rfl
  | timeout => rfl

/-- The generic fallback on a key that is not followed by a colon reads a field declaration
from the token after the key; the key itself is not used. -/
theorem generic_field (fuel : Nat) (p : Parser) (d : Def) (hc : p.eat.tok.type ≠ TOK_COLON) :
    generic fuel p d = (field fuel p.eat >>= fun r =>
      pure (r.2, { d with fields := d.fields ++ [r.1] })) := by
  simp only [generic, matchT, hc, if_false]

/-- The body loop from an identifier token that is no clause keyword and has no colon after
it does not depend on the text of that token. -/
theorem bodyLoop_lead (K1 K2 r : Str) (hk1 : K1 ∉ clauseKeywords) (hk2 : K2 ∉ clauseKeywords)
    (hcolon : (Lexer.next r).1.type ≠ TOK_COLON) (d : Def) (fuel : Nat) :
    bodyLoop fuel ⟨r, ⟨TOK_ID, K1⟩⟩ d = bodyLoop fuel ⟨r, ⟨TOK_ID, K2⟩⟩ d := by
  cases fuel with
  | zero => rfl
  | succ f =>
    have g1 := generic_field f ⟨r, ⟨TOK_ID, K1⟩⟩ d hcolon
    have g2 := generic_field f ⟨r, ⟨TOK_ID, K2⟩⟩ d hcolon
    have c1 := clause_generic f ⟨r, ⟨TOK_ID, K1⟩⟩ d hk1
    have c2 := clause_generic f ⟨r, ⟨TOK_ID, K2⟩⟩ d hk2
    simp only [if_true] at c1 c2
    rw [bodyLoop, bodyLoop, c1, c2, g1, g2]
    rfl

end Parser

end LeadIdentifier

/-- C26: the lead identifier of a field declaration is discarded. For all identifiers `K1`
and `K2` that are not clause keywords and every remainder `r` that does not continue the
identifier and whose first token is not a colon, the inputs `<kind> <name> { K1 r` and
`<kind> <name> { K2 r` have the same outcome for every amount of fuel: the same list of
Definitions with the same Fields, the same fatal error, or both still running. -/
theorem C26_lead_identifier_is_discarded (kind name K1 K2 r : Str) (fuel : Nat)
    (hk : kind ∈ Parser.kinds) (hn : isIdent name = true)
    (h1 : isIdent K1 = true) (h2 : isIdent K2 = true)
    (hk1 : K1 ∉ clauseKeywords) (hk2 : K2 ∉ clauseKeywords)
    (hr : Lexer.isIdChar (Lexer.peek r 0) = false)
    (hcolon : (Lexer.next r).1.type ≠ TOK_COLON) :
    parse fuel (kind ++ " ".toList ++ name ++ " \x7b ".toList ++ K1 ++ r)
      = parse fuel (kind ++ " ".toList ++ name ++ " \x7b ".toList ++ K2 ++ r) := by
  have ht : ∀ K : Str, kind ++ " ".toList ++ name ++ " \x7b ".toList ++ K ++ r
      = kind ++ ' ' :: (name ++ ' ' :: '{' :: ' ' :: (K ++ r)) := by
    intro K; simp
  have hi : ∀ K : Str, isIdent K = true → Parser.init (' ' :: (K ++ r)) = ⟨r, ⟨TOK_ID, K⟩⟩ := by
    intro K hK
    rw [Parser.init_blank, Parser.init, Lexer.next_ident K r hK hr]
  cases fuel with
  | zero => rfl
  | succ f =>
    rw [ht K1, ht K2, Parser.parse_head kind name _ hk hn, Parser.parse_head kind name _ hk hn,
      hi K1 h1, hi K2 h2, Parser.bodyLoop_lead K1 K2 r hk1 hk2 hcolon]

/-- C26 at `int count;` and `float count;` in `struct S`: both inputs yield one Field with
type `count` and an empty name. -/
theorem C26_witness :
    parse 4 "struct S \x7b int count; \x7d".toList
        = .ok [{ kind := "struct".toList, name := "S".toList,
                 fields := [{ type := "count".toList, name := [] }] }]
      ∧ parse 4 ("struct".toList ++ " ".toList ++ "S".toList ++ " \x7b ".toList ++ "int".toList
            ++ " count; \x7d".toList)
        = parse 4 ("struct".toList ++ " ".toList ++ "S".toList ++ " \x7b ".toList
            ++ "float".toList ++ " count; \x7d".toList) :=
  ⟨by rfl, C26_lead_identifier_is_discarded "struct".toList "S".toList "int".toList
    "float".toList " count; \x7d".toList 4 (by decide) (by decide) (by decide) (by decide)
    (by decide) (by decide) (by decide) (by decide)⟩

/-! ## A tag list before the kind keyword -/

namespace Lexer

/-- In the numeric branch of `next` the text of the token starts with a digit or a minus. -/
theorem number_head (s : Str)
    (h : (isdigit (peek s 0) || (peek s 0 == '-' && isdigit (peek s 1))) = true) :
    ∃ c rest, (number s).1 = c :: rest ∧ (isdigit c = true ∨ c = '-') := by
  cases s with
  | nil => exact absurd h (by decide)
  | cons c cs =>
    simp only [peek_cons_zero, peek_cons_succ, Bool.or_eq_true, Bool.and_eq_true,
      beq_iff_eq] at h
    by_cases hm : c = '-'
    · subst hm
      unfold number
      simp only [peek_cons_zero, get_cons, beq_self_eq_true, if_true]
      split
      · exact ⟨'-', _, rfl, Or.inr rfl⟩
      · exact ⟨'-', _, rfl, Or.inr rfl⟩
    · have hd : isdigit c = true := by
        rcases h with h | h
        · exact h
        · exact absurd h.1 hm
      have hne : (c == '-') = false := by simpa using hm
      unfold number
      simp only [peek_cons_zero, hne, Bool.false_eq_true, if_false, List.takeWhile_cons, hd,
        if_true]
      split
      · exact ⟨c, _, rfl, Or.inl hd⟩
      · exact ⟨c, _, rfl, Or.inl hd⟩

/-- The five forms of a token returned by `next`: end-of-input with empty text, a string, a
punctuation token, a number whose text starts with a digit or a minus, or an identifier made
of the identifier characters at the cursor. -/
theorem next_cases (s : Str) :
    (next s).1 = ⟨TOK_EOF, []⟩ ∨ (next s).1.type = TOK_STR ∨ (next s).1 ∈ puncts
      ∨ ((next s).1.type = TOK_NUM
          ∧ ∃ c rest, (next s).1.val = c :: rest ∧ (isdigit c = true ∨ c = '-'))
      ∨ next s = (⟨TOK_ID, (skip s).takeWhile isIdChar⟩, (skip s).dropWhile isIdChar) := by
  have key : ∀ t, t = next s →
      t.1 = ⟨TOK_EOF, []⟩ ∨ t.1.type = TOK_STR ∨ t.1 ∈ puncts
        ∨ (t.1.type = TOK_NUM ∧ ∃ c rest, t.1.val = c :: rest ∧ (isdigit c = true ∨ c = '-'))
        ∨ t = (⟨TOK_ID, (skip s).takeWhile isIdChar⟩, (skip s).dropWhile isIdChar) := by
    intro t ht
    unfold next at ht
    simp only at ht
    repeat' split at ht
    · subst ht; left; rfl
    · subst ht; right; left; rfl
    · subst ht; right; right; left; simp [puncts]
    · subst ht; right; right; left; simp [puncts]
    · subst ht; right; right; left; simp [puncts]
    · subst ht; right; right; left; simp [puncts]
    · subst ht; right; right; left; simp [puncts]
    · subst ht; right; right; left; simp [puncts]
    · subst ht; right; right; left; simp [puncts]
    · rename_i h9
      obtain ⟨c, rest, hc, hd⟩ := number_head (skip s) h9
      refine Or.inr (Or.inr (Or.inr (Or.inl ⟨?_, c, rest, ?_, hd⟩)))
      · rw [ht]
      · rw [ht]; exact hc
    · subst ht; right; right; right; right; rfl
  exact key _ rfl

/-- A text that starts with a digit or a minus is no kind keyword. -/
theorem not_kind_of_head (c : Char) (rest : Str) (h : isdigit c = true ∨ c = '-') :
    c :: rest ∉ Parser.kinds := by
  intro hk
  have hc : c ∈ ['s', 'u', 'f', 'e', 't', 'c', 'i'] := by
    simp only [Parser.kinds, List.mem_cons, List.mem_singleton, List.not_mem_nil, or_false] at hk
    rcases hk with hk | hk | hk | hk | hk | hk | hk | hk | hk <;>
      · have := (List.cons.inj hk).1
        subst this
        decide
  simp only [List.mem_cons, List.mem_singleton, List.not_mem_nil, or_false] at hc
  rcases h with h | h
  · rcases hc with rfl | rfl | rfl | rfl | rfl | rfl | rfl <;> exact absurd h (by decide)
  · subst h
    exact absurd hc (by decide)

theorem puncts_not_kind : ∀ t ∈ puncts, t.val ∉ Parser.kinds := by decide

theorem puncts_type : ∀ t ∈ puncts, t.type ≠ TOK_ID ∧ t.type ≠ TOK_STR ∧ t.val ≠ [] := by decide

/-- Only an identifier token or a string token can have the text of a kind keyword. -/
theorem next_kind (s : Str) (h : (next s).1.val ∈ Parser.kinds) :
    (next s).1.type = TOK_ID ∨ (next s).1.type = TOK_STR := by
  rcases next_cases s with h1 | h1 | h1 | ⟨_, c, rest, h1, hd⟩ | h1
  · rw [h1] at h; exact absurd h (by decide)
  · exact Or.inr h1
  · exact absurd h (puncts_not_kind _ h1)
  · rw [h1] at h; exact absurd h (not_kind_of_head c rest hd)
  · rw [h1]; exact Or.inl rfl

end Lexer

section TagsFirst

attribute [local irreducible] Lexer.next

namespace Parser

theorem lexed_eat (p : Parser) : Lexed p.eat := ⟨p.lex, rfl⟩

theorem lexed_reach {p q : Parser} (hp : Lexed p) (h : Reach p q) : Lexed q := by
  obtain ⟨n, rfl⟩ := h
  cases n with
  | zero => exact hp
  | succ n =>
    rw [Function.iterate_succ_apply']
    exact lexed_eat _

/-- A token returned by the lexer that has the text of a kind keyword is an identifier or a
string. -/
theorem lexed_kind {p : Parser} (hp : Lexed p) (hk : p.tok.val ∈ kinds) :
    p.tok.type = TOK_ID ∨ p.tok.type = TOK_STR := by
  obtain ⟨s, rfl⟩ := hp
  exact Lexer.next_kind s hk

/-- The item loop ends on a token that its condition rejects. -/
theorem itemLoop_stop (accept : TokenType → Bool) : ∀ (n : Nat) (p : Parser)
    (acc xs : List Str) (q : Parser), itemLoop accept n p acc = .ok (xs, q) →
    accept q.tok.type = false := by
  intro n
  induction n with
  | zero => intro p acc xs q h; exact Res.noConfusion h
  | succ n ih =>
    intro p acc xs q h
    unfold itemLoop at h
    split at h
    · exact ih _ _ _ _ h
    · rename_i hacc
      cases h
      simpa using hacc

/-- The token on which a tag list ends, when it ends, is no kind keyword. -/
theorem tagList_stop (fuel : Nat) (p : Parser) (tags : List Str) (q : Parser)
    (h : tagList fuel p.eat = .ok (tags, q)) : q.tok.val ∉ kinds := by
  intro hk
  have hl : Lexed q := lexed_reach (lexed_eat p) (itemLoop_reach _ _ _ _ _ _ h)
  have hs := itemLoop_stop _ _ _ _ _ _ h
  simp only [idOrStr, Bool.or_eq_false_iff, decide_eq_false_iff_not] at hs
  rcases lexed_kind hl hk with h1 | h1
  · exact hs.1 h1
  · exact hs.2 h1

/-- The head of a block that starts with `@` is never accepted. -/
theorem header_at (fuel : Nat) (p : Parser) (hp : p.tok.type = TOK_AT) (r : Parser × Def) :
    header fuel p ≠ .ok r := by
  intro h
  unfold header at h
  simp only [matchT, hp, if_true] at h
  cases ht : tagList fuel p.eat with
  | ok x =>
    obtain ⟨tags, q⟩ := x
    have hk := tagList_stop fuel p tags q ht
    rw [ht] at h
    simp [hk] at h
  | fatal m => rw [ht] at h; simp at h
  | timeout => rw [ht] at h; simp at h

theorem parseLoop_at (fuel : Nat) (p : Parser) (hp : p.tok.type = TOK_AT) (acc defs : List Def) :
    parseLoop fuel p acc ≠ .ok defs := by
  intro h
  cases fuel with
  | zero => exact Res.noConfusion h
  | succ f =>
    unfold parseLoop at h
    simp only [hp, ne_eq, reduceCtorEq, not_false_eq_true, if_true, block] at h
    cases hh : header f p with
    | ok r => exact header_at f p hp r hh
    | fatal m => rw [hh] at h; simp at h
    | timeout => rw [hh] at h; simp at h

end Parser

end TagsFirst

/-- C25: for every input whose first token is `@`, the parser never returns a list of
Definitions, whatever the amount of fuel: the run ends in a fatal error or does not end. -/
theorem C25_tags_first_never_parses (input : Str) (h : (Lexer.next input).1.type = TOK_AT)
    (fuel : Nat) (defs : List Def) : parse fuel input ≠ .ok defs :=
  Parser.parseLoop_at fuel (Parser.init input) h [] defs

/-- C25 at the input `@api struct S { }`: the tag list takes `api`, `struct` and `S`, and
the kind check fails on the opening brace. -/
theorem C25_witness :
    (Lexer.next "@api struct S \x7b \x7d".toList).1.type = TOK_AT
      ∧ parse 5 "@api struct S \x7b \x7d".toList = .fatal "Expected type keyword".toList
      ∧ parse 5 "@api struct S \x7b \x7d".toList
          ≠ .ok [{ kind := "struct".toList, name := "S".toList, tags := ["api".toList] }] :=
  ⟨by decide, by decide,
   C25_tags_first_never_parses "@api struct S \x7b \x7d".toList (by decide) 5 _⟩

/-! ## The returns clause -/

/-- The field read from the tokens `;` `}`: nothing but the semicolon is consumed. -/
theorem field_semi (fuel : Nat) :
    Parser.field (fuel + 1) ⟨[' ', '}'], ⟨TOK_SEMI, [';']⟩⟩ = .ok ({}, ⟨[], ⟨TOK_RB, ['}']⟩⟩) := by
  rfl

section Returns

attribute [local irreducible] Lexer.next

namespace Parser

/-- Dispatch of the body loop on `returns` followed by a colon. -/
theorem clause_returns (fuel : Nat) (p : Parser) (d : Def) (hv : p.tok.val = "returns".toList)
    (hc : p.eat.tok.type = TOK_COLON) :
    clause fuel p d = (do
      let (t, q) ← type fuel p.eat.eat
      pure ((q.matchT TOK_SEMI).2, { d with ret := t })) := by
  have n1 : p.tok.val ≠ "desc".toList := by rw [hv]; decide
  simp only [clause, matchKw_ne _ p n1, matchKw_colon _ p hv hc]

/-- A body loop that runs two clauses and then stands on the closing brace. -/
theorem bodyLoop_two (fuel : Nat) (p p1 q : Parser) (d d1 d2 : Def) (h1 : p.tok.type ≠ TOK_RB)
    (h2 : p.tok.type ≠ TOK_EOF) (hc : clause (fuel + 2) p d = .ok (p1, d1))
    (h3 : p1.tok.type ≠ TOK_RB) (h4 : p1.tok.type ≠ TOK_EOF)
    (hc1 : clause (fuel + 1) p1 d1 = .ok (q, d2))
    (hq : q.tok.type = TOK_RB) : bodyLoop (fuel + 3) p d = .ok (q, d2) := by
  rw [bodyLoop]
  simp only [h1, h2, hc, ne_eq, not_false_eq_true, decide_True, Bool.and_self, if_true,
    Res.ok_bind]
  exact bodyLoop_one fuel p1 q d1 d2 h3 h4 hc1 hq

theorem stop_sepTail_gen (cs : List Str) (E : Str) (hE : Lexer.isIdChar (Lexer.peek E 0) = false) :
    Lexer.isIdChar (Lexer.peek (sepTail [' '] cs ++ E) 0) = false := by
  cases cs with
  | nil => exact hE
  | cons y ys => exact stop_cons _ _ (by decide)

/-- The loop of `type` on continuations written with single spaces: every continuation is
appended without a separator, and the loop stops on the first token that is not an
identifier starting with `*` or `&`. -/
theorem typeLoop_cont :
    ∀ (cs : List Str) (cur t E : Str) (fuel : Nat),
      (∀ c ∈ cs, isCont c = true) → Lexer.isIdChar (Lexer.peek E 0) = false →
      ((Lexer.next E).1.type = TOK_ID && ((Lexer.next E).1.val.headD NUL == '*'
          || (Lexer.next E).1.val.headD NUL == '&')) = false →
      cs.length + 1 ≤ fuel →
      typeLoop fuel ⟨sepTail [' '] cs ++ E, ⟨TOK_ID, cur⟩⟩ t
        = .ok (t ++ cur ++ cs.flatten, ⟨(Lexer.next E).2, (Lexer.next E).1⟩) := by
  intro cs
  induction cs with
  | nil =>
    intro cur t E fuel _ _ hstop hf
    obtain ⟨f, rfl⟩ : ∃ f, fuel = f + 1 := ⟨fuel - 1, by simp at hf; omega⟩
    simp only [sepTail, List.nil_append, typeLoop, eat, if_true, hstop, List.flatten_nil,
      List.append_nil]
    rfl
  | cons c cs ih =>
    intro cur t E fuel hcs hE hstop hf
    simp only [List.length_cons] at hf
    obtain ⟨f, rfl⟩ : ∃ f, fuel = f + 1 := ⟨fuel - 1, by omega⟩
    have hc := hcs c (List.mem_cons_self _ _)
    simp only [isCont, Bool.and_eq_true] at hc
    have hnx : Lexer.next (c ++ (sepTail [' '] cs ++ E)) = (⟨TOK_ID, c⟩, sepTail [' '] cs ++ E) :=
      Lexer.next_ident _ _ hc.1 (stop_sepTail_gen cs E hE)
    have htxt : sepTail [' '] (c :: cs) ++ E = ' ' :: (c ++ (sepTail [' '] cs ++ E)) := by
      simp [sepTail]
    have hstep : (⟨' ' :: (c ++ (sepTail [' '] cs ++ E)), ⟨TOK_ID, cur⟩⟩ : Parser).eat
        = ⟨sepTail [' '] cs ++ E, ⟨TOK_ID, c⟩⟩ := by
      simp [eat, hnx]
    rw [htxt, typeLoop]
    simp only [hstep, hc.2, if_true, Bool.and_self, decide_True]
    rw [ih c _ E f (fun z hz => hcs z (List.mem_cons_of_mem _ hz)) hE hstop (by omega)]
    simp

/-- The body loop on a returns clause closed by its semicolon. -/
theorem bodyLoop_returns (T : Str) (cs : List Str) (hT : isIdent T = true)
    (hcs : ∀ c ∈ cs, isCont c = true) (d : Def) (fuel : Nat) (hf : cs.length ≤ fuel) :
    bodyLoop (fuel + 2) (init (returnsClause T cs ++ [' ', '}'])) d
      = .ok (⟨[], ⟨TOK_RB, ['}']⟩⟩, { d with ret := T ++ cs.flatten }) := by
  have e0 : ∀ s, Lexer.next ("returns: ".toList ++ s)
      = (⟨TOK_ID, "returns".toList⟩, ':' :: ' ' :: s) :=
    fun s => Lexer.next_ident "returns".toList (':' :: ' ' :: s) (by decide)
      (stop_cons _ _ (by decide))
  have hinit : init (returnsClause T cs ++ [' ', '}'])
      = ⟨':' :: ' ' :: (T ++ (sepTail [' '] cs ++ ';' :: [' ', '}'])),
          ⟨TOK_ID, "returns".toList⟩⟩ := by
    have : returnsClause T cs ++ [' ', '}']
        = "returns: ".toList ++ (T ++ (sepTail [' '] cs ++ ';' :: [' ', '}'])) := by
      simp [returnsClause]
    rw [this, init, e0]
  have hnx : Lexer.next (T ++ (sepTail [' '] cs ++ ';' :: [' ', '}']))
      = (⟨TOK_ID, T⟩, sepTail [' '] cs ++ ';' :: [' ', '}']) :=
    Lexer.next_ident _ _ hT (stop_sepTail_gen cs _ (stop_cons _ _ (by decide)))
  have hp2 : (⟨':' :: ' ' :: (T ++ (sepTail [' '] cs ++ ';' :: [' ', '}'])),
      ⟨TOK_ID, "returns".toList⟩⟩ : Parser).eat.eat
      = ⟨sepTail [' '] cs ++ ';' :: [' ', '}'], ⟨TOK_ID, T⟩⟩ := by
    simp [eat, Lexer.next_colon, hnx]
  have hloop := typeLoop_cont cs T [] (';' :: [' ', '}']) (fuel + 1) hcs
    (stop_cons _ _ (by decide)) (by simp [Lexer.next_semi]) (by omega)
  rw [Lexer.next_semi] at hloop
  rw [hinit]
  apply bodyLoop_one
  · simp
  · simp
  · rw [clause_returns _ _ _ rfl (by simp [eat, Lexer.next_colon]), hp2]
    simp [type, hloop, matchT, eat, Lexer.next_rb]
  · rfl

/-- The body loop on a returns clause with one more word before the semicolon: the type ends
before the word, and the word is read as the lead identifier of an empty field. -/
theorem bodyLoop_returnsThen (T : Str) (cs : List Str) (U : Str) (hT : isIdent T = true)
    (hcs : ∀ c ∈ cs, isCont c = true) (hU : isIdent U = true) (hUc : isCont U = false)
    (hUk : U ∉ clauseKeywords) (d : Def) (fuel : Nat) (hf : cs.length ≤ fuel + 1) :
    bodyLoop (fuel + 3) (init (returnsThen T cs U ++ [' ', '}'])) d
      = .ok (⟨[], ⟨TOK_RB, ['}']⟩⟩,
          { d with ret := T ++ cs.flatten, fields := d.fields ++ [{}] }) := by
  have e0 : ∀ s, Lexer.next ("returns: ".toList ++ s)
      = (⟨TOK_ID, "returns".toList⟩, ':' :: ' ' :: s) :=
    fun s => Lexer.next_ident "returns".toList (':' :: ' ' :: s) (by decide)
      (stop_cons _ _ (by decide))
  have hinit : init (returnsThen T cs U ++ [' ', '}'])
      = ⟨':' :: ' ' :: (T ++ (sepTail [' '] cs ++ ' ' :: (U ++ ';' :: [' ', '}']))),
          ⟨TOK_ID, "returns".toList⟩⟩ := by
    have : returnsThen T cs U ++ [' ', '}']
        = "returns: ".toList ++ (T ++ (sepTail [' '] cs ++ ' ' :: (U ++ ';' :: [' ', '}']))) := by
      simp [returnsThen]
    rw [this, init, e0]
  have hnx : Lexer.next (T ++ (sepTail [' '] cs ++ ' ' :: (U ++ ';' :: [' ', '}'])))
      = (⟨TOK_ID, T⟩, sepTail [' '] cs ++ ' ' :: (U ++ ';' :: [' ', '}'])) :=
    Lexer.next_ident _ _ hT (stop_sepTail_gen cs _ (stop_cons _ _ (by decide)))
  have hp2 : (⟨':' :: ' ' :: (T ++ (sepTail [' '] cs ++ ' ' :: (U ++ ';' :: [' ', '}']))),
      ⟨TOK_ID, "returns".toList⟩⟩ : Parser).eat.eat
      = ⟨sepTail [' '] cs ++ ' ' :: (U ++ ';' :: [' ', '}']), ⟨TOK_ID, T⟩⟩ := by
    simp [eat, Lexer.next_colon, hnx]
  have hnU : Lexer.next (' ' :: (U ++ ';' :: [' ', '}'])) = (⟨TOK_ID, U⟩, ';' :: [' ', '}']) := by
    rw [Lexer.next_blank]
    exact Lexer.next_ident _ _ hU (stop_cons _ _ (by decide))
  have hUc1 : (U.headD NUL == '*' || U.headD NUL == '&') = false := by
    simpa [isCont, hU] using hUc
  have hloop := typeLoop_cont cs T [] (' ' :: (U ++ ';' :: [' ', '}'])) (fuel + 2) hcs
    (stop_cons _ _ (by decide)) (by rw [hnU]; simpa using hUc1) (by omega)
  rw [hnU] at hloop
  rw [hinit]
  apply bodyLoop_two fuel _ ⟨';' :: [' ', '}'], ⟨TOK_ID, U⟩⟩ _ _ { d with ret := T ++ cs.flatten }
  · simp
  · simp
  · rw [clause_returns _ _ _ rfl (by simp [eat, Lexer.next_colon]), hp2]
    simp [type, hloop, matchT]
  · simp
  · simp
  · rw [clause_generic _ _ _ hUk]
    have hf := field_semi fuel
    simp [generic, eat, matchT, Lexer.next_semi, hf]
  · rfl

end Parser

end Returns

/-- C21: type composition in a returns clause. For every identifier `T` and identifiers
`c1..cn` each starting with `*` or `&`, the block with body `returns: T c1 ... cn;` parses to
one Definition with returnType `T ++ c1 ++ ... ++ cn` (no separators); and when one more
identifier `U` that does not start with `*` or `&` (and is no clause keyword) stands before
the semicolon, `returns: T c1 ... cn U;`, the returnType is still `T ++ c1 ++ ... ++ cn`:
the composition stops before `U`, which is read as the lead identifier of an empty Field. -/
theorem C21_returns_type_composition (kind name T : Str) (cs : List Str) (fuel : Nat)
    (hk : kind ∈ Parser.kinds) (hn : isIdent name = true) (hT : isIdent T = true)
    (hcs : ∀ c ∈ cs, isCont c = true) (hf : cs.length + 4 ≤ fuel) :
    parse fuel (blockOf kind name (returnsClause T cs))
        = .ok [{ kind := kind, name := name, ret := T ++ cs.flatten }]
      ∧ ∀ U : Str, isIdent U = true → isCont U = false → U ∉ clauseKeywords →
        parse fuel (blockOf kind name (returnsThen T cs U))
          = .ok [{ kind := kind, name := name, ret := T ++ cs.flatten, fields := [{}] }] := by
  obtain ⟨g, rfl⟩ : ∃ g, fuel = g + 4 := ⟨fuel - 4, by omega⟩
  constructor
  · have hb := Parser.bodyLoop_returns T cs hT hcs { kind := kind, name := name } (g + 1)
      (by omega)
    exact Parser.parse_blockOf kind name _ hk hn (g + 2) _ hb
  · intro U hU hUc hUk
    have hb := Parser.bodyLoop_returnsThen T cs U hT hcs hU hUc hUk { kind := kind, name := name }
      g (by omega)
    exact Parser.parse_blockOf kind name _ hk hn (g + 2) _ hb

/-- C21 at `returns: int * *;` (returnType `int**`) and at `returns: unsigned int;`
(returnType `unsigned`). -/
theorem C21_witness :
    (parse 6 "struct A \x7b returns: int * *; \x7d".toList
        = .ok [{ kind := "struct".toList, name := "A".toList, ret := "int**".toList }]
      ∧ ∀ U : Str, isIdent U = true → isCont U = false → U ∉ clauseKeywords →
        parse 6 (blockOf "struct".toList "A".toList
            (returnsThen "int".toList ["*".toList, "*".toList] U))
          = .ok [{ kind := "struct".toList, name := "A".toList, ret := "int**".toList,
                   fields := [{}] }])
    ∧ parse 6 "struct A \x7b returns: unsigned int; \x7d".toList
        = .ok [{ kind := "struct".toList, name := "A".toList, ret := "unsigned".toList,
                 fields := [{}] }] :=
  ⟨C21_returns_type_composition "struct".toList "A".toList "int".toList
    ["*".toList, "*".toList] 6 (by decide) (by decide) (by decide) (by decide) (by decide),
   (C21_returns_type_composition "struct".toList "A".toList "unsigned".toList [] 6
    (by decide) (by decide) (by decide) (by decide) (by decide)).2 "int".toList
    (by decide) (by decide) (by decide)⟩

/-! ## Reassembly of a multiline value -/

namespace Lexer

/-- The function `skip` leaves its own result unchanged. -/
theorem skip_skip : ∀ (n : Nat) (s : Str), s.length ≤ n → skip (skip s) = skip s := by
  intro n
  induction n with
  | zero =>
    intro s hs
    have : s = [] := List.length_eq_zero.mp (Nat.le_zero.mp hs)
    subst this
    rfl
  | succ n ih =>
    intro s hs
    cases s with
    | nil => rfl
    | cons c cs =>
      simp only [List.length_cons] at hs
      have hcs : cs.length ≤ n := by omega
      have hl := skipLine_length_le cs
      have h1 := skipBlock_length_le cs.tail
      have h2 : List.length (if (peek (skipBlock cs.tail) 0 != NUL) = true
          then (get (get (skipBlock cs.tail)).2).2 else skipBlock cs.tail)
          ≤ (skipBlock cs.tail).length := closeBlock_length_le (skipBlock cs.tail)
      have h3 : cs.tail.length ≤ cs.length := by simp
      have hsc := skip_cons c cs
      rcases Bool.eq_false_or_eq_true (c == NUL) with c0 | c0
      · simp only [c0, if_true] at hsc
        rw [hsc, hsc]
      simp only [c0, Bool.false_eq_true, if_false] at hsc
      rcases Bool.eq_false_or_eq_true (isspace c) with c1 | c1
      · simp only [c1, if_true] at hsc
        rw [hsc]; exact ih cs hcs
      simp only [c1, Bool.false_eq_true, if_false] at hsc
      rcases Bool.eq_false_or_eq_true (c == '#') with c2 | c2
      · simp only [c2, if_true] at hsc
        rw [hsc]; exact ih _ (by omega)
      simp only [c2, Bool.false_eq_true, if_false] at hsc
      rcases Bool.eq_false_or_eq_true (c == '/' && peek cs 0 == '/') with c3 | c3
      · simp only [c3, if_true] at hsc
        rw [hsc]; exact ih _ (by omega)
      simp only [c3, Bool.false_eq_true, if_false] at hsc
      rcases Bool.eq_false_or_eq_true (c == '/' && peek cs 0 == '*') with c4 | c4
      · simp only [c4, if_true] at hsc
        rw [hsc]
        exact ih _ (by omega)
      simp only [c4, Bool.false_eq_true, if_false] at hsc
      rw [hsc, hsc]

/-- A token with empty text is the end-of-input token, a string, or the identifier token
that `next` returns without advancing: the next call returns the same result. -/
theorem next_empty (s : Str) (h : (next s).1.val = []) :
    (next s).1.type = TOK_EOF ∨ (next s).1.type = TOK_STR ∨ next (next s).2 = next s := by
  rcases next_cases s with h1 | h1 | h1 | ⟨_, c, rest, h1, _⟩ | h1
  · left; rw [h1]
  · right; left; exact h1
  · exact absurd h (puncts_type _ h1).2.2
  · rw [h1] at h; exact absurd h (List.cons_ne_nil _ _)
  · right; right
    rw [h1] at h
    simp only at h
    have hd : (skip s).dropWhile isIdChar = skip s := by
      have := List.takeWhile_append_dropWhile isIdChar (skip s)
      rw [h, List.nil_append] at this
      exact this
    have : (next s).2 = skip s := by rw [h1]; exact hd
    rw [this]
    exact next_congr (skip_skip _ _ (le_refl _))

end Lexer

theorem joinAcc_nonempty : ∀ (ts : List Token) (val : Str), val ≠ [] →
    joinAcc val ts = val ++ (ts.map fun u => gap u ++ u.val).flatten := by
  intro ts
  induction ts with
  | nil => intro val _; simp [joinAcc]
  | cons t ts ih =>
    intro val hval
    have he : val.isEmpty = false := by
      cases val with
      | nil => exact absurd rfl hval
      | cons a b => rfl
    unfold joinAcc
    by_cases hc : t.type = TOK_COMMA
    · simp only [he, hc, ne_eq, not_true_eq_false, decide_False, Bool.and_false,
        Bool.false_eq_true, if_false]
      rw [ih _ (by simp [hval])]
      simp [gap, hc]
    · simp only [he, hc, ne_eq, not_false_eq_true, decide_True, Bool.not_false, Bool.and_self,
        if_true]
      rw [ih _ (by simp [hval])]
      simp [gap, hc]

/-- The loop value equals the reference value when the first token has a non-empty text. -/
theorem joinAcc_ref (ts : List Token) (h : ∀ t ∈ ts.head?, t.val ≠ []) :
    joinAcc [] ts = joinRef ts := by
  cases ts with
  | nil => rfl
  | cons t ts =>
    have ht : t.val ≠ [] := h t rfl
    unfold joinAcc
    simp only [List.isEmpty_nil, Bool.not_true, Bool.false_and, Bool.false_eq_true, if_false,
      List.nil_append]
    rw [joinAcc_nonempty ts _ ht]
    rfl

section Multiline

attribute [local irreducible] Lexer.next

namespace Parser

/-- The loop of `multilineValue` runs over the tokens up to the first stop token. -/
theorem multilineLoop_run : ∀ (k : Nat) (p : Parser) (val : Str) (fuel : Nat),
    isStop (eat^[k] p).tok = true → (∀ i < k, isStop (eat^[i] p).tok = false) → k < fuel →
    multilineLoop fuel p val = .ok (joinAcc val (tokensFrom k p), eat^[k] p) := by
  intro k
  induction k with
  | zero =>
    intro p val fuel hk _ hf
    obtain ⟨f, rfl⟩ : ∃ f, fuel = f + 1 := ⟨fuel - 1, by omega⟩
    simp only [Function.iterate_zero, id_eq, isStop, Bool.or_eq_true, decide_eq_true_eq] at hk
    unfold multilineLoop
    have hcond : (decide (p.tok.type ≠ TOK_SEMI) && decide (p.tok.type ≠ TOK_RB)
        && decide (p.tok.type ≠ TOK_EOF) && decide (p.tok.type ≠ TOK_AT)
        && decide (p.tok.val ≠ "links".toList)) = false := by
      rcases hk with (((h | h) | h) | h) | h <;> simp [h]
    simp only [hcond, Bool.false_eq_true, if_false]
    rfl
  | succ k ih =>
    intro p val fuel hk hfirst hf
    obtain ⟨f, rfl⟩ : ∃ f, fuel = f + 1 := ⟨fuel - 1, by omega⟩
    have h0 := hfirst 0 (Nat.succ_pos k)
    simp only [Function.iterate_zero, id_eq, isStop, Bool.or_eq_false_iff,
      decide_eq_false_iff_not] at h0
    obtain ⟨⟨⟨⟨a1, a2⟩, a3⟩, a4⟩, a5⟩ := h0
    unfold multilineLoop
    have hcond : (decide (p.tok.type ≠ TOK_SEMI) && decide (p.tok.type ≠ TOK_RB)
        && decide (p.tok.type ≠ TOK_EOF) && decide (p.tok.type ≠ TOK_AT)
        && decide (p.tok.val ≠ "links".toList)) = true := by
      simp only [a1, a2, a3, a4, a5, ne_eq, not_false_eq_true, decide_True, Bool.and_self]
    simp only [hcond, if_true]
    rw [ih p.eat _ f (by simpa [Function.iterate_succ_apply] using hk)
      (fun i hi => by
        have := hfirst (i + 1) (by omega)
        simpa [Function.iterate_succ_apply] using this) (by omega)]
    rfl

/-- A state after `eat` whose token has an empty text and is neither end-of-input nor a
string does not change by further calls of `eat`. -/
theorem lexed_empty_fix (s : Str) (hv : (init s).tok.val = [])
    (h1 : (init s).tok.type ≠ TOK_EOF) (h2 : (init s).tok.type ≠ TOK_STR) (k : Nat) :
    eat^[k] (init s) = init s := by
  have hfix : (init s).eat = init s := by
    rcases Lexer.next_empty s hv with h | h | h
    · exact absurd h h1
    · exact absurd h h2
    · simp only [eat, init, h]
  induction k with
  | zero => rfl
  | succ k ih => rw [Function.iterate_succ_apply, hfix, ih]

end Parser

end Multiline

/-- C22: `multilineValue` equals its reference definition. Start from the state after a call
of `eat` whose current token `t1` is not an empty string literal (both callers take a string
literal verbatim and never pass one to `multilineValue`), and let the `k`-th token after
`t1` be the first token that is `;`, `}`, end-of-input, `@`, or has the text `links`. Then
`multilineValue`, given fuel for `k + 1` turns, returns the texts of the `k` tokens before
it concatenated, with a single space before every token except the first and except comma
tokens, and leaves that stop token as the current token. -/
theorem C22_multiline_value_reference (s : Str) (k fuel : Nat)
    (hstr : ¬ ((Parser.init s).tok.type = TOK_STR ∧ (Parser.init s).tok.val = []))
    (hk : isStop (Parser.eat^[k] (Parser.init s)).tok = true)
    (hfirst : ∀ i < k, isStop (Parser.eat^[i] (Parser.init s)).tok = false)
    (hf : k < fuel) :
    Parser.multilineValue fuel (Parser.init s)
      = .ok (joinRef (tokensFrom k (Parser.init s)), Parser.eat^[k] (Parser.init s)) := by
  rw [Parser.multilineValue, Parser.multilineLoop_run k _ [] fuel hk hfirst hf]
  rw [joinAcc_ref]
  intro t ht
  cases k with
  | zero => simp [tokensFrom] at ht
  | succ k =>
    simp only [tokensFrom, List.head?_cons, Option.mem_def, Option.some.injEq] at ht
    subst ht
    intro hv
    have h0 := hfirst 0 (Nat.succ_pos k)
    have hne : (Parser.init s).tok.type ≠ TOK_EOF := by
      intro he
      simp [isStop, he] at h0
    have hfix := Parser.lexed_empty_fix s hv hne (fun h => hstr ⟨h, hv⟩) (k + 1)
    rw [hfix] at hk
    simp only [Function.iterate_zero, id_eq] at h0
    rw [hk] at h0
    exact Bool.noConfusion h0

/-- C22 at the value `red, green;` (three tokens before the semicolon), and the two bodies
`desc: red, green;` and `desc: see links: a;` in whole blocks. -/
theorem C22_witness :
    Parser.multilineValue 4 (Parser.init "red, green;".toList)
        = .ok ("red, green".toList, ⟨[], ⟨TOK_SEMI, [';']⟩⟩)
      ∧ parse 6 "struct A \x7b desc: red, green; \x7d".toList
        = .ok [{ kind := "struct".toList, name := "A".toList, desc := "red, green".toList }]
      ∧ parse 6 "struct A \x7b desc: see links: a; \x7d".toList
        = .ok [{ kind := "struct".toList, name := "A".toList, desc := "see".toList,
                 links := ["a".toList] }] :=
  ⟨C22_multiline_value_reference "red, green;".toList 3 4 (by decide) (by decide)
    (by decide) (by decide), by rfl, by rfl⟩

/-! ## Progress of the parser loops -/

section Progress

attribute [local irreducible] Lexer.next

namespace Parser

theorem reach_eat {p q : Parser} (h : Reach p q) : Reach p.eat q.eat := by
  obtain ⟨n, rfl⟩ := h
  exact ⟨n, by rw [← Function.iterate_succ_apply, Function.iterate_succ_apply']⟩

theorem advance_of_reach {p q : Parser} (h : Reach p.eat q) : Advance p q := by
  obtain ⟨n, rfl⟩ := h
  exact ⟨n + 1, by omega, by rw [Function.iterate_succ_apply]⟩

theorem ends_succ {n : Nat} {p : Parser} (h : Ends n p) : Ends (n + 1) p := by
  obtain ⟨h1, h2⟩ := h
  have : eat^[n + 1] p = eat^[n] p := by rw [Function.iterate_succ_apply', h2]
  unfold Ends
  rw [this]
  exact ⟨h1, h2⟩

theorem ends_tail {n : Nat} {p : Parser} (h : Ends (n + 1) p) : Ends n p.eat := by
  unfold Ends at h ⊢
  rw [Function.iterate_succ_apply] at h
  exact h

theorem ends_eat {n : Nat} {p : Parser} (h : Ends n p) : Ends n p.eat := ends_tail (ends_succ h)

theorem ends_reach {n : Nat} {p q : Parser} (h : Ends n p) (hr : Reach p q) : Ends n q := by
  obtain ⟨m, rfl⟩ := hr
  induction m with
  | zero => exact h
  | succ m ih =>
    rw [Function.iterate_succ_apply']
    exact ends_eat ih

theorem ends_pred {n : Nat} {p : Parser} (h : Ends n p) (hp : p.tok.type ≠ TOK_EOF) :
    ∃ m, n = m + 1 ∧ Ends m p.eat := by
  cases n with
  | zero => exact absurd h.1 hp
  | succ m => exact ⟨m, rfl, ends_tail h⟩

theorem short_zero (p : Parser) : Short 0 p := fun _ _ => Nat.zero_le _

theorem short_back {f : Nat} {p q : Parser} (hr : Reach p q) (h : Short f q) : Short f p :=
  fun n hn => h n (ends_reach hn hr)

theorem short_succ {f : Nat} {p : Parser} (hp : p.tok.type ≠ TOK_EOF) (h : Short f p.eat) :
    Short (f + 1) p := by
  intro n hn
  obtain ⟨m, rfl, hm⟩ := ends_pred hn hp
  have := h m hm
  omega

theorem outcome_ok {α : Type} (proj : α → Parser) (f : Nat) (p0 : Parser) (a : α)
    (h : Reach p0 (proj a)) : Outcome proj f p0 (.ok a) := Or.inl ⟨a, rfl, h⟩

theorem outcome_fatal {α : Type} (proj : α → Parser) (f : Nat) (p0 : Parser) (m : Str) :
    Outcome proj f p0 (.fatal m) := Or.inr (Or.inl ⟨m, rfl⟩)

theorem outcome_base {α : Type} {proj : α → Parser} {f : Nat} {p0 p1 : Parser} {r : Res α}
    (hr : Reach p0 p1) (h : Outcome proj f p1 r) : Outcome proj f p0 r := by
  rcases h with ⟨a, ha, hq⟩ | hm | ⟨ht, hs⟩
  · exact Or.inl ⟨a, ha, hr.trans hq⟩
  · exact Or.inr (Or.inl hm)
  · exact Or.inr (Or.inr ⟨ht, short_back hr hs⟩)

theorem outcome_bind {α β : Type} {pa : α → Parser} {pb : β → Parser} {f : Nat} {p0 : Parser}
    {r : Res α} {g : α → Res β} (hr : Outcome pa f p0 r)
    (hg : ∀ a, Reach p0 (pa a) → Outcome pb f p0 (g a)) : Outcome pb f p0 (r >>= g) := by
  rcases hr with ⟨a, rfl, hq⟩ | ⟨m, rfl⟩ | ⟨rfl, hs⟩
  · exact hg a hq
  · exact Or.inr (Or.inl ⟨m, rfl⟩)
  · exact Or.inr (Or.inr ⟨rfl, hs⟩)

/-- One turn of the loop of `type` calls `eat`. -/
theorem typeLoop_outcome : ∀ (f : Nat) (p : Parser) (t : Str),
    Outcome (fun a : Str × Parser => a.2) f p (typeLoop f p t) := by
  intro f
  induction f with
  | zero => intro p t; exact Or.inr (Or.inr ⟨rfl, short_zero p⟩)
  | succ f ih =>
    intro p t
    unfold typeLoop
    split
    · rename_i hid
      have hne : p.tok.type ≠ TOK_EOF := by rw [hid]; decide
      simp only
      split
      · rcases ih p.eat (t ++ p.tok.val) with ⟨a, ha, hq⟩ | hm | ⟨ht, hs⟩
        · exact Or.inl ⟨a, ha, (Reach.one p).trans hq⟩
        · exact Or.inr (Or.inl hm)
        · exact Or.inr (Or.inr ⟨ht, short_succ hne hs⟩)
      · exact outcome_ok _ _ _ _ (Reach.one p)
    · exact outcome_ok _ _ _ _ (Reach.refl p)

/-- One turn of an item loop calls `eat`. -/
theorem itemLoop_outcome (accept : TokenType → Bool) (hacc : accept TOK_EOF = false) :
    ∀ (f : Nat) (p : Parser) (acc : List Str),
      Outcome (fun a : List Str × Parser => a.2) f p (itemLoop accept f p acc) := by
  intro f
  induction f with
  | zero => intro p acc; exact Or.inr (Or.inr ⟨rfl, short_zero p⟩)
  | succ f ih =>
    intro p acc
    unfold itemLoop
    split
    · rename_i ha
      have hne : p.tok.type ≠ TOK_EOF := by
        intro he; rw [he, hacc] at ha; exact Bool.noConfusion ha
      have hr : Reach p.eat (p.eat.matchT TOK_COMMA).2 := matchT_reach _ _
      rcases ih (p.eat.matchT TOK_COMMA).2 (acc ++ [p.tok.val]) with ⟨a, ha, hq⟩ | hm | ⟨ht, hs⟩
      · exact Or.inl ⟨a, ha, ((Reach.one p).trans hr).trans hq⟩
      · exact Or.inr (Or.inl hm)
      · exact Or.inr (Or.inr ⟨ht, short_succ hne (short_back hr hs)⟩)
    · exact outcome_ok _ _ _ _ (Reach.refl p)

/-- One turn of the loop of `multilineValue` calls `eat`. -/
theorem multilineLoop_outcome : ∀ (f : Nat) (p : Parser) (val : Str),
    Outcome (fun a : Str × Parser => a.2) f p (multilineLoop f p val) := by
  intro f
  induction f with
  | zero => intro p val; exact Or.inr (Or.inr ⟨rfl, short_zero p⟩)
  | succ f ih =>
    intro p val
    unfold multilineLoop
    split
    · rename_i hc
      have hne : p.tok.type ≠ TOK_EOF := by
        simp only [Bool.and_eq_true, decide_eq_true_eq] at hc
        exact hc.1.1.2
      rcases ih p.eat _ with ⟨a, ha, hq⟩ | hm | ⟨ht, hs⟩
      · exact Or.inl ⟨a, ha, (Reach.one p).trans hq⟩
      · exact Or.inr (Or.inl hm)
      · exact Or.inr (Or.inr ⟨ht, short_succ hne hs⟩)
    · exact outcome_ok _ _ _ _ (Reach.refl p)

theorem descValue_outcome (f : Nat) (p : Parser) :
    Outcome (fun a : Str × Parser => a.2) f p (descValue f p) := by
  unfold descValue
  split
  · exact outcome_ok _ _ _ _ (Reach.one p)
  · exact multilineLoop_outcome f p []

theorem idOrStr_eof : idOrStr TOK_EOF = false := by decide

theorem strOnly_eof : strOnly TOK_EOF = false := by decide

theorem fieldTags_outcome (f : Nat) (p : Parser) :
    Outcome (fun a : Field × Parser => a.2) f p (fieldTags f p) := by
  unfold fieldTags
  split
  · rename_i p1 heq
    have h1 : Reach p p1 := by
      have := matchT_reach TOK_AT p
      rwa [heq] at this
    refine outcome_base h1 (outcome_bind (itemLoop_outcome idOrStr idOrStr_eof f p1 []) ?_)
    intro a ha
    exact outcome_ok _ _ _ _ ha
  · rename_i p1 heq
    have h1 : Reach p p1 := by
      have := matchT_reach TOK_AT p
      rwa [heq] at this
    exact outcome_ok _ _ _ _ h1

theorem fieldDesc_outcome (f : Nat) (g : Field) (p : Parser) :
    Outcome (fun a : Field × Parser => a.2) f p (fieldDesc f g p) := by
  unfold fieldDesc
  split
  · rename_i p1 heq
    have h1 : Reach p p1 := by
      have := matchT_reach TOK_COLON p
      rwa [heq] at this
    refine outcome_base h1 (outcome_bind (descValue_outcome f p1) ?_)
    intro a ha
    exact outcome_ok _ _ _ _ ha
  · rename_i p1 heq
    have h1 : Reach p p1 := by
      have := matchT_reach TOK_COLON p
      rwa [heq] at this
    exact outcome_ok _ _ _ _ h1

theorem field_outcome (f : Nat) (p : Parser) :
    Outcome (fun a : Field × Parser => a.2) f p (field f p) := by
  rw [field_eq]
  refine outcome_bind (fieldTags_outcome f p) ?_
  rintro ⟨f1, p1⟩ h1
  refine outcome_bind (outcome_base h1 (typeLoop_outcome f p1 [])) ?_
  rintro ⟨t, p2⟩ h2
  have r3 := (fieldName_facts { f1 with type := t } p2).1
  refine outcome_bind (outcome_base (h2.trans r3) (fieldDesc_outcome f _ _)) ?_
  rintro ⟨f4, p4⟩ h4
  have r5 := (fieldDefault_facts f4 p4).1
  exact outcome_ok _ _ _ _ ((h4.trans r5).trans (matchT_reach _ _))

end Parser

end Progress

section ClauseProgress

attribute [local irreducible] Lexer.next

namespace Parser

theorem expect_outcome (t : TokenType) (f : Nat) (p : Parser) :
    Outcome (fun a : Parser => a) f p (expect t p) := by
  unfold expect
  split
  · rename_i p1 heq
    have h1 : Reach p p1 := by
      have := matchT_reach t p
      rwa [heq] at this
    exact outcome_ok _ _ _ _ h1
  · exact outcome_fatal _ _ _ _

/-- The generic fallback calls `eat` on its key before anything else. -/
theorem generic_outcome (f : Nat) (p : Parser) (d : Def) :
    Outcome (fun a : Parser × Def => a.1) f p.eat (generic f p d) := by
  unfold generic
  simp only
  split
  · rename_i p1 heq
    have h1 : Reach p.eat p1 := by
      have := matchT_reach TOK_COLON p.eat
      rwa [heq] at this
    split
    · exact outcome_ok _ _ _ _ (h1.step.trans (matchT_reach _ _))
    · exact outcome_ok _ _ _ _ (h1.trans (matchT_reach _ _))
  · rename_i p1 heq
    have h1 : Reach p.eat p1 := by
      have := matchT_reach TOK_COLON p.eat
      rwa [heq] at this
    refine outcome_base h1 (outcome_bind (field_outcome f p1) ?_)
    rintro ⟨fl, q⟩ hq
    exact outcome_ok _ _ _ _ hq

/-- One turn of the body loop calls `eat` at least once on every path, also on the default
arm that skips a token. -/
theorem clause_outcome (f : Nat) (p : Parser) (d : Def) :
    Outcome (fun a : Parser × Def => a.1) f p.eat (clause f p d) := by
  unfold clause
  have r0 : Reach p.eat p.eat := Reach.refl _
  split
  · rename_i pn heq
    have r : Reach p.eat pn := (matchKw_true _ _ _ heq).2.2 ▸ r0.step
    refine outcome_base r (outcome_bind (descValue_outcome f _) ?_)
    rintro ⟨v, p2⟩ hv
    exact outcome_ok _ _ _ _ (hv.trans (matchT_reach _ _))
  · rename_i pn heq
    replace r0 : Reach p.eat pn.eat := r0.trans (reach_eat (matchKw_snd _ _ _ _ heq))
    clear heq
    split
    · rename_i pn heq
      have r : Reach p.eat pn := (matchKw_true _ _ _ heq).2.2 ▸ r0.step
      refine outcome_base r (outcome_bind (typeLoop_outcome f _ []) ?_)
      rintro ⟨v, p2⟩ hv
      exact outcome_ok _ _ _ _ (hv.trans (matchT_reach _ _))
    · rename_i pn heq
      replace r0 : Reach p.eat pn.eat := r0.trans (reach_eat (matchKw_snd _ _ _ _ heq))
      clear heq
      split
      · rename_i pn heq
        have r : Reach p.eat pn := (matchKw_true _ _ _ heq).2.2 ▸ r0.step
        refine outcome_base r (outcome_bind (itemLoop_outcome idOrStr idOrStr_eof f _ _) ?_)
        rintro ⟨v, p2⟩ hv
        exact outcome_ok _ _ _ _ (hv.trans (matchT_reach _ _))
      · rename_i pn heq
        replace r0 : Reach p.eat pn.eat := r0.trans (reach_eat (matchKw_snd _ _ _ _ heq))
        clear heq
        split
        · rename_i pn heq
          have r : Reach p.eat pn := (matchKw_true _ _ _ heq).2.2 ▸ r0.step
          refine outcome_base r (outcome_bind (itemLoop_outcome strOnly strOnly_eof f _ _) ?_)
          rintro ⟨v, p2⟩ hv
          exact outcome_ok _ _ _ _ (hv.trans (matchT_reach _ _))
        · rename_i pn heq
          replace r0 : Reach p.eat pn.eat := r0.trans (reach_eat (matchKw_snd _ _ _ _ heq))
          clear heq
          split
          · rename_i pn heq
            have r : Reach p.eat pn := (matchKw_true _ _ _ heq).2.2 ▸ r0.step
            refine outcome_base r (outcome_bind (itemLoop_outcome strOnly strOnly_eof f _ _) ?_)
            rintro ⟨v, p2⟩ hv
            exact outcome_ok _ _ _ _ (hv.trans (matchT_reach _ _))
          · rename_i pn heq
            replace r0 : Reach p.eat pn.eat := r0.trans (reach_eat (matchKw_snd _ _ _ _ heq))
            clear heq
            split
            · rename_i pn heq
              have r : Reach p.eat pn := (matchKw_true _ _ _ heq).2.2 ▸ r0.step
              exact outcome_ok _ _ _ _ (r.trans (scalar_reach _ _ _))
            · rename_i pn heq
              replace r0 : Reach p.eat pn.eat := r0.trans (reach_eat (matchKw_snd _ _ _ _ heq))
              clear heq
              split
              · rename_i pn heq
                have r : Reach p.eat pn := (matchKw_true _ _ _ heq).2.2 ▸ r0.step
                exact outcome_ok _ _ _ _ (r.trans (scalar_reach _ _ _))
              · rename_i pn heq
                replace r0 : Reach p.eat pn.eat := r0.trans (reach_eat (matchKw_snd _ _ _ _ heq))
                clear heq
                split
                · rename_i pn heq
                  have r : Reach p.eat pn := (matchKw_true _ _ _ heq).2.2 ▸ r0.step
                  exact outcome_ok _ _ _ _ (r.trans (scalar_reach _ _ _))
                · rename_i pn heq
                  replace r0 : Reach p.eat pn.eat := r0.trans (reach_eat (matchKw_snd _ _ _ _ heq))
                  clear heq
                  split
                  · rename_i pn heq
                    have r : Reach p.eat pn := (matchKw_true _ _ _ heq).2.2 ▸ r0.step
                    exact outcome_ok _ _ _ _ (r.trans (scalar_reach _ _ _))
                  · rename_i pn heq
                    replace r0 : Reach p.eat pn.eat := r0.trans (reach_eat (matchKw_snd _ _ _ _ heq))
                    clear heq
                    split
                    · rename_i pn heq
                      have r : Reach p.eat pn := (matchKw_true _ _ _ heq).2.2 ▸ r0.step
                      simp only
                      refine outcome_ok _ _ _ _ ?_
                      simp only
                      split
                      · exact (r.step).trans (matchT_reach _ _)
                      · exact r.trans (matchT_reach _ _)
                    · rename_i pn heq
                      replace r0 : Reach p.eat pn.eat := r0.trans (reach_eat (matchKw_snd _ _ _ _ heq))
                      clear heq
                      split
                      · rename_i pn heq
                        have r : Reach p.eat pn := (matchKw_true _ _ _ heq).2.2 ▸ r0.step
                        refine outcome_base r (outcome_bind (itemLoop_outcome idOrStr idOrStr_eof f _ _) ?_)
                        rintro ⟨v, p2⟩ hv
                        exact outcome_ok _ _ _ _ (hv.trans (matchT_reach _ _))
                      · rename_i pn heq
                        replace r0 : Reach p.eat pn.eat := r0.trans (reach_eat (matchKw_snd _ _ _ _ heq))
                        clear heq
                        split
                        · exact outcome_base r0 (generic_outcome f _ d)
                        · exact outcome_ok _ _ _ _ r0

/-- The body loop: every turn runs one clause. -/
theorem bodyLoop_outcome : ∀ (f : Nat) (p : Parser) (d : Def),
    Outcome (fun a : Parser × Def => a.1) f p (bodyLoop f p d) := by
  intro f
  induction f with
  | zero => intro p d; exact Or.inr (Or.inr ⟨rfl, short_zero p⟩)
  | succ f ih =>
    intro p d
    unfold bodyLoop
    split
    · rename_i hc
      have hne : p.tok.type ≠ TOK_EOF := by
        simp only [Bool.and_eq_true, decide_eq_true_eq] at hc
        exact hc.2
      rcases clause_outcome f p d with ⟨⟨q, d1⟩, ha, hq⟩ | ⟨m, hm⟩ | ⟨ht, hs⟩
      · rw [ha]
        simp only [Res.ok_bind]
        rcases ih q d1 with ⟨a, ha1, hq1⟩ | hm | ⟨ht, hs⟩
        · exact Or.inl ⟨a, ha1, (Reach.one p).trans (hq.trans hq1)⟩
        · exact Or.inr (Or.inl hm)
        · exact Or.inr (Or.inr ⟨ht, short_succ hne (short_back hq hs)⟩)
      · rw [hm]
        exact outcome_fatal _ _ _ _
      · rw [ht]
        exact Or.inr (Or.inr ⟨rfl, short_succ hne hs⟩)
    · exact outcome_ok _ _ _ _ (Reach.refl p)

/-- The head of a block calls `eat` on the kind keyword or raises a fatal error. -/
theorem header_outcome (f : Nat) (p : Parser) :
    Outcome (fun a : Parser × Def => a.1) f p.eat (header f p) := by
  unfold header
  simp only
  refine @outcome_bind _ _ (fun a : Parser × Def => a.1.eat) _ _ _ _ _ ?_ ?_
  · by_cases hat : p.tok.type = TOK_AT
    · simp only [matchT, hat, if_true]
      refine outcome_bind (itemLoop_outcome idOrStr idOrStr_eof f _ _) ?_
      rintro ⟨tags, p1⟩ h
      exact outcome_ok _ _ _ _ h.step
    · simp only [matchT, hat, if_false]
      exact outcome_ok _ _ _ _ (Reach.refl _)
  · rintro ⟨p1, d1⟩ h1
    simp only at h1 ⊢
    split
    · split
      · rename_i hid
        refine outcome_base h1.step (outcome_bind (expect_outcome TOK_LB f _) ?_)
        intro a ha
        exact outcome_ok _ _ _ _ ha
      · refine outcome_base h1 (outcome_bind (expect_outcome TOK_LB f _) ?_)
        intro a ha
        exact outcome_ok _ _ _ _ ha
    · exact outcome_fatal _ _ _ _

/-- One turn of the top-level loop: a block. -/
theorem block_outcome (f : Nat) (p : Parser) :
    Outcome (fun a : Parser × Def => a.1) f p.eat (block f p) := by
  unfold block
  refine outcome_bind (header_outcome f p) ?_
  rintro ⟨p1, d1⟩ h1
  refine outcome_bind (outcome_base h1 (bodyLoop_outcome f p1 d1)) ?_
  rintro ⟨p2, d2⟩ h2
  refine outcome_bind (outcome_base h2 (expect_outcome TOK_RB f p2)) ?_
  intro p3 h3
  exact outcome_ok _ _ _ _ h3

/-- The top-level loop ends when the fuel exceeds the number of tokens before
end-of-input. -/
theorem parseLoop_ends : ∀ (f : Nat) (p : Parser) (acc : List Def),
    parseLoop f p acc ≠ .timeout ∨ Short f p := by
  intro f
  induction f with
  | zero => intro p acc; exact Or.inr (short_zero p)
  | succ f ih =>
    intro p acc
    unfold parseLoop
    split
    · rename_i hc
      have hne : p.tok.type ≠ TOK_EOF := by simpa using hc
      rcases block_outcome f p with ⟨⟨q, d1⟩, ha, hq⟩ | ⟨m, hm⟩ | ⟨ht, hs⟩
      · rw [ha]
        simp only [Res.ok_bind]
        rcases ih q (acc ++ [d1]) with h | h
        · exact Or.inl h
        · exact Or.inr (short_succ hne (short_back hq h))
      · rw [hm]
        exact Or.inl (fun h => Res.noConfusion h)
      · exact Or.inr (short_succ hne hs)
    · exact Or.inl (fun h => Res.noConfusion h)

/-- A state after `eat` whose token is end-of-input does not change by further calls. -/
theorem ends_of_eof (s : Str) (n : Nat) (h : (eat^[n] (init s)).tok.type = TOK_EOF) :
    Ends n (init s) := by
  obtain ⟨s1, hs1⟩ := lexed_reach (⟨s, rfl⟩ : Lexed (init s)) ⟨n, rfl⟩
  refine ⟨h, ?_⟩
  rw [hs1] at h ⊢
  obtain ⟨h1, h2⟩ := Lexer.next_eof_inv s1 h
  have h3 := Lexer.next_of_atEnd s1 h1
  have h4 := Lexer.next_fix (Lexer.skip s1) h1
  simp only [init, eat, h3, h4]

end Parser

end ClauseProgress

section LoopTurns

attribute [local irreducible] Lexer.next

namespace Parser

theorem clause_advance (f : Nat) (p : Parser) (d : Def) (q : Parser) (d1 : Def)
    (h : clause f p d = .ok (q, d1)) : Advance p q := by
  rcases clause_outcome f p d with ⟨a, ha, hq⟩ | ⟨m, hm⟩ | ⟨ht, _⟩
  · rw [h] at ha
    cases ha
    exact advance_of_reach hq
  · rw [h] at hm; exact Res.noConfusion hm
  · rw [h] at ht; exact Res.noConfusion ht

theorem block_advance (f : Nat) (p q : Parser) (d : Def)
    (h : block f p = .ok (q, d)) : Advance p q := by
  rcases block_outcome f p with ⟨a, ha, hq⟩ | ⟨m, hm⟩ | ⟨ht, _⟩
  · rw [h] at ha
    cases ha
    exact advance_of_reach hq
  · rw [h] at hm; exact Res.noConfusion hm
  · rw [h] at ht; exact Res.noConfusion ht

theorem itemLoop_turn (accept : TokenType → Bool) (n : Nat) (p : Parser) (acc : List Str)
    (h : accept p.tok.type = true) :
    ∃ q, Advance p q ∧ itemLoop accept (n + 1) p acc = itemLoop accept n q (acc ++ [p.tok.val]) := by
  refine ⟨(p.eat.matchT TOK_COMMA).2, advance_of_reach (matchT_reach _ _), ?_⟩
  rw [itemLoop]
  simp only [h, if_true]

theorem typeLoop_turn (n : Nat) (p : Parser) (t : Str) (h : p.tok.type = TOK_ID) :
    typeLoop (n + 1) p t = typeLoop n p.eat (t ++ p.tok.val)
      ∨ typeLoop (n + 1) p t = .ok (t ++ p.tok.val, p.eat) := by
  rw [typeLoop]
  simp only [h, if_true]
  split
  · left; rfl
  · right; rfl

theorem multilineLoop_turn (n : Nat) (p : Parser) (val : Str) (h : isStop p.tok = false) :
    ∃ val1, multilineLoop (n + 1) p val = multilineLoop n p.eat val1 := by
  simp only [isStop, Bool.or_eq_false_iff, decide_eq_false_iff_not] at h
  obtain ⟨⟨⟨⟨a1, a2⟩, a3⟩, a4⟩, a5⟩ := h
  have hcond : (decide (p.tok.type ≠ TOK_SEMI) && decide (p.tok.type ≠ TOK_RB)
      && decide (p.tok.type ≠ TOK_EOF) && decide (p.tok.type ≠ TOK_AT)
      && decide (p.tok.val ≠ "links".toList)) = true := by
    simp only [a1, a2, a3, a4, a5, ne_eq, not_false_eq_true, decide_True, Bool.and_self]
  refine ⟨(if !val.isEmpty && p.tok.type ≠ TOK_COMMA then val ++ " ".toList else val)
    ++ p.tok.val, ?_⟩
  rw [multilineLoop]
  simp only [hcond, if_true]

theorem parse_ends (input : Str) (n fuel : Nat)
    (h : (eat^[n] (init input)).tok.type = TOK_EOF) (hf : n < fuel) :
    parse fuel input ≠ .timeout := by
  rcases parseLoop_ends fuel (init input) [] with h1 | h1
  · exact h1
  · have := h1 n (ends_of_eof input n h)
    omega

end Parser

end LoopTurns

/-- C24: every turn of every parser loop calls `eat` at least once or raises a fatal error.
A turn of the top-level loop (`block`) and a turn of the body loop (`clause`, on every arm,
the default skip arm included) that give a result leave a state that follows from the old
one by at least one call of `eat`; a turn of an item loop (tag list and list clauses), of
the loop of `type` and of the loop of `multilineValue` continues from a state after at
least one call of `eat`. Hence, on any input for which the current token is end-of-input
after `n` calls of `eat`, the parser ends (with a list of Definitions or a fatal error)
whenever the fuel exceeds `n`. -/
theorem C24_every_turn_consumes_and_parse_ends :
    (∀ (fuel : Nat) (p q : Parser) (d : Def),
        Parser.block fuel p = .ok (q, d) → Parser.Advance p q)
    ∧ (∀ (fuel : Nat) (p : Parser) (d : Def) (q : Parser) (d1 : Def),
        Parser.clause fuel p d = .ok (q, d1) → Parser.Advance p q)
    ∧ (∀ (accept : TokenType → Bool) (n : Nat) (p : Parser) (acc : List Str),
        accept p.tok.type = true →
        ∃ q, Parser.Advance p q
          ∧ Parser.itemLoop accept (n + 1) p acc = Parser.itemLoop accept n q (acc ++ [p.tok.val]))
    ∧ (∀ (n : Nat) (p : Parser) (t : Str), p.tok.type = TOK_ID →
        Parser.typeLoop (n + 1) p t = Parser.typeLoop n p.eat (t ++ p.tok.val)
          ∨ Parser.typeLoop (n + 1) p t = .ok (t ++ p.tok.val, p.eat))
    ∧ (∀ (n : Nat) (p : Parser) (val : Str), isStop p.tok = false →
        ∃ val1, Parser.multilineLoop (n + 1) p val = Parser.multilineLoop n p.eat val1)
    ∧ (∀ (input : Str) (n fuel : Nat),
        (Parser.eat^[n] (Parser.init input)).tok.type = TOK_EOF → n < fuel →
        parse fuel input ≠ .timeout) :=
  ⟨Parser.block_advance, Parser.clause_advance, Parser.itemLoop_turn, Parser.typeLoop_turn,
   Parser.multilineLoop_turn, Parser.parse_ends⟩

/-- C24 at the input `fn f { x`: the fifth token is end-of-input, and the parser ends, here
with the fatal error of the missing closing brace. -/
theorem C24_witness :
    (Parser.eat^[4] (Parser.init "fn f \x7b x".toList)).tok.type = TOK_EOF
      ∧ parse 5 "fn f \x7b x".toList = .fatal "Expected token, got: ".toList
      ∧ parse 5 "fn f \x7b x".toList ≠ .timeout :=
  ⟨by decide, by decide,
   C24_every_turn_consumes_and_parse_ends.2.2.2.2.2 "fn f \x7b x".toList 4 5 (by decide)
     (by decide)⟩

/-! ## End of input inside a block body -/

section BodyEnd

attribute [local irreducible] Lexer.next

namespace Parser

theorem nofatal_bind {α β : Type} {r : Res α} {g : α → Res β} (hr : ∀ m, r ≠ .fatal m)
    (hg : ∀ a m, g a ≠ .fatal m) : ∀ m, (r >>= g) ≠ .fatal m := by
  intro m
  cases r with
  | ok a => exact hg a m
  | fatal m1 => exact absurd rfl (hr m1)
  | timeout => exact fun h => Res.noConfusion h

theorem nofatal_ok {α : Type} (a : α) : ∀ m, (Res.ok a : Res α) ≠ .fatal m :=
  fun _ h => Res.noConfusion h

theorem typeLoop_nofatal : ∀ (f : Nat) (p : Parser) (t : Str) (m : Str),
    typeLoop f p t ≠ .fatal m := by
  intro f
  induction f with
  | zero => intro p t m h; exact Res.noConfusion h
  | succ f ih =>
    intro p t m
    unfold typeLoop
    split
    · simp only
      split
      · exact ih _ _ m
      · exact nofatal_ok _ m
    · exact nofatal_ok _ m

theorem itemLoop_nofatal (accept : TokenType → Bool) : ∀ (f : Nat) (p : Parser)
    (acc : List Str) (m : Str), itemLoop accept f p acc ≠ .fatal m := by
  intro f
  induction f with
  | zero => intro p acc m h; exact Res.noConfusion h
  | succ f ih =>
    intro p acc m
    unfold itemLoop
    split
    · exact ih _ _ m
    · exact nofatal_ok _ m

theorem multilineLoop_nofatal : ∀ (f : Nat) (p : Parser) (val : Str) (m : Str),
    multilineLoop f p val ≠ .fatal m := by
  intro f
  induction f with
  | zero => intro p val m h; exact Res.noConfusion h
  | succ f ih =>
    intro p val m
    unfold multilineLoop
    split
    · exact ih _ _ m
    · exact nofatal_ok _ m

theorem descValue_nofatal (f : Nat) (p : Parser) (m : Str) : descValue f p ≠ .fatal m := by
  unfold descValue
  split
  · exact nofatal_ok _ m
  · exact multilineLoop_nofatal f p [] m

theorem fieldTags_nofatal (f : Nat) (p : Parser) (m : Str) : fieldTags f p ≠ .fatal m := by
  unfold fieldTags
  split
  · exact nofatal_bind (itemLoop_nofatal _ _ _ _) (fun a => nofatal_ok _) m
  · exact nofatal_ok _ m

theorem fieldDesc_nofatal (f : Nat) (g : Field) (p : Parser) (m : Str) :
    fieldDesc f g p ≠ .fatal m := by
  unfold fieldDesc
  split
  · exact nofatal_bind (descValue_nofatal _ _) (fun a => nofatal_ok _) m
  · exact nofatal_ok _ m

theorem field_nofatal (f : Nat) (p : Parser) (m : Str) : field f p ≠ .fatal m := by
  rw [field_eq]
  refine nofatal_bind (fieldTags_nofatal f p) ?_ m
  rintro ⟨f1, p1⟩
  refine nofatal_bind (typeLoop_nofatal f p1 []) ?_
  rintro ⟨t, p2⟩
  refine nofatal_bind (fieldDesc_nofatal f _ _) ?_
  rintro ⟨f4, p4⟩
  exact nofatal_ok _

theorem generic_nofatal (f : Nat) (p : Parser) (d : Def) (m : Str) :
    generic f p d ≠ .fatal m := by
  unfold generic
  simp only
  split
  · split
    · exact nofatal_ok _ m
    · exact nofatal_ok _ m
  · exact nofatal_bind (field_nofatal f _) (fun a => nofatal_ok _) m

/-- A turn of the body loop never raises a fatal error. -/
theorem clause_nofatal (f : Nat) (p : Parser) (d : Def) (m : Str) :
    clause f p d ≠ .fatal m := by
  unfold clause
  repeat' split
  all_goals first
    | exact nofatal_ok _ m
    | exact nofatal_bind (descValue_nofatal _ _) (fun a => nofatal_ok _) m
    | exact nofatal_bind (typeLoop_nofatal _ _ _) (fun a => nofatal_ok _) m
    | exact nofatal_bind (itemLoop_nofatal _ _ _ _) (fun a => nofatal_ok _) m
    | exact generic_nofatal _ _ _ m

theorem bodyLoop_nofatal : ∀ (f : Nat) (p : Parser) (d : Def) (m : Str),
    bodyLoop f p d ≠ .fatal m := by
  intro f
  induction f with
  | zero => intro p d m h; exact Res.noConfusion h
  | succ f ih =>
    intro p d m
    unfold bodyLoop
    split
    · exact nofatal_bind (clause_nofatal f p d) (fun a => ih _ _) m
    · exact nofatal_ok _ m

/-- The body loop stops only on a closing brace or on end-of-input. -/
theorem bodyLoop_exit : ∀ (f : Nat) (p : Parser) (d : Def) (q : Parser) (d1 : Def),
    bodyLoop f p d = .ok (q, d1) → q.tok.type = TOK_RB ∨ q.tok.type = TOK_EOF := by
  intro f
  induction f with
  | zero => intro p d q d1 h; exact Res.noConfusion h
  | succ f ih =>
    intro p d q d1 h
    unfold bodyLoop at h
    split at h
    · obtain ⟨⟨p2, d2⟩, _, h⟩ := Res.bind_eq_ok h
      exact ih _ _ _ _ h
    · rename_i hc
      cases h
      by_cases h1 : p.tok.type = TOK_RB
      · exact Or.inl h1
      · by_cases h2 : p.tok.type = TOK_EOF
        · exact Or.inr h2
        · simp [h1, h2] at hc

/-- The end-of-input token returned by the lexer has an empty text. -/
theorem lexed_eof_val {q : Parser} (hq : Lexed q) (h : q.tok.type = TOK_EOF) : q.tok.val = [] := by
  obtain ⟨s, rfl⟩ := hq
  obtain ⟨h1, _⟩ := Lexer.next_eof_inv s h
  have h3 := Lexer.next_of_atEnd s h1
  simp only [init, h3]

theorem ends_fix {n : Nat} {p : Parser} (h : Ends n p) (m : Nat) (hm : n ≤ m) :
    eat^[m] p = eat^[n] p := by
  obtain ⟨k, rfl⟩ : ∃ k, m = n + k := ⟨m - n, by omega⟩
  exact iterate_eat_fix p n (by rw [Function.iterate_succ_apply', h.2]) k

/-- The body loop from a state with end-of-input `n` tokens ahead ends, given more fuel than
`n`, on a closing brace or on end-of-input. -/
theorem bodyLoop_ends (fuel n : Nat) (p1 : Parser) (d1 : Def) (hl : Lexed p1)
    (hend : (eat^[n] p1).tok.type = TOK_EOF) (hf : n < fuel) :
    ∃ p2 d2, bodyLoop fuel p1 d1 = .ok (p2, d2) ∧ Reach p1 p2
      ∧ (p2.tok.type = TOK_RB ∨ p2.tok.type = TOK_EOF) := by
  obtain ⟨s, rfl⟩ := hl
  have he := ends_of_eof s n hend
  rcases bodyLoop_outcome fuel (init s) d1 with ⟨⟨p2, d2⟩, ha, hq⟩ | ⟨m, hm⟩ | ⟨_, hs⟩
  · exact ⟨p2, d2, ha, hq, bodyLoop_exit _ _ _ _ _ ha⟩
  · exact absurd hm (bodyLoop_nofatal _ _ _ m)
  · have := hs n he
    omega

end Parser

end BodyEnd

section BodyEndTop

attribute [local irreducible] Lexer.next

/-- C9: when the head of a block is accepted (its open brace consumed, `header` returns) and
end-of-input is `n` tokens ahead, the body loop ends for every fuel above `n`, either on a
closing brace or on end-of-input; when it ends on end-of-input (no closing brace closed the
block), the top-level loop ends with the fatal error of `expect` and returns no Definition
list; and this is the case whenever no closing brace is among the `n` tokens before
end-of-input. -/
theorem C9_eof_in_body_is_fatal (fuel n : Nat) (p p1 : Parser) (d1 : Def) (defs : List Def)
    (hne : p.tok.type ≠ TOK_EOF)
    (hh : Parser.header fuel p = .ok (p1, d1))
    (hend : (Parser.eat^[n] p1).tok.type = TOK_EOF)
    (hf : n < fuel) :
    ∃ p2 d2, Parser.bodyLoop fuel p1 d1 = .ok (p2, d2) ∧ Parser.Reach p1 p2
      ∧ (p2.tok.type = TOK_RB ∨ p2.tok.type = TOK_EOF)
      ∧ (p2.tok.type = TOK_EOF →
          Parser.parseLoop (fuel + 1) p defs = .fatal "Expected token, got: ".toList)
      ∧ ((∀ i, i < n → (Parser.eat^[i] p1).tok.type ≠ TOK_RB) →
          Parser.parseLoop (fuel + 1) p defs = .fatal "Expected token, got: ".toList) := by
  have hl : Parser.Lexed p1 := by
    rcases Parser.header_outcome fuel p with ⟨a, ha, hq⟩ | ⟨m, hm⟩ | ⟨ht, _⟩
    · rw [hh] at ha
      cases ha
      exact Parser.lexed_reach (Parser.lexed_eat p) hq
    · rw [hh] at hm; exact Res.noConfusion hm
    · rw [hh] at ht; exact Res.noConfusion ht
  obtain ⟨p2, d2, hb, hr, hx⟩ := Parser.bodyLoop_ends fuel n p1 d1 hl hend hf
  have hfatal : p2.tok.type = TOK_EOF →
      Parser.parseLoop (fuel + 1) p defs = .fatal "Expected token, got: ".toList := by
    intro he
    have hv := Parser.lexed_eof_val (Parser.lexed_reach hl hr) he
    simp [Parser.parseLoop, Parser.block, Parser.expect, Parser.matchT, hne, hh, hb, he, hv]
  refine ⟨p2, d2, hb, hr, hx, hfatal, ?_⟩
  intro hrb
  apply hfatal
  rcases hx with h1 | h1
  · exfalso
    obtain ⟨i, rfl⟩ := hr
    obtain ⟨s, rfl⟩ := hl
    have he := Parser.ends_of_eof s n hend
    by_cases hi : i < n
    · exact hrb i hi h1
    · rw [Parser.ends_fix he i (by omega), hend] at h1
      exact TokenType.noConfusion h1
  · exact h1

end BodyEndTop

/-- C9 at the input `struct A { desc: "x";`: after the open brace the tokens are `desc`, `:`,
the string and `;`, then end-of-input. -/
theorem C9_witness :
    parse 6 "struct A \x7b desc: \"x\";".toList = .fatal "Expected token, got: ".toList :=
  (C9_eof_in_body_is_fatal 5 4 (Parser.init "struct A \x7b desc: \"x\";".toList)
    ⟨": \"x\";".toList, ⟨TOK_ID, "desc".toList⟩⟩
    { kind := "struct".toList, name := "A".toList } []
    (by decide) (by rfl) (by decide) (by decide)).elim
    fun _ h => h.elim fun _ h => h.2.2.2.2 (by decide)

/-! ## Identifier items in the examples and notes clauses -/

/-- The field read at a comma: nothing is consumed and the Field is empty. -/
theorem field_comma (fuel : Nat) (s : Str) :
    Parser.field (fuel + 1) ⟨s, ⟨TOK_COMMA, [',']⟩⟩ = .ok ({}, ⟨s, ⟨TOK_COMMA, [',']⟩⟩) := by
  rfl

section RejectedItems

attribute [local irreducible] Lexer.next

namespace Parser

/-- The notes clause on a token that is not a string literal: the loop accepts string tokens
only, so the Definition is unchanged. -/
theorem clause_notes_other (fuel : Nat) (p : Parser) (d : Def) (hv : p.tok.val = "notes".toList)
    (hc : p.eat.tok.type = TOK_COLON) (hs : p.eat.eat.tok.type ≠ TOK_STR) :
    clause (fuel + 1) p d = .ok ((p.eat.eat.matchT TOK_SEMI).2, d) := by
  rw [clause_notes _ _ _ hv hc]
  simp [itemLoop, strOnly, hs]

/-- The examples clause on a token that is not a string literal, likewise. -/
theorem clause_examples_other (fuel : Nat) (p : Parser) (d : Def)
    (hv : p.tok.val = "examples".toList) (hc : p.eat.tok.type = TOK_COLON)
    (hs : p.eat.eat.tok.type ≠ TOK_STR) :
    clause (fuel + 1) p d = .ok ((p.eat.eat.matchT TOK_SEMI).2, d) := by
  rw [clause_examples _ _ _ hv hc]
  simp [itemLoop, strOnly, hs]

/-- The notes clause on an identifier item: the loop accepts string tokens only, so no item
is added and the identifier stays the current token. -/
theorem clause_notes_ident (fuel : Nat) (p : Parser) (d : Def) (hv : p.tok.val = "notes".toList)
    (hc : p.eat.tok.type = TOK_COLON) (hid : p.eat.eat.tok.type = TOK_ID) :
    clause (fuel + 1) p d = .ok (p.eat.eat, d) := by
  rw [clause_notes _ _ _ hv hc]
  simp [itemLoop, strOnly, matchT, hid]

/-- The examples clause on an identifier item, likewise. -/
theorem clause_examples_ident (fuel : Nat) (p : Parser) (d : Def)
    (hv : p.tok.val = "examples".toList) (hc : p.eat.tok.type = TOK_COLON)
    (hid : p.eat.eat.tok.type = TOK_ID) :
    clause (fuel + 1) p d = .ok (p.eat.eat, d) := by
  rw [clause_examples _ _ _ hv hc]
  simp [itemLoop, strOnly, matchT, hid]

theorem stop_commaTail (xs : List Str) (E : Str) :
    Lexer.isIdChar (Lexer.peek (sepTail [',', ' '] xs ++ ';' :: E) 0) = false := by
  cases xs with
  | nil => exact stop_cons _ _ (by decide)
  | cons y ys => exact stop_cons _ _ (by decide)

/-- The body loop on identifiers separated by commas and closed by a semicolon, outside any
list clause: every identifier is read as the lead identifier of an empty Field, every comma
is skipped. -/
theorem bodyLoop_idents : ∀ (xs : List Str) (x : Str) (d : Def) (fuel : Nat),
    (∀ y ∈ x :: xs, isIdent y = true ∧ y ∉ clauseKeywords) → 2 * xs.length + 2 ≤ fuel →
    bodyLoop fuel ⟨sepTail [',', ' '] xs ++ ';' :: [' ', '}'], ⟨TOK_ID, x⟩⟩ d
      = .ok (⟨[], ⟨TOK_RB, ['}']⟩⟩,
          { d with fields := d.fields ++ List.replicate (xs.length + 1) {} }) := by
  intro xs
  induction xs with
  | nil =>
    intro x d fuel hx hf
    obtain ⟨f, rfl⟩ : ∃ f, fuel = f + 2 := ⟨fuel - 2, by simp at hf; omega⟩
    have hxk := (hx x (List.mem_cons_self _ _)).2
    apply bodyLoop_one
    · simp
    · simp
    · rw [clause_generic _ _ _ hxk]
      have hfs := field_semi f
      simp [sepTail, generic, eat, matchT, Lexer.next_semi, hfs]
    · rfl
  | cons y ys ih =>
    intro x d fuel hx hf
    simp only [List.length_cons] at hf
    obtain ⟨f, rfl⟩ : ∃ f, fuel = f + 2 := ⟨fuel - 2, by omega⟩
    have hxk := (hx x (List.mem_cons_self _ _)).2
    have hy := hx y (List.mem_cons_of_mem _ (List.mem_cons_self _ _))
    have htxt : sepTail [',', ' '] (y :: ys) ++ ';' :: [' ', '}']
        = ',' :: ' ' :: (y ++ (sepTail [',', ' '] ys ++ ';' :: [' ', '}'])) := by
      simp [sepTail]
    have hny : Lexer.next (y ++ (sepTail [',', ' '] ys ++ ';' :: [' ', '}']))
        = (⟨TOK_ID, y⟩, sepTail [',', ' '] ys ++ ';' :: [' ', '}']) :=
      Lexer.next_ident _ _ hy.1 (stop_commaTail ys _)
    have hc1 : clause (f + 1)
        ⟨',' :: ' ' :: (y ++ (sepTail [',', ' '] ys ++ ';' :: [' ', '}'])), ⟨TOK_ID, x⟩⟩ d
        = .ok (⟨' ' :: (y ++ (sepTail [',', ' '] ys ++ ';' :: [' ', '}'])), ⟨TOK_COMMA, [',']⟩⟩,
            { d with fields := d.fields ++ [{}] }) := by
      rw [clause_generic _ _ _ hxk]
      have hfc := field_comma f (' ' :: (y ++ (sepTail [',', ' '] ys ++ ';' :: [' ', '}'])))
      simp [generic, eat, matchT, Lexer.next_comma, hfc]
    have hc2 : clause f
        ⟨' ' :: (y ++ (sepTail [',', ' '] ys ++ ';' :: [' ', '}'])), ⟨TOK_COMMA, [',']⟩⟩
        { d with fields := d.fields ++ [{}] }
        = .ok (⟨sepTail [',', ' '] ys ++ ';' :: [' ', '}'], ⟨TOK_ID, y⟩⟩,
            { d with fields := d.fields ++ [{}] }) := by
      rw [clause_generic _ _ _ (show ([','] : Str) ∉ clauseKeywords by decide)]
      simp [eat, hny]
    have hrest := ih y { d with fields := d.fields ++ [{}] } f
      (fun z hz => hx z (List.mem_cons_of_mem _ hz)) (by omega)
    rw [htxt, bodyLoop]
    simp only [hc1, ne_eq, reduceCtorEq, not_false_eq_true, decide_True, Bool.and_self, if_true,
      Res.ok_bind]
    rw [bodyLoop]
    simp only [hc2, ne_eq, reduceCtorEq, not_false_eq_true, decide_True, Bool.and_self, if_true,
      Res.ok_bind]
    rw [hrest]
    simp [List.replicate_succ]

/-- The body loop on a clause `kw: x1, ..., xn;` of identifiers whose keyword dispatches to a
loop that accepts string tokens only: the clause adds nothing, and the identifiers are read
as field declarations. -/
theorem bodyLoop_rejected (kw : Str) (hkw : isIdent kw = true)
    (hdisp : ∀ (f : Nat) (p : Parser) (d : Def), p.tok.val = kw → p.eat.tok.type = TOK_COLON →
      p.eat.eat.tok.type = TOK_ID → clause (f + 1) p d = .ok (p.eat.eat, d))
    (x : Str) (xs : List Str) (hx : ∀ y ∈ x :: xs, isIdent y = true ∧ y ∉ clauseKeywords)
    (d : Def) (fuel : Nat) (hf : 2 * xs.length + 2 ≤ fuel) :
    bodyLoop (fuel + 1) (init (listClause kw (x :: xs) ++ [' ', '}'])) d
      = .ok (⟨[], ⟨TOK_RB, ['}']⟩⟩,
          { d with fields := d.fields ++ List.replicate (xs.length + 1) {} }) := by
  obtain ⟨f, rfl⟩ : ∃ f, fuel = f + 1 := ⟨fuel - 1, by omega⟩
  have e0 : Lexer.next (kw ++ ':' :: ' ' :: (x ++ (sepTail [',', ' '] xs ++ ';' :: [' ', '}'])))
      = (⟨TOK_ID, kw⟩, ':' :: ' ' :: (x ++ (sepTail [',', ' '] xs ++ ';' :: [' ', '}']))) :=
    Lexer.next_ident kw _ hkw (stop_cons _ _ (by decide))
  have hinit : init (listClause kw (x :: xs) ++ [' ', '}'])
      = ⟨':' :: ' ' :: (x ++ (sepTail [',', ' '] xs ++ ';' :: [' ', '}'])), ⟨TOK_ID, kw⟩⟩ := by
    have : listClause kw (x :: xs) ++ [' ', '}']
        = kw ++ ':' :: ' ' :: (x ++ (sepTail [',', ' '] xs ++ ';' :: [' ', '}'])) := by
      have hS : ", ".toList = [',', ' '] := rfl
      simp [listClause, hS, intercalate_cons]
    rw [this, init, e0]
  have hnx : Lexer.next (x ++ (sepTail [',', ' '] xs ++ ';' :: [' ', '}']))
      = (⟨TOK_ID, x⟩, sepTail [',', ' '] xs ++ ';' :: [' ', '}']) :=
    Lexer.next_ident _ _ (hx x (List.mem_cons_self _ _)).1 (stop_commaTail xs _)
  have h1 : (⟨':' :: ' ' :: (x ++ (sepTail [',', ' '] xs ++ ';' :: [' ', '}'])), ⟨TOK_ID, kw⟩⟩ :
      Parser).eat
      = ⟨' ' :: (x ++ (sepTail [',', ' '] xs ++ ';' :: [' ', '}'])), ⟨TOK_COLON, [':']⟩⟩ := by
    simp [eat, Lexer.next_colon]
  have h2 : (⟨' ' :: (x ++ (sepTail [',', ' '] xs ++ ';' :: [' ', '}'])), ⟨TOK_COLON, [':']⟩⟩ :
      Parser).eat = ⟨sepTail [',', ' '] xs ++ ';' :: [' ', '}'], ⟨TOK_ID, x⟩⟩ := by
    simp [eat, hnx]
  have hc := hdisp f
    ⟨':' :: ' ' :: (x ++ (sepTail [',', ' '] xs ++ ';' :: [' ', '}'])), ⟨TOK_ID, kw⟩⟩ d rfl
    (by rw [h1]) (by rw [h1, h2])
  rw [h1, h2] at hc
  rw [hinit]
  rw [bodyLoop]
  simp only [hc, ne_eq, reduceCtorEq, not_false_eq_true, decide_True, Bool.and_self, if_true,
    Res.ok_bind]
  exact bodyLoop_idents xs x d (f + 1) hx hf

end Parser

end RejectedItems

/-- C15 (amended): `links` and `tags` accept identifier and string items, `examples` and
`notes` accept string items only. For every list `ss` of string literals the bodies
`notes: s1, ..., sn;` and `examples: s1, ..., sn;` yield notes, resp. examples, equal to the
texts of the literals, and for every list `vs` of identifiers and string literals the bodies
`links: v1, ..., vn;` and `tags: v1, ..., vn;` yield links, resp. tags, equal to the texts of
the items; in all four cases no Field is added. An identifier item is not accepted by
`notes` and `examples`: for every non-empty list of identifiers `x1..xn`, none a clause
keyword, the bodies `notes: x1, ..., xn;` and `examples: x1, ..., xn;` leave notes, resp.
examples, empty, and every identifier is read as a field declaration, which adds `n` empty
Fields. In general a turn of the body loop on `notes` or `examples` and a colon followed by
any token that is not a string literal leaves the Definition unchanged. -/
theorem C15_list_clause_items (kind name : Str) (ss vs : List Scalar) (fuel : Nat)
    (hk : kind ∈ Parser.kinds) (hn : isIdent name = true)
    (hss : ∀ s ∈ ss, s.wf = true ∧ s.kind = TOK_STR)
    (hvs : ∀ v ∈ vs, v.wf = true ∧ (v.kind = TOK_ID ∨ v.kind = TOK_STR))
    (hf : ss.length + vs.length + 3 ≤ fuel) :
    (parse fuel (blockOf kind name (listClause "notes".toList (ss.map Scalar.src)))
        = .ok [{ kind := kind, name := name, notes := ss.map Scalar.text, fields := [] }]
      ∧ parse fuel (blockOf kind name (listClause "examples".toList (ss.map Scalar.src)))
        = .ok [{ kind := kind, name := name, examples := ss.map Scalar.text, fields := [] }]
      ∧ parse fuel (blockOf kind name (listClause "links".toList (vs.map Scalar.src)))
        = .ok [{ kind := kind, name := name, links := vs.map Scalar.text, fields := [] }]
      ∧ parse fuel (blockOf kind name (listClause "tags".toList (vs.map Scalar.src)))
        = .ok [{ kind := kind, name := name, tags := vs.map Scalar.text, fields := [] }])
    ∧ (∀ (x : Str) (xs : List Str),
        (∀ y ∈ x :: xs, isIdent y = true ∧ y ∉ clauseKeywords) → 2 * xs.length + 4 ≤ fuel →
        parse fuel (blockOf kind name (listClause "notes".toList (x :: xs)))
            = .ok [{ kind := kind, name := name, notes := [],
                     fields := List.replicate (xs.length + 1) {} }]
          ∧ parse fuel (blockOf kind name (listClause "examples".toList (x :: xs)))
            = .ok [{ kind := kind, name := name, examples := [],
                     fields := List.replicate (xs.length + 1) {} }])
    ∧ ∀ (f : Nat) (p : Parser) (d : Def),
        p.tok.val = "notes".toList ∨ p.tok.val = "examples".toList →
        p.eat.tok.type = TOK_COLON → p.eat.eat.tok.type ≠ TOK_STR →
        Parser.clause (f + 1) p d = .ok ((p.eat.eat.matchT TOK_SEMI).2, d) := by
  refine ⟨listClause_accepted kind name ss vs fuel hk hn hss hvs hf, ?_, ?_⟩
  swap
  · intro f p d hv hc hs
    rcases hv with hv | hv
    · exact Parser.clause_notes_other f p d hv hc hs
    · exact Parser.clause_examples_other f p d hv hc hs
  intro x xs hx hfx
  obtain ⟨g, rfl⟩ : ∃ g, fuel = g + 2 := ⟨fuel - 2, by omega⟩
  constructor
  · exact Parser.parse_blockOf kind name _ hk hn g _
      (Parser.bodyLoop_rejected "notes".toList (by decide)
        (fun f p d h1 h2 h3 => Parser.clause_notes_ident f p d h1 h2 h3) x xs hx
        { kind := kind, name := name } g (by omega))
  · exact Parser.parse_blockOf kind name _ hk hn g _
      (Parser.bodyLoop_rejected "examples".toList (by decide)
        (fun f p d h1 h2 h3 => Parser.clause_examples_ident f p d h1 h2 h3) x xs hx
        { kind := kind, name := name } g (by omega))

/-- C15 (amended) at the bodies `notes: "a", 'b';`, `examples: "a", 'b';`, `links: a, "b";`
and `tags: a, "b";`, and at the identifier lists `notes: a, b;` and `examples: a, b;`. -/
theorem C15_witness :
    (parse 7 "struct A \x7b notes: \"a\", 'b'; \x7d".toList
        = .ok [{ kind := "struct".toList, name := "A".toList,
                 notes := ["a".toList, "b".toList] }]
      ∧ parse 7 "struct A \x7b examples: \"a\", 'b'; \x7d".toList
        = .ok [{ kind := "struct".toList, name := "A".toList,
                 examples := ["a".toList, "b".toList] }]
      ∧ parse 7 "struct A \x7b links: a, \"b\"; \x7d".toList
        = .ok [{ kind := "struct".toList, name := "A".toList,
                 links := ["a".toList, "b".toList] }]
      ∧ parse 7 "struct A \x7b tags: a, \"b\"; \x7d".toList
        = .ok [{ kind := "struct".toList, name := "A".toList,
                 tags := ["a".toList, "b".toList] }])
    ∧ (parse 7 "struct A \x7b notes: a, b; \x7d".toList
        = .ok [{ kind := "struct".toList, name := "A".toList, notes := [],
                 fields := [{}, {}] }]
      ∧ parse 7 "struct A \x7b examples: a, b; \x7d".toList
        = .ok [{ kind := "struct".toList, name := "A".toList, examples := [],
                 fields := [{}, {}] }]) :=
  ⟨(C15_list_clause_items "struct".toList "A".toList
      [.str '"' "a".toList, .str '\'' "b".toList] [.ident "a".toList, .str '"' "b".toList] 7
      (by decide) (by decide) (by decide) (by decide) (by decide)).1,
   (C15_list_clause_items "struct".toList "A".toList
      [.str '"' "a".toList, .str '\'' "b".toList] [.ident "a".toList, .str '"' "b".toList] 7
      (by decide) (by decide) (by decide) (by decide) (by decide)).2.1 "a".toList ["b".toList]
      (by decide) (by decide)⟩

/-! ## The deprecated clause, block by block -/

namespace Lexer

end Lexer

section DeprecatedBlocks

attribute [local irreducible] Lexer.next

namespace Parser

end Parser

end DeprecatedBlocks

end Sdoc
